import Mathlib

/-!
# Carbon-flux kinetics and phloem rheology (`functions.h`)

A shallow embedding of the six numeric functions of `functions.h`:

* `SinkUnloading`, `dSinkUnloading_dcp`, `SourceLoading`, `dSourceLoading_dcp`
  (sink/source kinetics in the carbon potential `cp`);
* `PhloemResistanceRatio`, `PressureRatio` (phloem rheology).

There are two readings of the source.

* Machine arithmetic (`Lpy.IEEE.SinkUnloading`, ...): each function on IEEE 754 values
  with the C types of the source: `float` is binary32, `double` is binary64, a decimal
  constant is a `double`, an operation on two `float`s is rounded to `float`, an
  operation with a `double` operand is rounded to `double`, a `double` stored into a
  `float` or returned as one is rounded again, all to nearest with ties to even, with
  gradual underflow, overflow to infinity, and NaN.  Finite values are rationals, so
  every function evaluates inside the logic.  The sign of a zero is not recorded.
  This is the reading in which statements about returned values are settled.
* Exact arithmetic (`Lpy.SinkUnloading`, ...): the expression of the source over an
  arbitrary field `α`, with the square root as an argument.  It says what a formula
  computes before any rounding, and is used only where a statement is about the formula
  itself: the identity of the two derivative bodies, the sign of the derivative, the
  arithmetic of the worked example of the resistance ratio, the derivative in the sense
  of analysis against which the machine values are measured, and the roots of the
  denominator polynomial.
-/

namespace Lpy

section Source

variable {α : Type} [Field α]

/-- Michaelis-Menten carbon unloading, `SinkUnloading` of `functions.h`:
`c = sqrt(2.0*cp); return c / (q + c)`. -/
def SinkUnloading (sqrt : α → α) (cp q : α) : α :=
  let c := sqrt (2.0 * cp)
  c / (q + c)

/-- The function `dSinkUnloading_dcp` of `functions.h`:
`c = sqrt(2.0*cp); return q / ((q + c)*(q + c) * (c + 0.001))`. -/
def dSinkUnloading_dcp (sqrt : α → α) (cp q : α) : α :=
  let c := sqrt (2.0 * cp)
  q / ((q + c) * (q + c) * (c + 0.001))

/-- The function `dSourceLoading_dcp` of `functions.h`:
`c = sqrt(2.0*cp); return q / ((q + c) * (q + c) * (c + 0.001))`. -/
def dSourceLoading_dcp (sqrt : α → α) (cp q : α) : α :=
  let c := sqrt (2.0 * cp)
  q / ((q + c) * (q + c) * (c + 0.001))

/-- Phloem resistance ratio `R/R0`, `PhloemResistanceRatio` of `functions.h`. -/
def PhloemResistanceRatio (cab : α) : α :=
  let k1 : α := 0.19961
  let k2 : α := 1.00954
  let k3 : α := -2.2249
  let k4 : α := 1.2776
  (1.0 + k1 * cab + k2 * cab * cab) / (1.0 + k3 * cab + k4 * cab * cab)

/-- Numerator of the quotient `PhloemResistanceRatio` returns, `1.0+k1*cab+k2*cab*cab`. -/
def resistanceNumerator (cab : α) : α :=
  let k1 : α := 0.19961
  let k2 : α := 1.00954
  1.0 + k1 * cab + k2 * cab * cab

/-- Denominator of the quotient `PhloemResistanceRatio` returns, `1.0+k3*cab+k4*cab*cab`. -/
def resistanceDenominator (cab : α) : α :=
  let k3 : α := -2.2249
  let k4 : α := 1.2776
  1.0 + k3 * cab + k4 * cab * cab

end Source

/-! ## Machine arithmetic: binary32 and binary64 -/

namespace IEEE

/-- A binary floating-point format: `prec` significand bits, least positive value
`2 ^ emin`, finite values of magnitude below `2 ^ emax`. -/
structure Format where
  prec : ℕ
  emin : ℤ
  emax : ℤ

/-- The C type `float` (IEEE 754 binary32). -/
def binary32 : Format := ⟨24, -149, 128⟩

/-- The C type `double` (IEEE 754 binary64). -/
def binary64 : Format := ⟨53, -1074, 1024⟩

/-- Round to the nearest integer, ties to the even one. -/
def rne (y : ℚ) : ℤ :=
  if y - ⌊y⌋ < 1 / 2 then ⌊y⌋
  else if 1 / 2 < y - ⌊y⌋ then ⌊y⌋ + 1
  else if ⌊y⌋ % 2 = 0 then ⌊y⌋ else ⌊y⌋ + 1

/-- Count of binary digits of `m`, by recursion on a bound `f ≥ m`. -/
def bitsAux : ℕ → ℕ → ℕ
  | 0, _ => 0
  | f + 1, m => if m = 0 then 0 else bitsAux f (m / 2) + 1

/-- Number of binary digits of `n`: `n < 2 ^ bits n`, and `2 ^ (bits n - 1) ≤ n` for
`n ≠ 0`. -/
def bits (n : ℕ) : ℕ := bitsAux n n

/-- Binary exponent of a rational: `2 ^ ilog2 x ≤ |x| < 2 ^ (ilog2 x + 1)` for `x ≠ 0`. -/
def ilog2 (x : ℚ) : ℤ :=
  if (2 : ℚ) ^ ((bits x.num.natAbs : ℤ) - bits x.den) ≤ |x| then
    (bits x.num.natAbs : ℤ) - bits x.den
  else (bits x.num.natAbs : ℤ) - bits x.den - 1

/-- Exponent of the spacing of format `F` around `x`: `prec` digits below the leading
one, but never below `emin` (gradual underflow). -/
def quantum (F : Format) (x : ℚ) : ℤ :=
  max (ilog2 x - (F.prec - 1)) F.emin

/-- Round-to-nearest-even of `x` onto the grid of format `F` around `x` (before the
overflow check). -/
def roundQ (F : Format) (x : ℚ) : ℚ :=
  rne (x / 2 ^ quantum F x) * 2 ^ quantum F x

/-- The rational `x` is a finite value of format `F`. -/
abbrev Rep (F : Format) (x : ℚ) : Prop :=
  roundQ F x = x ∧ |x| < 2 ^ F.emax

/-- Values of a floating-point variable: NaN, the two infinities, or a finite number.
The sign of zero is not recorded; a zero divisor is taken as `+0`. -/
inductive FP where
  | nan : FP
  | pinf : FP
  | ninf : FP
  | fin (x : ℚ) : FP
deriving DecidableEq

namespace FP

/-- Rounding of an exact result into format `F`: round to nearest even, overflow to an
infinity. -/
def round (F : Format) (x : ℚ) : FP :=
  if 2 ^ F.emax ≤ roundQ F x then pinf
  else if roundQ F x ≤ -2 ^ F.emax then ninf
  else fin (roundQ F x)

/-- Unary minus. -/
def neg : FP → FP
  | nan => nan
  | pinf => ninf
  | ninf => pinf
  | fin x => fin (-x)

/-- Addition with result type `F`. -/
def add (F : Format) : FP → FP → FP
  | fin x, fin y => round F (x + y)
  | nan, _ => nan
  | _, nan => nan
  | pinf, ninf => nan
  | ninf, pinf => nan
  | pinf, _ => pinf
  | ninf, _ => ninf
  | _, pinf => pinf
  | _, ninf => ninf

/-- Multiplication with result type `F`. -/
def mul (F : Format) : FP → FP → FP
  | fin x, fin y => round F (x * y)
  | nan, _ => nan
  | _, nan => nan
  | pinf, pinf => pinf
  | ninf, ninf => pinf
  | pinf, ninf => ninf
  | ninf, pinf => ninf
  | pinf, fin y => if 0 < y then pinf else if y < 0 then ninf else nan
  | ninf, fin y => if 0 < y then ninf else if y < 0 then pinf else nan
  | fin x, pinf => if 0 < x then pinf else if x < 0 then ninf else nan
  | fin x, ninf => if 0 < x then ninf else if x < 0 then pinf else nan

/-- Division with result type `F`. -/
def div (F : Format) : FP → FP → FP
  | fin x, fin y =>
    if y = 0 then (if 0 < x then pinf else if x < 0 then ninf else nan)
    else round F (x / y)
  | nan, _ => nan
  | _, nan => nan
  | fin _, pinf => fin 0
  | fin _, ninf => fin 0
  | pinf, fin y => if 0 ≤ y then pinf else ninf
  | ninf, fin y => if 0 ≤ y then ninf else pinf
  | pinf, pinf => nan
  | pinf, ninf => nan
  | ninf, pinf => nan
  | ninf, ninf => nan

/-- Integer square root by bisection on the binary digits: `isqrtAux n k s` extends `s`
by digits below position `k`. -/
def isqrtAux (n : ℕ) : ℕ → ℕ → ℕ
  | 0, s => s
  | k + 1, s =>
    if (s + 2 ^ k) * (s + 2 ^ k) ≤ n then isqrtAux n k (s + 2 ^ k) else isqrtAux n k s

/-- Integer square root: the largest `s` with `s * s ≤ n`. -/
def isqrt (n : ℕ) : ℕ := isqrtAux n (bits n) 0

/-- A rational that rounds like the exact square root of `x ≥ 0`: the root itself when
it is a multiple of `2 ^ (-600)`, otherwise the midpoint of the two neighbouring
multiples of `2 ^ (-600)` that enclose it. -/
def sqrtRep (x : ℚ) : ℚ :=
  if (isqrt ⌊x * 4 ^ 600⌋₊ : ℚ) * isqrt ⌊x * 4 ^ 600⌋₊ = x * 4 ^ 600
  then isqrt ⌊x * 4 ^ 600⌋₊ / 2 ^ 600
  else (2 * isqrt ⌊x * 4 ^ 600⌋₊ + 1) / 2 ^ 601

/-- The library function `sqrt` with result type `F` (correctly rounded). -/
def sqrt (F : Format) : FP → FP
  | fin x => if x < 0 then nan else round F (sqrtRep x)
  | pinf => pinf
  | _ => nan

/-- Conversion to type `F` (rounds a `double` stored into a `float`). -/
def cast (F : Format) : FP → FP
  | fin x => round F x
  | a => a

/-- Order of the extended values; NaN is not related to anything. -/
def le : FP → FP → Prop
  | fin x, fin y => x ≤ y
  | nan, _ => False
  | _, nan => False
  | ninf, _ => True
  | _, pinf => True
  | _, _ => False

/-- The value is `+∞` or a finite number that is not negative. -/
def NN : FP → Prop
  | fin x => 0 ≤ x
  | pinf => True
  | _ => False

end FP

/-- A decimal constant of type `double`. -/
def lit64 (x : ℚ) : FP := FP.round binary64 x

/-- A decimal constant (a `double`) stored into a `float` variable. -/
def lit32 (x : ℚ) : FP := FP.cast binary32 (FP.round binary64 x)

/-- The statement `float c = sqrt(2.0*cp);` shared by the four kinetics functions: the
product and the root are `double`, the store rounds to `float`. -/
def conc (cp : FP) : FP :=
  FP.cast binary32 (FP.sqrt binary64 (FP.mul binary64 (lit64 2.0) cp))

/-- `SinkUnloading` of `functions.h` with its C types: `return c / (q + c)`, all
`float`. -/
def SinkUnloading (cp q : FP) : FP :=
  let c := conc cp
  FP.div binary32 c (FP.add binary32 q c)

/-- Denominator `q + c` of `SinkUnloading` and `SourceLoading`, a `float`. -/
def fluxDenominator (cp q : FP) : FP :=
  FP.add binary32 q (conc cp)

/-- Denominator `(q + c)*(q + c) * (c + 0.001)` of the derivative functions with its C
types: `float` sum and product, `double` sum `c + 0.001`, `double` product. -/
def derivativeDenominator (cp q : FP) : FP :=
  let c := conc cp
  FP.mul binary64 (FP.mul binary32 (FP.add binary32 q c) (FP.add binary32 q c))
    (FP.add binary64 c (lit64 0.001))

/-- `dSinkUnloading_dcp` of `functions.h` with its C types: the quotient is a `double`,
the return rounds it to `float`. -/
def dSinkUnloading_dcp (cp q : FP) : FP :=
  FP.cast binary32 (FP.div binary64 q (derivativeDenominator cp q))

/-- `SourceLoading` of `functions.h` with its C types: `c / (q + c)` is a `float`, the
sum with `-1.0` a `double`, the return rounds it to `float`. -/
def SourceLoading (cp q : FP) : FP :=
  let c := conc cp
  FP.cast binary32
    (FP.add binary64 (FP.neg (lit64 1.0)) (FP.div binary32 c (FP.add binary32 q c)))

/-- `dSourceLoading_dcp` of `functions.h` with its C types. -/
def dSourceLoading_dcp (cp q : FP) : FP :=
  FP.cast binary32 (FP.div binary64 q (derivativeDenominator cp q))

/-- Numerator `1.0+k1*cab+k2*cab*cab` of `PhloemResistanceRatio` with its C types: the
products are `float`, the sums `double`. -/
def resistanceNumerator (cab : FP) : FP :=
  let k1 := lit32 0.19961
  let k2 := lit32 1.00954
  FP.add binary64 (FP.add binary64 (lit64 1.0) (FP.mul binary32 k1 cab))
    (FP.mul binary32 (FP.mul binary32 k2 cab) cab)

/-- Denominator `1.0+k3*cab+k4*cab*cab` of `PhloemResistanceRatio` with its C types. -/
def resistanceDenominator (cab : FP) : FP :=
  let k3 := FP.cast binary32 (FP.neg (lit64 2.2249))
  let k4 := lit32 1.2776
  FP.add binary64 (FP.add binary64 (lit64 1.0) (FP.mul binary32 k3 cab))
    (FP.mul binary32 (FP.mul binary32 k4 cab) cab)

/-- `PhloemResistanceRatio` of `functions.h` with its C types: a `double` quotient
returned as `float`. -/
def PhloemResistanceRatio (cab : FP) : FP :=
  FP.cast binary32 (FP.div binary64 (resistanceNumerator cab) (resistanceDenominator cab))

/-- `PressureRatio` of `functions.h` with its C types: `a + b*cab + c*cab*cab`, all
`float`. -/
def PressureRatio (cab : FP) : FP :=
  let a := lit32 1.03913
  let b := lit32 0.86536
  let c := lit32 5.2465
  FP.add binary32 (FP.add binary32 a (FP.mul binary32 b cab))
    (FP.mul binary32 (FP.mul binary32 c cab) cab)

/-- The finite value `conc` returns at a finite `cp ≥ 0`. -/
def concQ (cp : ℚ) : ℚ :=
  roundQ binary32 (roundQ binary64 (FP.sqrtRep (roundQ binary64 (2 * cp))))

/-- The finite value of `c / (q + c)` in `float` arithmetic for finite `c ≥ 0`, `q > 0`:
zero when the sum overflows. -/
def sinkQ (c q : ℚ) : ℚ :=
  if 2 ^ binary32.emax ≤ roundQ binary32 (q + c) then 0
  else roundQ binary32 (c / roundQ binary32 (q + c))

/-- The finite value of `(float)(-1.0 + s)` for a `float` `s` in `[0, 1]`. -/
def sourceQ (s : ℚ) : ℚ :=
  roundQ binary32 (roundQ binary64 (-1 + s))

end IEEE

/-! ## The exact-arithmetic reading: the expressions of the source at the real numbers -/

theorem two_lit : (2.0 : ℝ) = 2 := by norm_num

theorem offset_lit : (0.001 : ℝ) = 1 / 1000 := by norm_num

theorem SinkUnloading_eq (cp q : ℝ) :
    SinkUnloading Real.sqrt cp q = Real.sqrt (2 * cp) / (q + Real.sqrt (2 * cp)) := by
  simp only [SinkUnloading, two_lit]

theorem dSinkUnloading_dcp_eq (cp q : ℝ) :
    dSinkUnloading_dcp Real.sqrt cp q =
      q / ((q + Real.sqrt (2 * cp)) * (q + Real.sqrt (2 * cp)) * (Real.sqrt (2 * cp) + 1 / 1000)) := by
  simp only [dSinkUnloading_dcp, two_lit, offset_lit]

/-! ## Derivative of the unloading flux -/

/-- The concentration `sqrt(2*cp)` has derivative `1 / sqrt(2*cp)` at every `cp > 0`. -/
theorem conc_hasDerivAt (cp : ℝ) (hcp : 0 < cp) :
    HasDerivAt (fun x : ℝ => Real.sqrt (2 * x)) (1 / Real.sqrt (2 * cp)) cp := by
  have h2 : HasDerivAt (fun x : ℝ => 2 * x) 2 cp := by
    simpa using (hasDerivAt_id cp).const_mul (2 : ℝ)
  have hne : (2 * cp : ℝ) ≠ 0 := by positivity
  have h := h2.sqrt hne
  have hs : 0 < Real.sqrt (2 * cp) := Real.sqrt_pos.mpr (by positivity)
  convert h using 1
  field_simp

/-- Chain and quotient rule for `cp ↦ c / (q + c)`, `c = sqrt(2*cp)`: the derivative at
`cp > 0` is `q / ((q + c) * (q + c) * c)`. -/
theorem ratio_hasDerivAt (cp q : ℝ) (hcp : 0 < cp) (hq : 0 < q) :
    HasDerivAt (fun x : ℝ => Real.sqrt (2 * x) / (q + Real.sqrt (2 * x)))
      (q / ((q + Real.sqrt (2 * cp)) * (q + Real.sqrt (2 * cp)) * Real.sqrt (2 * cp))) cp := by
  have hs : 0 < Real.sqrt (2 * cp) := Real.sqrt_pos.mpr (by positivity)
  have hc := conc_hasDerivAt cp hcp
  have hden : HasDerivAt (fun x : ℝ => q + Real.sqrt (2 * x)) (1 / Real.sqrt (2 * cp)) cp :=
    hc.const_add q
  have hne : q + Real.sqrt (2 * cp) ≠ 0 := by positivity
  have h := hc.div hden hne
  have alg : ∀ c : ℝ, 0 < c →
      q / ((q + c) * (q + c) * c) = (1 / c * (q + c) - c * (1 / c)) / (q + c) ^ 2 := by
    intro c hc
    have hc0 : c ≠ 0 := hc.ne'
    have hnum : 1 / c * (q + c) - c * (1 / c) = q / c := by
      field_simp
    rw [hnum, div_div]
    congr 1
    ring
  rw [alg _ hs]
  exact h

/-- The derivative of `cp ↦ SinkUnloading cp q` at `cp > 0`, for `q > 0`. -/
theorem hasDerivAt_SinkUnloading (cp q : ℝ) (hcp : 0 < cp) (hq : 0 < q) :
    HasDerivAt (fun x : ℝ => SinkUnloading Real.sqrt x q)
      (q / ((q + Real.sqrt (2 * cp)) * (q + Real.sqrt (2 * cp)) * Real.sqrt (2 * cp))) cp := by
  have hfun : (fun x : ℝ => SinkUnloading Real.sqrt x q) =
      fun x : ℝ => Real.sqrt (2 * x) / (q + Real.sqrt (2 * x)) := by
    funext x
    exact SinkUnloading_eq x q
  rw [hfun]
  exact ratio_hasDerivAt cp q hcp hq

/-- With the offset `0.001` in its last factor, `dSinkUnloading_dcp` is the quotient
`q / ((q + c) * (q + c) * c)` scaled by `c / (c + 0.001)`. -/
theorem dSinkUnloading_dcp_scaled (cp q : ℝ) (hcp : 0 < cp) (hq : 0 < q) :
    dSinkUnloading_dcp Real.sqrt cp q =
      Real.sqrt (2 * cp) / (Real.sqrt (2 * cp) + 0.001) *
        (q / ((q + Real.sqrt (2 * cp)) * (q + Real.sqrt (2 * cp)) * Real.sqrt (2 * cp))) := by
  have hs : 0 < Real.sqrt (2 * cp) := Real.sqrt_pos.mpr (by positivity)
  rw [dSinkUnloading_dcp_eq, offset_lit]
  generalize Real.sqrt (2 * cp) = c at hs ⊢
  have h1 : c + 1 / 1000 ≠ 0 := by positivity
  have h2 : q + c ≠ 0 := by positivity
  field_simp
  ring

/-! ## The denominator of the resistance ratio -/

/-- Completing the square: the denominator of the resistance ratio is at least `0.0313`
at every real `cab`. -/
theorem resistanceDenominator_ge (cab : ℝ) : 0.0313 ≤ resistanceDenominator cab := by
  simp only [resistanceDenominator]
  norm_num
  nlinarith [sq_nonneg (2 * 12776 * cab - 22249)]

/-! ## Sign of the derivative quotient -/

/-- C4 fails as stated: at `cp = 2`, `q = 1` the derivative of `cp' ↦ SinkUnloading cp' 1`
is `1/18`, while `dSinkUnloading_dcp 2 1 = 1000/18009`; so `dSinkUnloading_dcp 2 1` is not
the derivative there. -/
theorem dSinkUnloading_dcp_not_derivative :
    deriv (fun x : ℝ => SinkUnloading Real.sqrt x 1) 2 = 1 / 18 ∧
      dSinkUnloading_dcp Real.sqrt 2 1 = 1000 / 18009 ∧
      ¬ HasDerivAt (fun x : ℝ => SinkUnloading Real.sqrt x 1)
          (dSinkUnloading_dcp Real.sqrt 2 1) 2 := by
  have hs : Real.sqrt (2 * 2) = 2 := by
    rw [show (2 * 2 : ℝ) = 2 ^ 2 by norm_num]
    exact Real.sqrt_sq (by norm_num)
  have hd := hasDerivAt_SinkUnloading 2 1 (by norm_num) (by norm_num)
  rw [hs] at hd
  have hval : dSinkUnloading_dcp Real.sqrt 2 1 = 1000 / 18009 := by
    rw [dSinkUnloading_dcp_eq, hs]
    norm_num
  refine ⟨?_, hval, ?_⟩
  · rw [hd.deriv]
    norm_num
  · intro h
    have := h.unique hd
    rw [hval] at this
    norm_num at this

/-- C6: the two separately written derivative functions agree at every argument:
`dSinkUnloading_dcp cp q = dSourceLoading_dcp cp q` (for every number type and every
square-root function, in particular over the reals for `q > 0`, `cp ≥ 0`). -/
theorem derivative_law_shared {α : Type} [Field α] (sqrt : α → α)
    (cp q : α) : dSinkUnloading_dcp sqrt cp q = dSourceLoading_dcp sqrt cp q := rfl

/-! ## Phloem resistance ratio -/

/-- C7 fails as stated: no real `cab` makes the denominator of `PhloemResistanceRatio`
zero. -/
theorem resistanceDenominator_never_zero : ¬ ∃ cab : ℝ, resistanceDenominator cab = 0 := by
  rintro ⟨cab, h⟩
  have := resistanceDenominator_ge cab
  rw [h] at this
  norm_num at this

namespace IEEE

open FP

/-! ## Rounding to the nearest integer -/

theorem rne_spec (y : ℚ) :
    |y - rne y| < 1 / 2 ∨ (|y - rne y| = 1 / 2 ∧ rne y % 2 = 0) := by
  have h0 : (⌊y⌋ : ℚ) ≤ y := Int.floor_le y
  have h1 : y < ⌊y⌋ + 1 := Int.lt_floor_add_one y
  unfold rne
  split_ifs with a b c
  · left
    rw [abs_lt]
    constructor <;> linarith
  · left
    push_cast
    rw [abs_lt]
    constructor <;> linarith
  · right
    refine ⟨?_, c⟩
    have : y - ⌊y⌋ = 1 / 2 := le_antisymm (not_lt.mp b) (not_lt.mp a)
    rw [this]
    norm_num
  · right
    have : y - ⌊y⌋ = 1 / 2 := le_antisymm (not_lt.mp b) (not_lt.mp a)
    constructor
    · push_cast
      have e : y - (⌊y⌋ + 1) = -(1 / 2) := by linarith
      rw [e]
      norm_num
    · omega

theorem abs_sub_rne_le (y : ℚ) : |y - rne y| ≤ 1 / 2 := by
  rcases rne_spec y with h | h
  · exact h.le
  · exact h.1.le

theorem rne_unique (y : ℚ) (n : ℤ)
    (h : |y - n| < 1 / 2 ∨ (|y - n| = 1 / 2 ∧ n % 2 = 0)) : rne y = n := by
  have tri : |((rne y : ℤ) : ℚ) - n| ≤ |y - rne y| + |y - n| := by
    have e : ((rne y : ℤ) : ℚ) - n = (y - n) - (y - rne y) := by ring
    rw [e]
    calc |(y - n) - (y - rne y)| ≤ |y - n| + |y - rne y| := abs_sub _ _
      _ = |y - rne y| + |y - n| := add_comm _ _
  have key : ∀ a b : ℤ, |(a : ℚ) - b| < 1 → a = b := by
    intro a b hab
    have : |a - b| < 1 := by exact_mod_cast hab
    have := Int.abs_lt_one_iff.mp this
    omega
  rcases rne_spec y with hs | hs <;> rcases h with hn | hn
  · exact key _ _ (by linarith)
  · exact key _ _ (by linarith [hn.1])
  · exact key _ _ (by linarith [hs.1])
  · have h1 : |((rne y : ℤ) : ℚ) - n| ≤ 1 := by linarith [hs.1, hn.1]
    have h2 : |rne y - n| ≤ 1 := by exact_mod_cast h1
    have h3 := abs_le.mp h2
    have := hs.2
    have := hn.2
    omega

theorem rne_intCast (n : ℤ) : rne (n : ℚ) = n := by
  apply rne_unique
  left
  simp

theorem rne_zero : rne 0 = 0 := by
  have := rne_intCast 0
  simpa using this

theorem rne_neg (y : ℚ) : rne (-y) = -rne y := by
  apply rne_unique
  have e : -y - ((-rne y : ℤ) : ℚ) = -(y - rne y) := by push_cast; ring
  rw [e, abs_neg]
  rcases rne_spec y with h | h
  · exact Or.inl h
  · exact Or.inr ⟨h.1, by omega⟩

theorem rne_mono {y z : ℚ} (h : y ≤ z) : rne y ≤ rne z := by
  by_contra hlt
  push_neg at hlt
  have h1 : (rne z : ℚ) + 1 ≤ rne y := by exact_mod_cast hlt
  have hy := abs_le.mp (abs_sub_rne_le y)
  have hz := abs_le.mp (abs_sub_rne_le z)
  have hyz : y = z := by linarith
  rw [hyz] at hlt
  exact lt_irrefl _ hlt

/-! ## Powers of two -/

theorem two_zpow_pos (k : ℤ) : (0 : ℚ) < 2 ^ k := zpow_pos (by norm_num) k

theorem two_zpow_le {a b : ℤ} (h : a ≤ b) : (2 : ℚ) ^ a ≤ 2 ^ b :=
  zpow_le_zpow_right₀ (by norm_num) h

theorem two_zpow_lt {a b : ℤ} (h : a < b) : (2 : ℚ) ^ a < 2 ^ b :=
  zpow_lt_zpow_right₀ (by norm_num) h

theorem two_zpow_lt_iff {a b : ℤ} : (2 : ℚ) ^ a < 2 ^ b ↔ a < b :=
  zpow_lt_zpow_iff_right₀ (by norm_num)

theorem two_zpow_add (a b : ℤ) : (2 : ℚ) ^ (a + b) = 2 ^ a * 2 ^ b :=
  zpow_add₀ (by norm_num) a b

theorem two_zpow_sub (a b : ℤ) : (2 : ℚ) ^ (a - b) = 2 ^ a / 2 ^ b :=
  zpow_sub₀ (by norm_num) a b

/-- A non-negative power of two is an integer. -/
theorem two_zpow_int {k : ℤ} (hk : 0 ≤ k) : ∃ n : ℤ, (2 : ℚ) ^ k = n := by
  refine ⟨2 ^ k.toNat, ?_⟩
  have : (2 : ℚ) ^ k = 2 ^ ((k.toNat : ℕ) : ℤ) := by rw [Int.toNat_of_nonneg hk]
  rw [this, zpow_natCast]
  push_cast
  rfl

/-! ## Binary digits and the binary exponent -/

theorem bitsAux_spec : ∀ f m : ℕ, m ≤ f →
    m < 2 ^ bitsAux f m ∧ (m ≠ 0 → 2 ^ (bitsAux f m - 1) ≤ m) := by
  intro f
  induction f with
  | zero =>
    intro m hm
    have : m = 0 := by omega
    subst this
    simp [bitsAux]
  | succ f ih =>
    intro m hm
    unfold bitsAux
    split_ifs with h0
    · subst h0
      simp
    · have hdiv : m / 2 ≤ f := by omega
      obtain ⟨h1, h2⟩ := ih (m / 2) hdiv
      constructor
      · rw [pow_succ]
        omega
      · intro _
        simp only [Nat.add_sub_cancel]
        by_cases hm2 : m / 2 = 0
        · have : m = 1 := by omega
          subst this
          simp [hm2, bitsAux]
          cases f <;> simp [bitsAux]
        · have h3 := h2 hm2
          have hpos : 0 < bitsAux f (m / 2) := by
            by_contra hc
            have : bitsAux f (m / 2) = 0 := by omega
            rw [this] at h1
            simp at h1
            exact hm2 h1
          have : bitsAux f (m / 2) = (bitsAux f (m / 2) - 1) + 1 := by omega
          rw [this, pow_succ]
          omega

theorem bits_lt (n : ℕ) : n < 2 ^ bits n := (bitsAux_spec n n le_rfl).1

theorem bits_le {n : ℕ} (h : n ≠ 0) : 2 ^ (bits n - 1) ≤ n := (bitsAux_spec n n le_rfl).2 h

theorem bits_pos {n : ℕ} (h : n ≠ 0) : 0 < bits n := by
  by_contra hc
  have h0 : bits n = 0 := by omega
  have := bits_lt n
  rw [h0] at this
  omega

theorem bits_bounds {n : ℕ} (h : n ≠ 0) :
    (2 : ℚ) ^ ((bits n : ℤ) - 1) ≤ n ∧ (n : ℚ) < 2 ^ (bits n : ℤ) := by
  have hp := bits_pos h
  constructor
  · have e : ((bits n : ℤ) - 1) = ((bits n - 1 : ℕ) : ℤ) := by omega
    rw [e, zpow_natCast]
    exact_mod_cast bits_le h
  · rw [zpow_natCast]
    exact_mod_cast bits_lt n

theorem abs_eq_natAbs_div (x : ℚ) : |x| = (x.num.natAbs : ℚ) / x.den := by
  conv_lhs => rw [← Rat.num_div_den x]
  rw [abs_div, Nat.abs_cast, Nat.cast_natAbs, Int.cast_abs]

/-- The binary exponent brackets the magnitude. -/
theorem ilog2_spec {x : ℚ} (hx : x ≠ 0) :
    (2 : ℚ) ^ ilog2 x ≤ |x| ∧ |x| < 2 ^ (ilog2 x + 1) := by
  have hn : x.num.natAbs ≠ 0 := by
    simpa [Int.natAbs_eq_zero] using hx
  have hd : x.den ≠ 0 := x.den_nz
  obtain ⟨n1, n2⟩ := bits_bounds hn
  obtain ⟨d1, d2⟩ := bits_bounds hd
  have hdpos : (0 : ℚ) < x.den := by exact_mod_cast Nat.pos_of_ne_zero hd
  have habs := abs_eq_natAbs_div x
  set B : ℤ := (bits x.num.natAbs : ℤ) with hB
  set D : ℤ := (bits x.den : ℤ) with hD
  have up : |x| < 2 ^ (B - D + 1) := by
    rw [habs, div_lt_iff₀ hdpos]
    have e : (2 : ℚ) ^ (B - D + 1) = 2 ^ B / 2 ^ (D - 1) := by
      rw [← two_zpow_sub]
      congr 1
      ring
    rw [e, div_mul_eq_mul_div, lt_div_iff₀ (two_zpow_pos _)]
    calc (x.num.natAbs : ℚ) * 2 ^ (D - 1) ≤ x.num.natAbs * x.den :=
          mul_le_mul_of_nonneg_left d1 (by positivity)
      _ < 2 ^ B * x.den := mul_lt_mul_of_pos_right n2 hdpos
  have lo : (2 : ℚ) ^ (B - D - 1) < |x| := by
    rw [habs, lt_div_iff₀ hdpos]
    have e : (2 : ℚ) ^ (B - D - 1) = 2 ^ (B - 1) / 2 ^ D := by
      rw [← two_zpow_sub]
      congr 1
      ring
    rw [e, div_mul_eq_mul_div, div_lt_iff₀ (two_zpow_pos _)]
    calc (2 : ℚ) ^ (B - 1) * x.den < 2 ^ (B - 1) * 2 ^ D :=
          mul_lt_mul_of_pos_left d2 (two_zpow_pos _)
      _ ≤ x.num.natAbs * 2 ^ D := mul_le_mul_of_nonneg_right n1 (two_zpow_pos _).le
  unfold ilog2
  split_ifs with h
  · exact ⟨h, up⟩
  · push_neg at h
    constructor
    · exact lo.le
    · have e : B - D - 1 + 1 = B - D := by ring
      rw [e]
      exact h

theorem ilog2_mono {x y : ℚ} (hx : x ≠ 0) (h : |x| ≤ |y|) : ilog2 x ≤ ilog2 y := by
  have hy : y ≠ 0 := by
    intro h0
    rw [h0, abs_zero] at h
    exact hx (abs_eq_zero.mp (le_antisymm h (abs_nonneg x)))
  have h1 := (ilog2_spec hx).1
  have h2 := (ilog2_spec hy).2
  have : (2 : ℚ) ^ ilog2 x < 2 ^ (ilog2 y + 1) := by linarith
  have := two_zpow_lt_iff.mp this
  omega

theorem ilog2_lt_of_lt {x : ℚ} {k : ℤ} (hx : x ≠ 0) (h : |x| < 2 ^ k) : ilog2 x < k := by
  have h1 := (ilog2_spec hx).1
  exact two_zpow_lt_iff.mp (lt_of_le_of_lt h1 h)

theorem le_ilog2_of_le {x : ℚ} {k : ℤ} (hx : x ≠ 0) (h : 2 ^ k ≤ |x|) : k ≤ ilog2 x := by
  have h2 := (ilog2_spec hx).2
  have := two_zpow_lt_iff.mp (lt_of_le_of_lt h h2)
  omega

theorem ilog2_neg (x : ℚ) : ilog2 (-x) = ilog2 x := by
  unfold ilog2
  simp [abs_neg]

/-! ## Rounding onto the grid of a format -/

theorem quantum_neg (F : Format) (x : ℚ) : quantum F (-x) = quantum F x := by
  unfold quantum
  rw [ilog2_neg]

theorem emin_le_quantum (F : Format) (x : ℚ) : F.emin ≤ quantum F x := le_max_right _ _

theorem quantum_mono (F : Format) {x y : ℚ} (hx : x ≠ 0) (h : |x| ≤ |y|) :
    quantum F x ≤ quantum F y := by
  unfold quantum
  have := ilog2_mono hx h
  exact max_le_max (by omega) le_rfl

theorem roundQ_zero (F : Format) : roundQ F 0 = 0 := by
  unfold roundQ
  rw [zero_div, rne_zero]
  simp

theorem roundQ_neg (F : Format) (x : ℚ) : roundQ F (-x) = -roundQ F x := by
  unfold roundQ
  rw [quantum_neg, neg_div, rne_neg]
  push_cast
  ring

/-- Rounding error: at most half the spacing. -/
theorem abs_roundQ_sub_le (F : Format) (x : ℚ) :
    |roundQ F x - x| ≤ 2 ^ quantum F x / 2 := by
  have hu := two_zpow_pos (quantum F x)
  have h := abs_sub_rne_le (x / 2 ^ quantum F x)
  have e : roundQ F x - x = -((x / 2 ^ quantum F x - rne (x / 2 ^ quantum F x)) *
      2 ^ quantum F x) := by
    unfold roundQ
    field_simp
    ring
  rw [e, abs_neg, abs_mul, abs_of_pos hu]
  calc |x / 2 ^ quantum F x - ↑(rne (x / 2 ^ quantum F x))| * 2 ^ quantum F x
      ≤ 1 / 2 * 2 ^ quantum F x := mul_le_mul_of_nonneg_right h hu.le
    _ = 2 ^ quantum F x / 2 := by ring

/-- A multiple of a power of two at or above the spacing is not changed by rounding. -/
theorem roundQ_of_multiple (F : Format) (x : ℚ) (n k : ℤ) (hx : x = n * 2 ^ k)
    (hk : quantum F x ≤ k) : roundQ F x = x := by
  obtain ⟨N, hN⟩ := two_zpow_int (sub_nonneg.mpr hk)
  have hu := two_zpow_pos (quantum F x)
  have e : x / 2 ^ quantum F x = ((n * N : ℤ) : ℚ) := by
    push_cast
    rw [← hN, two_zpow_sub, hx]
    field_simp
  unfold roundQ
  rw [e, rne_intCast, ← e]
  field_simp

/-- Rounding does not cross a multiple of a power of two at or above the spacing. -/
theorem roundQ_le_of_le (F : Format) (x : ℚ) (n k : ℤ) (hx : x ≤ n * 2 ^ k)
    (hk : quantum F x ≤ k) : roundQ F x ≤ n * 2 ^ k := by
  obtain ⟨N, hN⟩ := two_zpow_int (sub_nonneg.mpr hk)
  have hu := two_zpow_pos (quantum F x)
  have e : (n : ℚ) * 2 ^ k = ((n * N : ℤ) : ℚ) * 2 ^ quantum F x := by
    push_cast
    rw [← hN, two_zpow_sub]
    field_simp
  have h1 : x / 2 ^ quantum F x ≤ ((n * N : ℤ) : ℚ) := by
    rw [div_le_iff₀ hu, ← e]
    exact hx
  have h2 := rne_mono h1
  rw [rne_intCast] at h2
  unfold roundQ
  rw [e]
  exact mul_le_mul_of_nonneg_right (by exact_mod_cast h2) hu.le

theorem le_roundQ_of_le (F : Format) (x : ℚ) (n k : ℤ) (hx : (n : ℚ) * 2 ^ k ≤ x)
    (hk : quantum F x ≤ k) : (n : ℚ) * 2 ^ k ≤ roundQ F x := by
  have h := roundQ_le_of_le F (-x) (-n) k (by push_cast; linarith) (by rw [quantum_neg]; exact hk)
  rw [roundQ_neg] at h
  push_cast at h
  linarith

theorem roundQ_nonneg (F : Format) {x : ℚ} (h : 0 ≤ x) : 0 ≤ roundQ F x := by
  unfold roundQ
  have hu := two_zpow_pos (quantum F x)
  have := rne_mono (div_nonneg h hu.le)
  rw [rne_zero] at this
  exact mul_nonneg (by exact_mod_cast this) hu.le

theorem roundQ_nonpos (F : Format) {x : ℚ} (h : x ≤ 0) : roundQ F x ≤ 0 := by
  have := roundQ_nonneg F (neg_nonneg.mpr h)
  rw [roundQ_neg] at this
  linarith

theorem quantum_le_ilog2 (F : Format) (hp : 1 ≤ F.prec) {x : ℚ}
    (h : quantum F x ≠ F.emin) : quantum F x ≤ ilog2 x := by
  unfold quantum at h ⊢
  have hp' : (1 : ℤ) ≤ F.prec := by exact_mod_cast hp
  rcases le_total (ilog2 x - (↑F.prec - 1)) F.emin with c | c
  · rw [max_eq_right c] at h
    exact absurd rfl h
  · rw [max_eq_left c]
    omega

theorem roundQ_mono_pos (F : Format) (hp : 1 ≤ F.prec) {x y : ℚ} (hx : 0 < x) (h : x ≤ y) :
    roundQ F x ≤ roundQ F y := by
  have hy : 0 < y := lt_of_lt_of_le hx h
  have hxy : |x| ≤ |y| := by rw [abs_of_pos hx, abs_of_pos hy]; exact h
  have hq := quantum_mono F hx.ne' hxy
  rcases eq_or_lt_of_le hq with e | lt
  · unfold roundQ
    rw [e]
    have hu := two_zpow_pos (quantum F y)
    have := rne_mono (div_le_div_of_nonneg_right h hu.le)
    exact mul_le_mul_of_nonneg_right (by exact_mod_cast this) hu.le
  · have hne : quantum F y ≠ F.emin := by
      have := emin_le_quantum F x
      omega
    have hqy := quantum_le_ilog2 F hp hne
    have hylo := (ilog2_spec hy.ne').1
    rw [abs_of_pos hy] at hylo
    have hex : ilog2 x < ilog2 y := by
      by_contra hc
      push_neg at hc
      have : quantum F y ≤ quantum F x := by
        unfold quantum
        exact max_le_max (by omega) le_rfl
      omega
    have hxup := (ilog2_spec hx.ne').2
    rw [abs_of_pos hx] at hxup
    have hxL : x ≤ 2 ^ ilog2 y := by
      have : (2 : ℚ) ^ (ilog2 x + 1) ≤ 2 ^ ilog2 y := two_zpow_le (by omega)
      linarith
    have h1 := roundQ_le_of_le F x 1 (ilog2 y) (by simpa using hxL) (by omega)
    have h2 := le_roundQ_of_le F y 1 (ilog2 y) (by simpa using hylo) hqy
    linarith

/-- Rounding is monotone. -/
theorem roundQ_mono (F : Format) (hp : 1 ≤ F.prec) {x y : ℚ} (h : x ≤ y) :
    roundQ F x ≤ roundQ F y := by
  rcases lt_trichotomy 0 x with hx | hx | hx
  · exact roundQ_mono_pos F hp hx h
  · rw [← hx, roundQ_zero]
    exact roundQ_nonneg F (by linarith)
  · rcases le_or_lt 0 y with hy | hy
    · exact le_trans (roundQ_nonpos F hx.le) (roundQ_nonneg F hy)
    · have := roundQ_mono_pos F hp (neg_pos.mpr hy) (neg_le_neg h)
      rw [roundQ_neg, roundQ_neg] at this
      linarith

theorem abs_roundQ_le (F : Format) (hp : 1 ≤ F.prec) {x B : ℚ} (h : |x| ≤ B) :
    |roundQ F x| ≤ roundQ F B := by
  have h' := abs_le.mp h
  rw [abs_le]
  constructor
  · have := roundQ_mono F hp h'.1
    rw [roundQ_neg] at this
    exact this
  · exact roundQ_mono F hp h'.2

/-- The magnitude of a rounded value stays within the binade of its argument. -/
theorem abs_roundQ_le_zpow (F : Format) {x : ℚ} {k : ℤ} (hx : |x| ≤ 2 ^ k)
    (hk : quantum F x ≤ k) : |roundQ F x| ≤ 2 ^ k := by
  have h' := abs_le.mp hx
  rw [abs_le]
  constructor
  · have := le_roundQ_of_le F x (-1) k (by push_cast; linarith) hk
    push_cast at this
    linarith
  · have := roundQ_le_of_le F x 1 k (by push_cast; linarith) hk
    push_cast at this
    linarith

/-- Rounding is idempotent: a rounded value is on the grid around itself. -/
theorem roundQ_idem (F : Format) (hp : 1 ≤ F.prec) (x : ℚ) :
    roundQ F (roundQ F x) = roundQ F x := by
  have hp' : (1 : ℤ) ≤ F.prec := by exact_mod_cast hp
  by_cases hy0 : roundQ F x = 0
  · rw [hy0, roundQ_zero]
  have hx0 : x ≠ 0 := by
    intro h
    rw [h, roundQ_zero] at hy0
    exact hy0 rfl
  have hxup := (ilog2_spec hx0).2
  -- the spacing does not exceed the next binade
  have hq1 : quantum F x ≤ ilog2 x + 1 := by
    by_contra hc
    push_neg at hc
    -- then x is below half the spacing and rounds to zero
    apply hy0
    have hu := two_zpow_pos (quantum F x)
    have hsmall : |x / 2 ^ quantum F x| < 1 / 2 := by
      rw [abs_div, abs_of_pos hu, div_lt_iff₀ hu]
      have : (2 : ℚ) ^ (ilog2 x + 1) ≤ 2 ^ (quantum F x - 1) := two_zpow_le (by omega)
      have e : (2 : ℚ) ^ (quantum F x - 1) = 1 / 2 * 2 ^ quantum F x := by
        rw [two_zpow_sub]
        norm_num
        ring
      linarith
    have : rne (x / 2 ^ quantum F x) = 0 := by
      apply rne_unique
      left
      simpa using hsmall
    unfold roundQ
    rw [this]
    simp
  have hbound := abs_roundQ_le_zpow F hxup.le hq1
  rcases eq_or_lt_of_le hbound with e | lt
  · -- rounded up to the next power of two
    have hq : quantum F (roundQ F x) ≤ ilog2 x + 1 := by
      have h1 : ilog2 (roundQ F x) ≤ ilog2 x + 1 := by
        have := ilog2_lt_of_lt hy0 (show |roundQ F x| < 2 ^ (ilog2 x + 1 + 1) by
          rw [e]; exact two_zpow_lt (by omega))
        omega
      have h2 := emin_le_quantum F x
      unfold quantum
      apply max_le
      · omega
      · omega
    rcases abs_cases (roundQ F x) with ⟨h1, _⟩ | ⟨h1, _⟩
    · exact roundQ_of_multiple F _ 1 (ilog2 x + 1) (by rw [← h1, e]; simp) hq
    · exact roundQ_of_multiple F _ (-1) (ilog2 x + 1) (by
        have : roundQ F x = -2 ^ (ilog2 x + 1) := by linarith
        rw [this]; simp) hq
  · have hq : quantum F (roundQ F x) ≤ quantum F x := by
      have h1 : ilog2 (roundQ F x) ≤ ilog2 x := by
        have := ilog2_lt_of_lt hy0 lt
        omega
      unfold quantum
      exact max_le_max (by omega) le_rfl
    exact roundQ_of_multiple F _ (rne (x / 2 ^ quantum F x)) (quantum F x) rfl hq

/-- Relative rounding error in the normal range. -/
theorem abs_roundQ_sub_le_rel (F : Format) {x : ℚ}
    (hx : 2 ^ (F.emin + F.prec - 1) ≤ |x|) :
    |roundQ F x - x| ≤ 2 ^ (-(F.prec : ℤ)) * |x| := by
  have hx0 : x ≠ 0 := by
    intro h
    rw [h, abs_zero] at hx
    exact absurd hx (not_le.mpr (two_zpow_pos _))
  have he := le_ilog2_of_le hx0 hx
  have hq : quantum F x = ilog2 x - (F.prec - 1) := by
    unfold quantum
    exact max_eq_left (by omega)
  have h := abs_roundQ_sub_le F x
  have hlo := (ilog2_spec hx0).1
  have e : (2 : ℚ) ^ quantum F x / 2 = 2 ^ (-(F.prec : ℤ)) * 2 ^ ilog2 x := by
    rw [hq, ← two_zpow_add]
    have : ilog2 x - (↑F.prec - 1) = (-(F.prec : ℤ) + ilog2 x) + 1 := by ring
    rw [this, two_zpow_add (-(F.prec : ℤ) + ilog2 x) 1]
    norm_num
  rw [e] at h
  calc |roundQ F x - x| ≤ 2 ^ (-(F.prec : ℤ)) * 2 ^ ilog2 x := h
    _ ≤ 2 ^ (-(F.prec : ℤ)) * |x| := mul_le_mul_of_nonneg_left hlo (two_zpow_pos _).le

/-- Absolute rounding error below the normal range. -/
theorem abs_roundQ_sub_le_abs (F : Format) {x : ℚ}
    (hx : |x| < 2 ^ (F.emin + F.prec - 1)) :
    |roundQ F x - x| ≤ 2 ^ (F.emin - 1) := by
  have h := abs_roundQ_sub_le F x
  have e : ∀ k : ℤ, (2 : ℚ) ^ k / 2 = 2 ^ (k - 1) := by
    intro k
    rw [two_zpow_sub]
    norm_num
  rw [e] at h
  by_cases hx0 : x = 0
  · rw [hx0, roundQ_zero]
    simpa using (two_zpow_pos (F.emin - 1)).le
  have he := ilog2_lt_of_lt hx0 hx
  have hq : quantum F x = F.emin := by
    unfold quantum
    exact max_eq_right (by omega)
  rw [hq] at h
  exact h

/-- Rounding error, all ranges. -/
theorem abs_roundQ_sub_le_add (F : Format) (x : ℚ) :
    |roundQ F x - x| ≤ 2 ^ (-(F.prec : ℤ)) * |x| + 2 ^ (F.emin - 1) := by
  rcases le_or_lt ((2 : ℚ) ^ (F.emin + F.prec - 1)) |x| with h | h
  · have := abs_roundQ_sub_le_rel F h
    have := (two_zpow_pos (F.emin - 1)).le
    linarith
  · have := abs_roundQ_sub_le_abs F h
    have : 0 ≤ (2 : ℚ) ^ (-(F.prec : ℤ)) * |x| :=
      mul_nonneg (two_zpow_pos _).le (abs_nonneg x)
    linarith

/-! ## Finite values of a format -/

theorem rep_roundQ (F : Format) (hp : 1 ≤ F.prec) {x : ℚ}
    (h : |roundQ F x| < 2 ^ F.emax) : Rep F (roundQ F x) :=
  ⟨roundQ_idem F hp x, h⟩

theorem rep_zero (F : Format) : Rep F 0 :=
  ⟨roundQ_zero F, by simpa using two_zpow_pos F.emax⟩

/-- A finite value is a multiple of the least positive value. -/
theorem Rep.multiple {F : Format} {x : ℚ} (h : Rep F x) : ∃ n : ℤ, x = n * 2 ^ F.emin := by
  obtain ⟨N, hN⟩ := two_zpow_int (sub_nonneg.mpr (emin_le_quantum F x))
  refine ⟨rne (x / 2 ^ quantum F x) * N, ?_⟩
  have e : roundQ F x = rne (x / 2 ^ quantum F x) * 2 ^ quantum F x := rfl
  have e2 : (2 : ℚ) ^ quantum F x = N * 2 ^ F.emin := by
    rw [← hN, ← two_zpow_add]
    congr 1
    ring
  have hx : x = rne (x / 2 ^ quantum F x) * 2 ^ quantum F x := h.1.symm.trans e
  generalize rne (x / 2 ^ quantum F x) = m at hx ⊢
  rw [hx, e2]
  push_cast
  ring

/-- A sum (or any multiple of the least positive value) below the normal range is
exact. -/
theorem roundQ_of_multiple_small (F : Format) (x : ℚ) (n : ℤ) (hx : x = n * 2 ^ F.emin)
    (hs : |x| < 2 ^ (F.emin + F.prec - 1)) : roundQ F x = x := by
  by_cases hx0 : x = 0
  · rw [hx0, roundQ_zero]
  have he := ilog2_lt_of_lt hx0 hs
  have hq : quantum F x = F.emin := by
    unfold quantum
    exact max_eq_right (by omega)
  exact roundQ_of_multiple F x n F.emin hx (by omega)

namespace FP

theorem round_eq_fin (F : Format) {x : ℚ} (h : |roundQ F x| < 2 ^ F.emax) :
    round F x = fin (roundQ F x) := by
  have h' := abs_lt.mp h
  unfold round
  rw [if_neg (not_le.mpr h'.2), if_neg (not_le.mpr h'.1)]

theorem round_of_rep {F : Format} {x : ℚ} (h : Rep F x) : round F x = fin x := by
  have := round_eq_fin F (x := x) (by rw [h.1]; exact h.2)
  rw [this, h.1]

/-- A bound that does not overflow keeps everything below it finite. -/
theorem round_fin_of_abs_le (F : Format) (hp : 1 ≤ F.prec) {x B : ℚ} (hB : |x| ≤ B)
    (h : roundQ F B < 2 ^ F.emax) :
    round F x = fin (roundQ F x) ∧ |roundQ F x| ≤ roundQ F B := by
  have := abs_roundQ_le F hp hB
  exact ⟨round_eq_fin F (lt_of_le_of_lt this h), this⟩

theorem round_nonneg_cases (F : Format) {x : ℚ} (hx : 0 ≤ x) :
    round F x = pinf ∨ (round F x = fin (roundQ F x) ∧ roundQ F x < 2 ^ F.emax) := by
  have h0 := roundQ_nonneg F hx
  unfold round
  by_cases h : 2 ^ F.emax ≤ roundQ F x
  · left
    rw [if_pos h]
  · right
    have hneg : ¬ roundQ F x ≤ -2 ^ F.emax := by
      have := two_zpow_pos F.emax
      intro hc
      linarith
    rw [if_neg h, if_neg hneg]
    exact ⟨rfl, not_le.mp h⟩

end FP

namespace FP

/-! ## The integer square root and the rounding of square roots -/

theorem isqrtAux_spec (n : ℕ) : ∀ k s : ℕ, s * s ≤ n → n < (s + 2 ^ k) * (s + 2 ^ k) →
    isqrtAux n k s * isqrtAux n k s ≤ n ∧
      n < (isqrtAux n k s + 1) * (isqrtAux n k s + 1) := by
  intro k
  induction k with
  | zero =>
    intro s h1 h2
    simpa [isqrtAux] using And.intro h1 h2
  | succ k ih =>
    intro s h1 h2
    unfold isqrtAux
    split_ifs with h
    · apply ih _ h
      have : s + 2 ^ k + 2 ^ k = s + 2 ^ (k + 1) := by rw [pow_succ]; ring
      rw [this]
      exact h2
    · exact ih s h1 (not_le.mp h)

theorem isqrt_spec (n : ℕ) : isqrt n * isqrt n ≤ n ∧ n < (isqrt n + 1) * (isqrt n + 1) := by
  apply isqrtAux_spec
  · simp
  · have h := bits_lt n
    have h1 : 1 ≤ 2 ^ bits n := Nat.one_le_two_pow
    calc n < 2 ^ bits n := h
      _ = 2 ^ bits n * 1 := (mul_one _).symm
      _ ≤ 2 ^ bits n * 2 ^ bits n := Nat.mul_le_mul_left _ h1
      _ = (0 + 2 ^ bits n) * (0 + 2 ^ bits n) := by simp

theorem isqrt_mono {m n : ℕ} (h : m ≤ n) : isqrt m ≤ isqrt n := by
  by_contra hc
  push_neg at hc
  have h1 := (isqrt_spec m).1
  have h2 := (isqrt_spec n).2
  have : (isqrt n + 1) * (isqrt n + 1) ≤ isqrt m * isqrt m := Nat.mul_le_mul hc hc
  omega

theorem sqrtRep_nonneg (x : ℚ) : 0 ≤ sqrtRep x := by
  unfold sqrtRep
  split_ifs <;> positivity

/-- The two bounds every value of `sqrtRep` satisfies. -/
theorem sqrtRep_bounds (x : ℚ) :
    (isqrt ⌊x * 4 ^ 600⌋₊ : ℚ) / 2 ^ 600 ≤ sqrtRep x ∧
      sqrtRep x ≤ (2 * isqrt ⌊x * 4 ^ 600⌋₊ + 1) / 2 ^ 601 := by
  unfold sqrtRep
  split_ifs
  · constructor
    · exact le_rfl
    · rw [div_le_div_iff₀ (by positivity) (by positivity)]
      have : (0 : ℚ) ≤ isqrt ⌊x * 4 ^ 600⌋₊ := by positivity
      have e : (2 : ℚ) ^ 601 = 2 * 2 ^ 600 := by rw [pow_succ]; ring
      rw [e]
      nlinarith [show (0 : ℚ) < 2 ^ 600 by positivity]
  · constructor
    · rw [div_le_div_iff₀ (by positivity) (by positivity)]
      have : (0 : ℚ) ≤ isqrt ⌊x * 4 ^ 600⌋₊ := by positivity
      have e : (2 : ℚ) ^ 601 = 2 * 2 ^ 600 := by rw [pow_succ]; ring
      rw [e]
      nlinarith [show (0 : ℚ) < 2 ^ 600 by positivity]
    · exact le_rfl

theorem sqrtRep_mono {x y : ℚ} (hx : 0 ≤ x) (h : x ≤ y) : sqrtRep x ≤ sqrtRep y := by
  have hX : (0 : ℚ) ≤ x * 4 ^ 600 := by positivity
  have hXY : x * 4 ^ 600 ≤ y * 4 ^ 600 := mul_le_mul_of_nonneg_right h (by positivity)
  have hfl : ⌊x * 4 ^ 600⌋₊ ≤ ⌊y * 4 ^ 600⌋₊ := Nat.floor_mono hXY
  have hs := isqrt_mono hfl
  rcases eq_or_lt_of_le hs with e | lt
  · -- same integer root
    by_cases hex : (isqrt ⌊x * 4 ^ 600⌋₊ : ℚ) * isqrt ⌊x * 4 ^ 600⌋₊ = x * 4 ^ 600
    · have : sqrtRep x = isqrt ⌊x * 4 ^ 600⌋₊ / 2 ^ 600 := by
        unfold sqrtRep
        rw [if_pos hex]
      rw [this, e]
      exact (sqrtRep_bounds y).1
    · have hey : ¬ (isqrt ⌊y * 4 ^ 600⌋₊ : ℚ) * isqrt ⌊y * 4 ^ 600⌋₊ = y * 4 ^ 600 := by
        intro hc
        apply hex
        have h1 : (isqrt ⌊x * 4 ^ 600⌋₊ : ℚ) * isqrt ⌊x * 4 ^ 600⌋₊ ≤ ⌊x * 4 ^ 600⌋₊ := by
          exact_mod_cast (isqrt_spec _).1
        have h2 : ((⌊x * 4 ^ 600⌋₊ : ℕ) : ℚ) ≤ x * 4 ^ 600 := Nat.floor_le hX
        rw [← e] at hc
        linarith
      unfold sqrtRep
      rw [if_neg hex, if_neg hey, e]
  · have h1 := (sqrtRep_bounds x).2
    have h2 := (sqrtRep_bounds y).1
    have h3 : (isqrt ⌊x * 4 ^ 600⌋₊ : ℚ) + 1 ≤ isqrt ⌊y * 4 ^ 600⌋₊ := by exact_mod_cast lt
    have e1 : (2 * (isqrt ⌊x * 4 ^ 600⌋₊ : ℚ) + 1) / 2 ^ 601 ≤
        ((isqrt ⌊x * 4 ^ 600⌋₊ : ℚ) + 1) / 2 ^ 600 := by
      rw [div_le_div_iff₀ (by positivity) (by positivity)]
      have e : (2 : ℚ) ^ 601 = 2 * 2 ^ 600 := by rw [pow_succ]; ring
      rw [e]
      nlinarith [show (0 : ℚ) < 2 ^ 600 by positivity]
    have e2 : ((isqrt ⌊x * 4 ^ 600⌋₊ : ℚ) + 1) / 2 ^ 600 ≤
        (isqrt ⌊y * 4 ^ 600⌋₊ : ℚ) / 2 ^ 600 :=
      div_le_div_of_nonneg_right h3 (by positivity)
    linarith

end FP

/-! ## The kinetics functions on finite arguments -/

theorem prec32 : 1 ≤ binary32.prec := by decide

theorem prec64 : 1 ≤ binary64.prec := by decide

theorem lit64_two : lit64 2.0 = FP.fin 2 := by decide!

theorem lit64_one : lit64 1.0 = FP.fin 1 := by decide!

theorem roundQ32_one : roundQ binary32 1 = 1 := by decide!

theorem roundQ64_one : roundQ binary64 1 = 1 := by decide!

/-- On a finite `cp ≥ 0` the concentration is finite, non-negative, a `float`, and at
most `2 ^ 65`. -/
theorem conc_fin {cp : ℚ} (hcp : Rep binary32 cp) (h0 : 0 ≤ cp) :
    conc (FP.fin cp) = FP.fin (concQ cp) ∧ 0 ≤ concQ cp ∧ concQ cp ≤ 2 ^ 65 ∧
      Rep binary32 (concQ cp) := by
  have hB : |2 * cp| ≤ 2 ^ 129 := by
    have h := hcp.2
    rw [abs_of_nonneg h0] at h
    rw [abs_of_nonneg (by linarith)]
    have e : (2 : ℚ) ^ binary32.emax = 2 ^ 128 := by decide!
    rw [e] at h
    have e2 : (2 : ℚ) ^ 129 = 2 * 2 ^ 128 := by norm_num
    linarith
  have h1 := FP.round_fin_of_abs_le binary64 prec64 hB (by decide!)
  have hy0 : 0 ≤ roundQ binary64 (2 * cp) := roundQ_nonneg _ (by linarith)
  have hy1 : roundQ binary64 (2 * cp) ≤ 2 ^ 129 := by
    have := (abs_le.mp h1.2).2
    have e : roundQ binary64 (2 ^ 129) = 2 ^ 129 := by decide!
    rw [e] at this
    exact this
  have hs0 := FP.sqrtRep_nonneg (roundQ binary64 (2 * cp))
  have hs1 : FP.sqrtRep (roundQ binary64 (2 * cp)) ≤ 2 ^ 65 :=
    le_trans (FP.sqrtRep_mono hy0 hy1) (by decide!)
  have h2 := FP.round_fin_of_abs_le binary64 prec64
    (show |FP.sqrtRep (roundQ binary64 (2 * cp))| ≤ 2 ^ 65 by rw [abs_of_nonneg hs0]; exact hs1)
    (by decide!)
  have hz0 : 0 ≤ roundQ binary64 (FP.sqrtRep (roundQ binary64 (2 * cp))) := roundQ_nonneg _ hs0
  have hz1 : roundQ binary64 (FP.sqrtRep (roundQ binary64 (2 * cp))) ≤ 2 ^ 65 := by
    have := (abs_le.mp h2.2).2
    have e : roundQ binary64 (2 ^ 65) = 2 ^ 65 := by decide!
    rw [e] at this
    exact this
  have h3 := FP.round_fin_of_abs_le binary32 prec32
    (show |roundQ binary64 (FP.sqrtRep (roundQ binary64 (2 * cp)))| ≤ 2 ^ 65 by
      rw [abs_of_nonneg hz0]; exact hz1)
    (by decide!)
  have hc0 : 0 ≤ concQ cp := roundQ_nonneg _ hz0
  have hc1 : concQ cp ≤ 2 ^ 65 := by
    have := (abs_le.mp h3.2).2
    have e : roundQ binary32 (2 ^ 65) = 2 ^ 65 := by decide!
    rw [e] at this
    exact this
  refine ⟨?_, hc0, hc1, ?_⟩
  · unfold conc
    rw [lit64_two]
    simp only [FP.mul, h1.1, FP.sqrt, if_neg (not_lt.mpr hy0), h2.1, FP.cast, h3.1]
    rfl
  · apply rep_roundQ binary32 prec32
    show |concQ cp| < _
    rw [abs_of_nonneg hc0]
    exact lt_of_le_of_lt hc1 (by decide!)

theorem concQ_mono {cp₁ cp₂ : ℚ} (h0 : 0 ≤ cp₁) (h : cp₁ ≤ cp₂) : concQ cp₁ ≤ concQ cp₂ := by
  unfold concQ
  apply roundQ_mono _ prec32
  apply roundQ_mono _ prec64
  apply FP.sqrtRep_mono (roundQ_nonneg _ (by linarith))
  exact roundQ_mono _ prec64 (by linarith)

/-- `c / (q + c)` in `float` arithmetic on finite `c ≥ 0`, `q > 0`. -/
theorem div_add_fin {c q : ℚ} (hc : Rep binary32 c) (hq : Rep binary32 q) (hc0 : 0 ≤ c)
    (hq0 : 0 < q) :
    FP.div binary32 (FP.fin c) (FP.add binary32 (FP.fin q) (FP.fin c)) = FP.fin (sinkQ c q) ∧
      0 ≤ sinkQ c q ∧ sinkQ c q ≤ 1 := by
  have ht_q : q ≤ roundQ binary32 (q + c) := by
    have := roundQ_mono binary32 prec32 (show q ≤ q + c by linarith)
    rw [hq.1] at this
    exact this
  have ht_c : c ≤ roundQ binary32 (q + c) := by
    have := roundQ_mono binary32 prec32 (show c ≤ q + c by linarith)
    rw [hc.1] at this
    exact this
  have ht0 : 0 < roundQ binary32 (q + c) := lt_of_lt_of_le hq0 ht_q
  unfold sinkQ
  rcases FP.round_nonneg_cases binary32 (show 0 ≤ q + c by linarith) with h | ⟨h, hlt⟩
  · have hov : 2 ^ binary32.emax ≤ roundQ binary32 (q + c) := by
      by_contra hc'
      have := FP.round_eq_fin binary32 (x := q + c)
        (by rw [abs_of_pos ht0]; exact not_le.mp hc')
      rw [h] at this
      exact FP.noConfusion this
    rw [if_pos hov]
    simp only [FP.add, h, FP.div]
    exact ⟨trivial, le_rfl, by norm_num⟩
  · rw [if_neg (not_le.mpr hlt)]
    have hr0 : 0 ≤ c / roundQ binary32 (q + c) := div_nonneg hc0 ht0.le
    have hr1 : c / roundQ binary32 (q + c) ≤ 1 := by
      rw [div_le_one ht0]
      exact ht_c
    have hR0 := roundQ_nonneg binary32 hr0
    have hR1 : roundQ binary32 (c / roundQ binary32 (q + c)) ≤ 1 := by
      have := roundQ_mono binary32 prec32 hr1
      rw [roundQ32_one] at this
      exact this
    have hfin := FP.round_eq_fin binary32 (x := c / roundQ binary32 (q + c))
      (by rw [abs_of_nonneg hR0]; exact lt_of_le_of_lt hR1 (by decide!))
    simp only [FP.add, h, FP.div, if_neg ht0.ne', hfin]
    exact ⟨trivial, hR0, hR1⟩

/-- `SinkUnloading` on finite `cp ≥ 0`, `q > 0`: a finite value in `[0, 1]`. -/
theorem SinkUnloading_fin {cp q : ℚ} (hcp : Rep binary32 cp) (hq : Rep binary32 q)
    (h0 : 0 ≤ cp) (hq0 : 0 < q) :
    SinkUnloading (FP.fin cp) (FP.fin q) = FP.fin (sinkQ (concQ cp) q) ∧
      0 ≤ sinkQ (concQ cp) q ∧ sinkQ (concQ cp) q ≤ 1 := by
  obtain ⟨e, c0, _, crep⟩ := conc_fin hcp h0
  have := div_add_fin crep hq c0 hq0
  unfold SinkUnloading
  simp only [e]
  exact this

/-- `(float)(-1.0 + s)` for a `float` `s` in `[0, 1]`: a finite value in `[-1, 0]`. -/
theorem cast_add_fin {s : ℚ} (h0 : 0 ≤ s) (h1 : s ≤ 1) :
    FP.cast binary32 (FP.add binary64 (FP.neg (lit64 1.0)) (FP.fin s)) = FP.fin (sourceQ s) ∧
      -1 ≤ sourceQ s ∧ sourceQ s ≤ 0 := by
  have a0 : roundQ binary64 (-1 + s) ≤ 0 := roundQ_nonpos _ (by linarith)
  have a1 : -1 ≤ roundQ binary64 (-1 + s) := by
    have := roundQ_mono binary64 prec64 (show (-1 : ℚ) ≤ -1 + s by linarith)
    rw [roundQ_neg, roundQ64_one] at this
    exact this
  have b0 : sourceQ s ≤ 0 := roundQ_nonpos _ a0
  have b1 : -1 ≤ sourceQ s := by
    have := roundQ_mono binary32 prec32 a1
    rw [roundQ_neg, roundQ32_one] at this
    exact this
  have f1 := FP.round_eq_fin binary64 (x := -1 + s)
    (by rw [abs_of_nonpos a0]; exact lt_of_le_of_lt (by linarith) (show (1 : ℚ) < _ by decide!))
  have f2 := FP.round_eq_fin binary32 (x := roundQ binary64 (-1 + s))
    (by
      show |sourceQ s| < _
      rw [abs_of_nonpos b0]
      exact lt_of_le_of_lt (by linarith) (show (1 : ℚ) < _ by decide!))
  refine ⟨?_, b1, b0⟩
  rw [lit64_one]
  simp only [FP.neg, FP.add, f1, FP.cast, f2]
  rfl

/-- `SourceLoading` on finite `cp ≥ 0`, `q > 0`: a finite value in `[-1, 0]`. -/
theorem SourceLoading_fin {cp q : ℚ} (hcp : Rep binary32 cp) (hq : Rep binary32 q)
    (h0 : 0 ≤ cp) (hq0 : 0 < q) :
    SourceLoading (FP.fin cp) (FP.fin q) = FP.fin (sourceQ (sinkQ (concQ cp) q)) ∧
      -1 ≤ sourceQ (sinkQ (concQ cp) q) ∧ sourceQ (sinkQ (concQ cp) q) ≤ 0 := by
  obtain ⟨e, c0, _, crep⟩ := conc_fin hcp h0
  obtain ⟨e2, s0, s1⟩ := div_add_fin crep hq c0 hq0
  have := cast_add_fin s0 s1
  unfold SourceLoading
  simp only [e, e2]
  exact this

namespace FP

/-! ## Order of the extended values -/

theorem round_ne_nan (F : Format) (x : ℚ) : round F x ≠ nan := by
  unfold round
  split_ifs <;> simp

theorem le_pinf {a : FP} (h : a ≠ nan) : le a pinf := by
  cases a
  · exact absurd rfl h
  all_goals trivial

theorem ninf_le {a : FP} (h : a ≠ nan) : le ninf a := by
  cases a
  · exact absurd rfl h
  all_goals trivial

theorem le_of_le_of_le {a b c : FP} (h₁ : le a b) (h₂ : le b c) : le a c := by
  cases a <;> cases b <;> cases c <;>
    first
    | exact h₁.elim
    | exact h₂.elim
    | trivial
    | exact (show (_ : ℚ) ≤ _ from h₁).trans h₂

theorem NN_of_le {a b : FP} (ha : NN a) (h : le a b) : NN b := by
  cases a <;> cases b <;>
    first
    | exact ha.elim
    | exact h.elim
    | trivial
    | exact (show (0 : ℚ) ≤ _ from ha).trans h

theorem NN_ne_nan {a : FP} (ha : NN a) : a ≠ nan := by
  intro h
  rw [h] at ha
  exact ha

theorem round_le_round (F : Format) (hp : 1 ≤ F.prec) {x y : ℚ} (h : x ≤ y) :
    le (round F x) (round F y) := by
  have hm := roundQ_mono F hp h
  have hpos := two_zpow_pos F.emax
  unfold round
  split_ifs with h1 h2 h3 h4 h5 h6
  all_goals first
    | trivial
    | exact hm
    | (exfalso; linarith)

theorem NN_round (F : Format) {x : ℚ} (h : 0 ≤ x) : NN (round F x) := by
  rcases round_nonneg_cases F h with e | ⟨e, _⟩
  · rw [e]; trivial
  · rw [e]; exact roundQ_nonneg F h

theorem add_mono (F : Format) (hp : 1 ≤ F.prec) {a a' b b' : FP} (ha : NN a) (hb : NN b)
    (h₁ : le a a') (h₂ : le b b') : le (add F a b) (add F a' b') := by
  cases a <;> cases a' <;> cases b <;> cases b' <;>
    first
    | exact ha.elim
    | exact hb.elim
    | exact h₁.elim
    | exact h₂.elim
    | trivial
    | exact le_pinf (round_ne_nan _ _)
    | exact round_le_round F hp (add_le_add h₁ h₂)

theorem NN_add (F : Format) {a b : FP} (ha : NN a) (hb : NN b) : NN (add F a b) := by
  cases a <;> cases b <;>
    first
    | exact ha.elim
    | exact hb.elim
    | trivial
    | exact NN_round F (add_nonneg ha hb)

/-- Product with a finite non-negative factor, monotone in both. -/
theorem mul_fin_mono (F : Format) (hp : 1 ≤ F.prec) {a a' : FP} {x x' : ℚ} (ha : NN a)
    (h : le a a') (hx : 0 ≤ x) (hxx : x ≤ x') (hpos : a = pinf → 0 < x)
    (hpos' : a' = pinf → 0 < x') : le (mul F a (fin x)) (mul F a' (fin x')) := by
  cases a <;> cases a'
  all_goals first
    | exact ha.elim
    | exact h.elim
    | skip
  · -- pinf, pinf
    show le (if 0 < x then pinf else if x < 0 then ninf else nan)
      (if 0 < x' then pinf else if x' < 0 then ninf else nan)
    rw [if_pos (hpos rfl), if_pos (hpos' rfl)]
    trivial
  · -- fin, pinf
    show le (round F _) (if 0 < x' then pinf else if x' < 0 then ninf else nan)
    rw [if_pos (hpos' rfl)]
    exact le_pinf (round_ne_nan _ _)
  · exact round_le_round F hp (mul_le_mul h hxx hx (le_trans ha h))

theorem NN_mul_fin (F : Format) {a : FP} {x : ℚ} (ha : NN a) (hx : 0 ≤ x)
    (hpos : a = pinf → 0 < x) : NN (mul F a (fin x)) := by
  cases a
  · exact ha.elim
  · show NN (if 0 < x then pinf else if x < 0 then ninf else nan)
    rw [if_pos (hpos rfl)]
    trivial
  · exact ha.elim
  · exact NN_round F (mul_nonneg ha hx)

theorem mul_self_mono (F : Format) (hp : 1 ≤ F.prec) {a a' : FP} (ha : NN a) (h : le a a') :
    le (mul F a a) (mul F a' a') := by
  cases a <;> cases a' <;>
    first
    | exact ha.elim
    | exact h.elim
    | trivial
    | exact le_pinf (round_ne_nan _ _)
    | exact round_le_round F hp (mul_le_mul h h ha (le_trans ha h))

theorem NN_mul_self (F : Format) {a : FP} (ha : NN a) : NN (mul F a a) := by
  cases a <;>
    first
    | exact ha.elim
    | trivial
    | exact NN_round F (mul_nonneg ha ha)

theorem div_fin_ne_nan (F : Format) {q : ℚ} (hq : 0 < q) {b : FP} (hb : b ≠ nan) :
    div F (fin q) b ≠ nan := by
  cases b
  · exact absurd rfl hb
  · simp [div]
  · simp [div]
  · rename_i d
    show (if d = 0 then (if 0 < q then pinf else if q < 0 then ninf else nan)
      else round F (q / d)) ≠ nan
    split_ifs
    · simp
    · exact round_ne_nan _ _

theorem NN_div_fin (F : Format) {q : ℚ} (hq : 0 < q) {b : FP} (hb : NN b) :
    NN (div F (fin q) b) := by
  cases b
  · exact hb.elim
  · exact le_rfl
  · exact hb.elim
  · rename_i d
    show NN (if d = 0 then (if 0 < q then pinf else if q < 0 then ninf else nan)
      else round F (q / d))
    split_ifs
    · trivial
    · exact NN_round F (div_nonneg hq.le hb)

/-- A positive finite numerator over a non-negative divisor: antitone in the divisor. -/
theorem div_fin_anti (F : Format) (hp : 1 ≤ F.prec) {q : ℚ} (hq : 0 < q) {b b' : FP}
    (hb : NN b) (h : le b b') : le (div F (fin q) b') (div F (fin q) b) := by
  cases b <;> cases b'
  all_goals first
    | exact hb.elim
    | exact h.elim
    | skip
  · -- pinf, pinf
    exact le_rfl
  · -- fin d, pinf
    rename_i d
    have := NN_div_fin F hq (b := fin d) hb
    cases hr : div F (fin q) (fin d)
    all_goals rw [hr] at this
    all_goals first
      | exact this.elim
      | trivial
  · rename_i d d'
    have hd0 : (0 : ℚ) ≤ d := hb
    have hdd : d ≤ d' := h
    show le (if d' = 0 then (if 0 < q then pinf else if q < 0 then ninf else nan)
        else round F (q / d'))
      (if d = 0 then (if 0 < q then pinf else if q < 0 then ninf else nan)
        else round F (q / d))
    by_cases h0 : d = 0
    · rw [if_pos h0, if_pos hq]
      apply le_pinf
      split_ifs
      · simp
      · exact round_ne_nan _ _
    · have hd : 0 < d := lt_of_le_of_ne hd0 (Ne.symm h0)
      have hd' : 0 < d' := lt_of_lt_of_le hd hdd
      rw [if_neg h0, if_neg hd'.ne']
      exact round_le_round F hp (div_le_div_of_nonneg_left hq.le hd hdd)

theorem cast_mono (F : Format) (hp : 1 ≤ F.prec) {a b : FP} (h : le a b) :
    le (cast F a) (cast F b) := by
  cases a <;> cases b <;>
    first
    | exact h.elim
    | trivial
    | exact ninf_le (round_ne_nan _ _)
    | exact le_pinf (round_ne_nan _ _)
    | exact round_le_round F hp h

end FP

/-! ## Monotonicity of the flux in `q`, bounds, denominators -/

theorem round_zero (F : Format) : FP.round F 0 = FP.fin 0 :=
  FP.round_of_rep (rep_zero F)

theorem sinkQ_nonneg {c q : ℚ} (hc : Rep binary32 c) (hq : Rep binary32 q) (hc0 : 0 ≤ c)
    (hq0 : 0 < q) : 0 ≤ sinkQ c q := (div_add_fin hc hq hc0 hq0).2.1

/-- In `float` arithmetic `c / (q + c)` does not increase with `q`. -/
theorem sinkQ_anti {c q₁ q₂ : ℚ} (hc : Rep binary32 c) (hq₁ : Rep binary32 q₁) (hc0 : 0 ≤ c)
    (h₁ : 0 < q₁) (h : q₁ ≤ q₂) : sinkQ c q₂ ≤ sinkQ c q₁ := by
  have hnn := sinkQ_nonneg hc hq₁ hc0 h₁
  have ht : roundQ binary32 (q₁ + c) ≤ roundQ binary32 (q₂ + c) :=
    roundQ_mono _ prec32 (by linarith)
  have ht1 : 0 < roundQ binary32 (q₁ + c) := by
    have := roundQ_mono binary32 prec32 (show q₁ ≤ q₁ + c by linarith)
    rw [hq₁.1] at this
    linarith
  by_cases hov : 2 ^ binary32.emax ≤ roundQ binary32 (q₂ + c)
  · have e : sinkQ c q₂ = 0 := by unfold sinkQ; rw [if_pos hov]
    rw [e]
    exact hnn
  · have hov1 : ¬ 2 ^ binary32.emax ≤ roundQ binary32 (q₁ + c) := by
      intro hc'
      exact hov (le_trans hc' ht)
    unfold sinkQ
    rw [if_neg hov, if_neg hov1]
    exact roundQ_mono _ prec32 (div_le_div_of_nonneg_left hc0 ht1 ht)

/-- In `float` arithmetic `c / (q + c)` is at most the rounding of any bound of `c / q`. -/
theorem sinkQ_le {c q B : ℚ} (hq : Rep binary32 q) (hc0 : 0 ≤ c) (hq0 : 0 < q)
    (hB : c / q ≤ B) : sinkQ c q ≤ roundQ binary32 B := by
  have hB0 : 0 ≤ B := le_trans (div_nonneg hc0 hq0.le) hB
  have ht : q ≤ roundQ binary32 (q + c) := by
    have := roundQ_mono binary32 prec32 (show q ≤ q + c by linarith)
    rw [hq.1] at this
    exact this
  unfold sinkQ
  split_ifs
  · exact roundQ_nonneg _ hB0
  · apply roundQ_mono _ prec32
    exact le_trans (div_le_div_of_nonneg_left hc0 hq0 ht) hB

/-- The sum `q + c` of `SinkUnloading` on finite arguments: `+∞` or a finite value that
is at least `q` and at least `c`. -/
theorem fluxDenominator_cases {cp q : ℚ} (hcp : Rep binary32 cp) (hq : Rep binary32 q)
    (h0 : 0 ≤ cp) (hq0 : 0 < q) :
    fluxDenominator (FP.fin cp) (FP.fin q) = FP.round binary32 (q + concQ cp) ∧
      (FP.round binary32 (q + concQ cp) = FP.pinf ∨
        (FP.round binary32 (q + concQ cp) = FP.fin (roundQ binary32 (q + concQ cp)) ∧
          q ≤ roundQ binary32 (q + concQ cp))) := by
  obtain ⟨e, c0, _, crep⟩ := conc_fin hcp h0
  constructor
  · unfold fluxDenominator
    rw [e]
    rfl
  · rcases FP.round_nonneg_cases binary32 (show 0 ≤ q + concQ cp by linarith) with h | ⟨h, _⟩
    · exact Or.inl h
    · right
      refine ⟨h, ?_⟩
      have := roundQ_mono binary32 prec32 (show q ≤ q + concQ cp by linarith)
      rw [hq.1] at this
      exact this

/-! ## Rounding errors of the two formats in numbers -/

/-- Error of a rounding to `float`: relative `2⁻²⁴` plus absolute `2⁻¹⁵⁰`. -/
theorem abs_roundQ32_sub_le (x : ℚ) :
    |roundQ binary32 x - x| ≤ |x| / 2 ^ 24 + 1 / 2 ^ 150 := by
  have h := abs_roundQ_sub_le_add binary32 x
  have e1 : (2 : ℚ) ^ (-(binary32.prec : ℤ)) = 1 / 2 ^ 24 := by decide!
  have e2 : (2 : ℚ) ^ (binary32.emin - 1) = 1 / 2 ^ 150 := by decide!
  rw [e1, e2] at h
  linarith

/-- Error of a rounding to `double`: relative `2⁻⁵³` plus absolute `2⁻¹⁰⁷⁵`. -/
theorem abs_roundQ64_sub_le (x : ℚ) :
    |roundQ binary64 x - x| ≤ |x| / 2 ^ 53 + 1 / 2 ^ 1075 := by
  have h := abs_roundQ_sub_le_add binary64 x
  have e1 : (2 : ℚ) ^ (-(binary64.prec : ℤ)) = 1 / 2 ^ 53 := by decide!
  have e2 : (2 : ℚ) ^ (binary64.emin - 1) = 1 / 2 ^ 1075 := by decide!
  rw [e1, e2] at h
  linarith

/-- Two-sided relative bound for a rounding to `float` in the normal range. -/
theorem roundQ32_bounds {x : ℚ} (hx : 1 / 2 ^ 126 ≤ x) :
    x * (1 - 1 / 2 ^ 24) ≤ roundQ binary32 x ∧ roundQ binary32 x ≤ x * (1 + 1 / 2 ^ 24) := by
  have hpos : 0 < x := lt_of_lt_of_le (by positivity) hx
  have e0 : (2 : ℚ) ^ (binary32.emin + binary32.prec - 1) = 1 / 2 ^ 126 := by decide!
  have h := abs_roundQ_sub_le_rel binary32 (x := x) (by rw [e0, abs_of_pos hpos]; exact hx)
  have e1 : (2 : ℚ) ^ (-(binary32.prec : ℤ)) = 1 / 2 ^ 24 := by decide!
  rw [e1, abs_of_pos hpos] at h
  have := abs_le.mp h
  constructor <;> linarith [this.1, this.2]

/-- Two-sided relative bound for a rounding to `double` in the normal range. -/
theorem roundQ64_bounds {x : ℚ} (hx : 1 / 2 ^ 1022 ≤ x) :
    x * (1 - 1 / 2 ^ 53) ≤ roundQ binary64 x ∧ roundQ binary64 x ≤ x * (1 + 1 / 2 ^ 53) := by
  have hpos : 0 < x := lt_of_lt_of_le (by positivity) hx
  have e0 : (2 : ℚ) ^ (binary64.emin + binary64.prec - 1) = 1 / 2 ^ 1022 := by decide!
  have h := abs_roundQ_sub_le_rel binary64 (x := x) (by rw [e0, abs_of_pos hpos]; exact hx)
  have e1 : (2 : ℚ) ^ (-(binary64.prec : ℤ)) = 1 / 2 ^ 53 := by decide!
  rw [e1, abs_of_pos hpos] at h
  have := abs_le.mp h
  constructor <;> linarith [this.1, this.2]

/-! ## Range of the fluxes in machine arithmetic -/

/-- C1 (amended): for every finite `float` `q > 0` and `cp ≥ 0`, `SinkUnloading cp q`
returns a finite value in the closed interval `[0, 1]`. -/
theorem SinkUnloading_mem_Icc (cp q : ℚ) (hcp : Rep binary32 cp) (hq : Rep binary32 q)
    (h0 : 0 ≤ cp) (hq0 : 0 < q) :
    ∃ r : ℚ, SinkUnloading (fin cp) (fin q) = fin r ∧ 0 ≤ r ∧ r ≤ 1 :=
  ⟨_, SinkUnloading_fin hcp hq h0 hq0⟩

/-- The amended C1 at `cp = 2`, `q = 1`. -/
theorem SinkUnloading_mem_Icc_witness :
    Rep binary32 2 ∧ Rep binary32 1 ∧ (0 : ℚ) ≤ 2 ∧ (0 : ℚ) < 1 ∧
      ∃ r : ℚ, SinkUnloading (fin 2) (fin 1) = fin r ∧ 0 ≤ r ∧ r ≤ 1 :=
  ⟨by decide!, by decide!, by decide!, by decide!,
    SinkUnloading_mem_Icc 2 1 (by decide!) (by decide!) (by decide!) (by decide!)⟩

/-- C1 fails as stated: at the `float` arguments `cp = 2`, `q = 2⁻²⁵` the sum `q + c`
rounds to `c` and `SinkUnloading` returns exactly `1`, which is not below `1`. -/
theorem SinkUnloading_eq_one :
    Rep binary32 2 ∧ Rep binary32 (1 / 2 ^ 25) ∧
      SinkUnloading (fin 2) (fin (1 / 2 ^ 25)) = fin 1 := by
  decide!

/-- C2 (amended): for every finite `float` `q > 0` and `cp ≥ 0`, `SourceLoading cp q`
returns a finite value in the closed interval `[-1, 0]`. -/
theorem SourceLoading_mem_Icc (cp q : ℚ) (hcp : Rep binary32 cp) (hq : Rep binary32 q)
    (h0 : 0 ≤ cp) (hq0 : 0 < q) :
    ∃ r : ℚ, SourceLoading (fin cp) (fin q) = fin r ∧ -1 ≤ r ∧ r ≤ 0 :=
  ⟨_, SourceLoading_fin hcp hq h0 hq0⟩

/-- The amended C2 at `cp = 2`, `q = 1`. -/
theorem SourceLoading_mem_Icc_witness :
    Rep binary32 2 ∧ Rep binary32 1 ∧ (0 : ℚ) ≤ 2 ∧ (0 : ℚ) < 1 ∧
      ∃ r : ℚ, SourceLoading (fin 2) (fin 1) = fin r ∧ -1 ≤ r ∧ r ≤ 0 :=
  ⟨by decide!, by decide!, by decide!, by decide!,
    SourceLoading_mem_Icc 2 1 (by decide!) (by decide!) (by decide!) (by decide!)⟩

/-- C2 fails as stated: at the `float` arguments `cp = 2`, `q = 2⁻²⁵` `SourceLoading`
returns exactly `0`, which is not below `0`. -/
theorem SourceLoading_eq_zero :
    Rep binary32 2 ∧ Rep binary32 (1 / 2 ^ 25) ∧
      SourceLoading (fin 2) (fin (1 / 2 ^ 25)) = fin 0 := by
  decide!

/-! ## Concrete scenarios in machine arithmetic -/

/-- C9 (amended): at `cp = 2`, `q = 1` the concentration is exactly `2`;
`SinkUnloading` returns the `float` `11184811 / 2²⁴` (within `2⁻²⁵` of `2/3`),
`SourceLoading` returns `-5592405 / 2²⁴` (within `2⁻²⁵` of `-1/3`) and
`dSinkUnloading_dcp` returns `3726407 / 2²⁶` (within `2⁻²⁸` of `1 / (9 * 2.001)`). -/
theorem kinetics_scenario_float :
    conc (fin 2) = fin 2 ∧
      SinkUnloading (fin 2) (fin 1) = fin (11184811 / 2 ^ 24) ∧
      |(11184811 / 2 ^ 24 : ℚ) - 2 / 3| ≤ 1 / 2 ^ 25 ∧
      SourceLoading (fin 2) (fin 1) = fin (-5592405 / 2 ^ 24) ∧
      |(-5592405 / 2 ^ 24 : ℚ) - -1 / 3| ≤ 1 / 2 ^ 25 ∧
      dSinkUnloading_dcp (fin 2) (fin 1) = fin (3726407 / 2 ^ 26) ∧
      |(3726407 / 2 ^ 26 : ℚ) - 1 / (9 * 2.001)| ≤ 1 / 2 ^ 28 := by
  decide!

/-- C9 fails as stated: none of the three returned values equals the claimed one. -/
theorem kinetics_scenario_not_exact :
    SinkUnloading (fin 2) (fin 1) ≠ fin (2 / 3) ∧
      SourceLoading (fin 2) (fin 1) ≠ fin (-1 / 3) ∧
      dSinkUnloading_dcp (fin 2) (fin 1) ≠ fin (1 / (9 * 2.001)) := by
  decide!

/-- C12 (amended): `PhloemResistanceRatio 0` is exactly `1`, and `PressureRatio 0` is the
`float` constant `a`, which is `4358427 / 2²²`, the `float` nearest to `1.03913` (within
`2⁻²⁴` of it). -/
theorem rheology_at_zero_float :
    PhloemResistanceRatio (fin 0) = fin 1 ∧
      PressureRatio (fin 0) = fin (4358427 / 2 ^ 22) ∧
      lit32 1.03913 = fin (4358427 / 2 ^ 22) ∧
      |(4358427 / 2 ^ 22 : ℚ) - 1.03913| ≤ 1 / 2 ^ 24 := by
  decide!

/-- C12 fails as stated: `PressureRatio 0` is not `1.03913`. -/
theorem PressureRatio_zero_ne : PressureRatio (fin 0) ≠ fin 1.03913 := by
  decide!

/-! ## Dependence on `q`, and the ends of the range of `cp` -/

/-- C18 (amended): for finite `float` arguments with `cp > 0` and `0 < q₁ < q₂`, the
unloading flux does not increase with `q`: `SinkUnloading cp q₂ ≤ SinkUnloading cp q₁`,
both values finite. -/
theorem SinkUnloading_antitone_q (cp q₁ q₂ : ℚ) (hcp : Rep binary32 cp)
    (hq₁ : Rep binary32 q₁) (hq₂ : Rep binary32 q₂) (h0 : 0 < cp) (h₁ : 0 < q₁)
    (h : q₁ < q₂) :
    ∃ r₁ r₂ : ℚ, SinkUnloading (fin cp) (fin q₁) = fin r₁ ∧
      SinkUnloading (fin cp) (fin q₂) = fin r₂ ∧ r₂ ≤ r₁ := by
  obtain ⟨e₁, _, _⟩ := SinkUnloading_fin hcp hq₁ h0.le h₁
  obtain ⟨e₂, _, _⟩ := SinkUnloading_fin hcp hq₂ h0.le (lt_trans h₁ h)
  obtain ⟨_, c0, _, crep⟩ := conc_fin hcp h0.le
  exact ⟨_, _, e₁, e₂, sinkQ_anti crep hq₁ c0 h₁ h.le⟩

/-- The amended C18 at `cp = 2`, `q₁ = 1`, `q₂ = 2`. -/
theorem SinkUnloading_antitone_q_witness :
    Rep binary32 2 ∧ Rep binary32 1 ∧ (0 : ℚ) < 2 ∧ (0 : ℚ) < 1 ∧ (1 : ℚ) < 2 ∧
      ∃ r₁ r₂ : ℚ, SinkUnloading (fin 2) (fin 1) = fin r₁ ∧
        SinkUnloading (fin 2) (fin 2) = fin r₂ ∧ r₂ ≤ r₁ :=
  ⟨by decide!, by decide!, by decide!, by decide!, by decide!,
    SinkUnloading_antitone_q 2 1 2 (by decide!) (by decide!) (by decide!) (by decide!)
      (by decide!) (by decide!)⟩

/-- C18 fails as stated: `q₂ = 1 + 2⁻²³` is a `float` above `q₁ = 1`, and at `cp = 2`
the two fluxes are the same `float`, so the flux is not strictly smaller at `q₂`. -/
theorem SinkUnloading_not_strictAnti :
    Rep binary32 (1 + 1 / 2 ^ 23) ∧ (1 : ℚ) < 1 + 1 / 2 ^ 23 ∧
      SinkUnloading (fin 2) (fin (1 + 1 / 2 ^ 23)) = fin (11184811 / 2 ^ 24) ∧
      SinkUnloading (fin 2) (fin 1) = fin (11184811 / 2 ^ 24) := by
  decide!

/-- The largest finite `float`. -/
theorem rep_max : Rep binary32 (2 ^ 128 - 2 ^ 104) := by decide!

theorem conc_max : conc (fin (2 ^ 128 - 2 ^ 104)) = fin 26087635204194697216 := by decide!

/-- C10 (amended): the `float` `cp` has a largest finite value, `2¹²⁸ - 2¹⁰⁴`; there, for
every `float` `q` with `0 < q ≤ 2³⁹`, `SinkUnloading` returns exactly `1` and
`SourceLoading` exactly `0`. -/
theorem flux_at_largest_cp (q : ℚ) (_hq : Rep binary32 q) (hq0 : 0 < q) (hq1 : q ≤ 2 ^ 39) :
    SinkUnloading (fin (2 ^ 128 - 2 ^ 104)) (fin q) = fin 1 ∧
      SourceLoading (fin (2 ^ 128 - 2 ^ 104)) (fin q) = fin 0 := by
  have hlo : roundQ binary32 26087635204194697216 = 26087635204194697216 := by decide!
  have hhi : roundQ binary32 (2 ^ 39 + 26087635204194697216) = 26087635204194697216 := by
    decide!
  have h1 := roundQ_mono binary32 prec32
    (show (26087635204194697216 : ℚ) ≤ q + 26087635204194697216 by linarith)
  have h2 := roundQ_mono binary32 prec32
    (show q + 26087635204194697216 ≤ (2 ^ 39 + 26087635204194697216 : ℚ) by linarith)
  rw [hlo] at h1
  rw [hhi] at h2
  have ht : roundQ binary32 (q + 26087635204194697216) = 26087635204194697216 :=
    le_antisymm h2 h1
  have hfin : FP.round binary32 (q + 26087635204194697216) = fin 26087635204194697216 := by
    have := FP.round_eq_fin binary32 (x := q + 26087635204194697216)
      (by rw [ht]; decide!)
    rw [this, ht]
  have hdiv : FP.div binary32 (fin 26087635204194697216)
      (FP.add binary32 (fin q) (fin 26087635204194697216)) = fin 1 := by
    show FP.div binary32 (fin 26087635204194697216)
      (FP.round binary32 (q + 26087635204194697216)) = fin 1
    rw [hfin]
    decide!
  constructor
  · unfold SinkUnloading
    simp only [conc_max]
    exact hdiv
  · unfold SourceLoading
    simp only [conc_max]
    rw [hdiv]
    decide!

/-- The amended C10 at `q = 1`. -/
theorem flux_at_largest_cp_witness :
    Rep binary32 1 ∧ (0 : ℚ) < 1 ∧ (1 : ℚ) ≤ 2 ^ 39 ∧
      SinkUnloading (fin (2 ^ 128 - 2 ^ 104)) (fin 1) = fin 1 ∧
      SourceLoading (fin (2 ^ 128 - 2 ^ 104)) (fin 1) = fin 0 :=
  ⟨by decide!, by decide!, by decide!,
    flux_at_largest_cp 1 (by decide!) (by decide!) (by decide!)⟩

/-- C10 fails as stated: at the `float` `q = 2¹⁰⁰ > 0` no finite `cp ≥ 0` brings
`SinkUnloading cp q` above `2⁻³⁵`, so the flux does not approach `1`. -/
theorem SinkUnloading_no_saturation :
    ¬ ∃ cp : ℚ, Rep binary32 cp ∧ 0 ≤ cp ∧
      ∃ r : ℚ, SinkUnloading (fin cp) (fin (2 ^ 100)) = fin r ∧ 1 / 2 ^ 35 < r := by
  rintro ⟨cp, hcp, h0, r, hr, hlt⟩
  have hq : Rep binary32 (2 ^ 100) := by decide!
  obtain ⟨e, _, _⟩ := SinkUnloading_fin hcp hq h0 (by positivity)
  obtain ⟨_, c0, c1, _⟩ := conc_fin hcp h0
  rw [e] at hr
  have hr' : sinkQ (concQ cp) (2 ^ 100) = r := by
    injection hr
  have hB : concQ cp / 2 ^ 100 ≤ 1 / 2 ^ 35 := by
    rw [div_le_iff₀ (by positivity)]
    calc concQ cp ≤ 2 ^ 65 := c1
      _ = 1 / 2 ^ 35 * 2 ^ 100 := by norm_num
  have := sinkQ_le hq c0 (by positivity) hB
  have e2 : roundQ binary32 (1 / 2 ^ 35) = 1 / 2 ^ 35 := by decide!
  rw [e2, hr'] at this
  exact absurd hlt (not_lt.mpr this)

/-- Distance between `(float)(-1.0 + s)` and `s - 1` for `s` in `[0, 1]`. -/
theorem abs_sourceQ_sub_le {s : ℚ} (h0 : 0 ≤ s) (h1 : s ≤ 1) :
    |sourceQ s - (s - 1)| ≤ 1 / 2 ^ 23 := by
  have a := abs_roundQ_sub_le_add binary64 (-1 + s)
  have b := abs_roundQ_sub_le_add binary32 (roundQ binary64 (-1 + s))
  have hx : |(-1 + s : ℚ)| ≤ 1 := by
    rw [abs_le]
    constructor <;> linarith
  have hy : |roundQ binary64 (-1 + s)| ≤ 1 := by
    have := abs_roundQ_le binary64 prec64 hx
    rw [roundQ64_one] at this
    exact this
  have e1 : (2 : ℚ) ^ (-(binary64.prec : ℤ)) = 1 / 2 ^ 53 := by decide!
  have e2 : (2 : ℚ) ^ (binary64.emin - 1) ≤ 1 / 2 ^ 53 := by decide!
  have e3 : (2 : ℚ) ^ (-(binary32.prec : ℤ)) = 1 / 2 ^ 24 := by decide!
  have e4 : (2 : ℚ) ^ (binary32.emin - 1) ≤ 1 / 2 ^ 53 := by decide!
  rw [e1] at a
  rw [e3] at b
  have a' : |roundQ binary64 (-1 + s) - (-1 + s)| ≤ 1 / 2 ^ 53 + 1 / 2 ^ 53 := by
    have : (1 : ℚ) / 2 ^ 53 * |(-1 + s : ℚ)| ≤ 1 / 2 ^ 53 * 1 :=
      mul_le_mul_of_nonneg_left hx (by positivity)
    linarith
  have b' : |sourceQ s - roundQ binary64 (-1 + s)| ≤ 1 / 2 ^ 24 + 1 / 2 ^ 53 := by
    have : (1 : ℚ) / 2 ^ 24 * |roundQ binary64 (-1 + s)| ≤ 1 / 2 ^ 24 * 1 :=
      mul_le_mul_of_nonneg_left hy (by positivity)
    unfold sourceQ
    linarith
  have tri : |sourceQ s - (s - 1)| ≤
      |sourceQ s - roundQ binary64 (-1 + s)| + |roundQ binary64 (-1 + s) - (-1 + s)| := by
    have e : sourceQ s - (s - 1) =
        (sourceQ s - roundQ binary64 (-1 + s)) + (roundQ binary64 (-1 + s) - (-1 + s)) := by
      ring
    rw [e]
    exact abs_add _ _
  have num : (1 : ℚ) / 2 ^ 24 + 1 / 2 ^ 53 + (1 / 2 ^ 53 + 1 / 2 ^ 53) ≤ 1 / 2 ^ 23 := by
    norm_num
  linarith

/-- C14 (amended): for all `float` values (NaN and the infinities included)
`SourceLoading cp q` is `-1.0 + SinkUnloading cp q` rounded to `float`; for finite
`q > 0`, `cp ≥ 0` both values are finite and `SourceLoading` is within `2⁻²³` of
`SinkUnloading - 1`. -/
theorem loading_is_rounded_shift :
    (∀ cp q : FP, SourceLoading cp q =
        FP.cast binary32 (FP.add binary64 (FP.neg (lit64 1.0)) (SinkUnloading cp q))) ∧
      ∀ cp q : ℚ, Rep binary32 cp → Rep binary32 q → 0 ≤ cp → 0 < q →
        ∃ s r : ℚ, SinkUnloading (fin cp) (fin q) = fin s ∧
          SourceLoading (fin cp) (fin q) = fin r ∧ |r - (s - 1)| ≤ 1 / 2 ^ 23 := by
  refine ⟨fun _ _ => rfl, ?_⟩
  intro cp q hcp hq h0 hq0
  obtain ⟨e₁, s0, s1⟩ := SinkUnloading_fin hcp hq h0 hq0
  obtain ⟨e₂, _, _⟩ := SourceLoading_fin hcp hq h0 hq0
  exact ⟨_, _, e₁, e₂, abs_sourceQ_sub_le s0 s1⟩

theorem loading_is_rounded_shift_witness :
    ∃ s r : ℚ, SinkUnloading (fin 1) (fin 10) = fin s ∧
      SourceLoading (fin 1) (fin 10) = fin r ∧ |r - (s - 1)| ≤ 1 / 2 ^ 23 :=
  loading_is_rounded_shift.2 1 10 (by decide!) (by decide!) (by norm_num) (by norm_num)

/-- C14 fails as stated: at `cp = 1`, `q = 10` `SinkUnloading` returns `16629489 / 2²⁷`
and `SourceLoading` returns `-7349265 / 2²³`, which is not `SinkUnloading - 1`. -/
theorem loading_ne_unloading_sub_one :
    SinkUnloading (fin 1) (fin 10) = fin (16629489 / 2 ^ 27) ∧
      SourceLoading (fin 1) (fin 10) = fin (-7349265 / 2 ^ 23) ∧
      (-7349265 / 2 ^ 23 : ℚ) ≠ 16629489 / 2 ^ 27 - 1 := by
  decide!

/-! ## Denominators of the kinetics functions -/

theorem lit64_offset : lit64 0.001 = fin (1152921504606847 / 2 ^ 60) := by decide!

/-- The `double` sum `c + 0.001` on a finite `c` in `[0, 2⁶⁵]`. -/
theorem add_offset_fin {c : ℚ} (h0 : 0 ≤ c) (h1 : c ≤ 2 ^ 65) :
    FP.add binary64 (fin c) (lit64 0.001) =
        fin (roundQ binary64 (c + 1152921504606847 / 2 ^ 60)) ∧
      1152921504606847 / 2 ^ 60 ≤ roundQ binary64 (c + 1152921504606847 / 2 ^ 60) := by
  have hB : |c + 1152921504606847 / 2 ^ 60| ≤ 2 ^ 66 := by
    rw [abs_of_nonneg (by positivity)]
    have : (1152921504606847 : ℚ) / 2 ^ 60 ≤ 2 ^ 65 := by norm_num
    have : (2 : ℚ) ^ 66 = 2 ^ 65 + 2 ^ 65 := by norm_num
    linarith
  have h := FP.round_fin_of_abs_le binary64 prec64 hB (by decide!)
  constructor
  · rw [lit64_offset]
    exact h.1
  · have := roundQ_mono binary64 prec64
      (show (1152921504606847 / 2 ^ 60 : ℚ) ≤ c + 1152921504606847 / 2 ^ 60 by linarith)
    have e : roundQ binary64 (1152921504606847 / 2 ^ 60) = 1152921504606847 / 2 ^ 60 := by
      decide!
    rw [e] at this
    exact this

/-- The denominator of the derivative functions on finite arguments is a product of
non-negative values. -/
theorem derivativeDenominator_eq {cp q : ℚ} (hcp : Rep binary32 cp) (h0 : 0 ≤ cp) :
    derivativeDenominator (fin cp) (fin q) =
      FP.mul binary64
        (FP.mul binary32 (FP.round binary32 (q + concQ cp)) (FP.round binary32 (q + concQ cp)))
        (fin (roundQ binary64 (concQ cp + 1152921504606847 / 2 ^ 60))) := by
  obtain ⟨e, c0, c1, _⟩ := conc_fin hcp h0
  unfold derivativeDenominator
  simp only [e, (add_offset_fin c0 c1).1]
  rfl

/-- C16 (amended): for finite `float` arguments `q > 0`, `cp ≥ 0` the denominator `q + c`
of `SinkUnloading` and `SourceLoading` is `+∞` or a finite value that is at least `q`,
hence positive; the denominator `(q + c)*(q + c)*(c + 0.001)` of the derivative functions
is `+∞` or a finite value that is not negative, and it is positive whenever
`q ≥ 2⁻⁷⁴`. -/
theorem kinetics_denominators_float (cp q : ℚ) (hcp : Rep binary32 cp) (hq : Rep binary32 q)
    (h0 : 0 ≤ cp) (hq0 : 0 < q) :
    (fluxDenominator (fin cp) (fin q) = pinf ∨
        ∃ t : ℚ, fluxDenominator (fin cp) (fin q) = fin t ∧ q ≤ t) ∧
      (derivativeDenominator (fin cp) (fin q) = pinf ∨
        ∃ d : ℚ, derivativeDenominator (fin cp) (fin q) = fin d ∧ 0 ≤ d ∧
          (1 / 2 ^ 74 ≤ q → 0 < d)) ∧
      SinkUnloading (fin cp) (fin q) =
        FP.div binary32 (conc (fin cp)) (fluxDenominator (fin cp) (fin q)) ∧
      dSinkUnloading_dcp (fin cp) (fin q) =
        FP.cast binary32 (FP.div binary64 (fin q) (derivativeDenominator (fin cp) (fin q))) ∧
      dSourceLoading_dcp (fin cp) (fin q) =
        FP.cast binary32 (FP.div binary64 (fin q) (derivativeDenominator (fin cp) (fin q))) := by
  obtain ⟨ef, hcases⟩ := fluxDenominator_cases hcp hq h0 hq0
  obtain ⟨_, c0, c1, _⟩ := conc_fin hcp h0
  obtain ⟨_, hoff⟩ := add_offset_fin c0 c1
  have hoff0 : (0 : ℚ) < roundQ binary64 (concQ cp + 1152921504606847 / 2 ^ 60) :=
    lt_of_lt_of_le (by norm_num) hoff
  refine ⟨?_, ?_, rfl, rfl, rfl⟩
  · rcases hcases with h | ⟨h, hle⟩
    · exact Or.inl (ef.trans h)
    · exact Or.inr ⟨_, ef.trans h, hle⟩
  · rw [derivativeDenominator_eq hcp h0]
    rcases hcases with h | ⟨h, hle⟩
    · left
      rw [h]
      show (if 0 < roundQ binary64 (concQ cp + 1152921504606847 / 2 ^ 60) then pinf
        else _) = pinf
      rw [if_pos hoff0]
    · rw [h]
      have ht0 : 0 < roundQ binary32 (q + concQ cp) := lt_of_lt_of_le hq0 hle
      rcases FP.round_nonneg_cases binary32
          (mul_nonneg ht0.le ht0.le) with h2 | ⟨h2, _⟩
      · left
        show FP.mul binary64 (FP.round binary32 _) _ = pinf
        rw [h2]
        show (if 0 < roundQ binary64 (concQ cp + 1152921504606847 / 2 ^ 60) then pinf
          else _) = pinf
        rw [if_pos hoff0]
      · have hw0 := roundQ_nonneg binary32 (mul_nonneg ht0.le ht0.le)
        have hprod : FP.mul binary64
            (FP.mul binary32 (fin (roundQ binary32 (q + concQ cp)))
              (fin (roundQ binary32 (q + concQ cp))))
            (fin (roundQ binary64 (concQ cp + 1152921504606847 / 2 ^ 60))) =
            FP.round binary64
              (roundQ binary32 (roundQ binary32 (q + concQ cp) * roundQ binary32 (q + concQ cp)) *
                roundQ binary64 (concQ cp + 1152921504606847 / 2 ^ 60)) := by
          show FP.mul binary64 (FP.round binary32 _) _ = _
          rw [h2]
          rfl
        rw [hprod]
        rcases FP.round_nonneg_cases binary64
            (mul_nonneg hw0 hoff0.le) with h3 | ⟨h3, _⟩
        · exact Or.inl h3
        · right
          refine ⟨_, h3, roundQ_nonneg _ (mul_nonneg hw0 hoff0.le), ?_⟩
          intro hq74
          have ht74 : (1 : ℚ) / 2 ^ 74 ≤ roundQ binary32 (q + concQ cp) := le_trans hq74 hle
          have hsq : (1 : ℚ) / 2 ^ 148 ≤
              roundQ binary32 (q + concQ cp) * roundQ binary32 (q + concQ cp) := by
            have := mul_le_mul ht74 ht74 (by positivity) ht0.le
            calc (1 : ℚ) / 2 ^ 148 = 1 / 2 ^ 74 * (1 / 2 ^ 74) := by norm_num
              _ ≤ _ := this
          have hw : (1 : ℚ) / 2 ^ 148 ≤ roundQ binary32
              (roundQ binary32 (q + concQ cp) * roundQ binary32 (q + concQ cp)) := by
            have := roundQ_mono binary32 prec32 hsq
            have e : roundQ binary32 (1 / 2 ^ 148) = 1 / 2 ^ 148 := by decide!
            rw [e] at this
            exact this
          have hprod2 : (1 : ℚ) / 2 ^ 148 * (1152921504606847 / 2 ^ 60) ≤
              roundQ binary32 (roundQ binary32 (q + concQ cp) * roundQ binary32 (q + concQ cp)) *
                roundQ binary64 (concQ cp + 1152921504606847 / 2 ^ 60) :=
            mul_le_mul hw hoff (by positivity) hw0
          have := roundQ_mono binary64 prec64 hprod2
          have e : (0 : ℚ) < roundQ binary64 (1 / 2 ^ 148 * (1152921504606847 / 2 ^ 60)) := by
            decide!
          linarith

/-- The amended C16 at `cp = 2`, `q = 1`. -/
theorem kinetics_denominators_float_witness :
    Rep binary32 2 ∧ Rep binary32 1 ∧ (0 : ℚ) ≤ 2 ∧ (0 : ℚ) < 1 ∧
      (fluxDenominator (fin 2) (fin 1) = pinf ∨
        ∃ t : ℚ, fluxDenominator (fin 2) (fin 1) = fin t ∧ 1 ≤ t) :=
  ⟨by decide!, by decide!, by decide!, by decide!,
    (kinetics_denominators_float 2 1 (by decide!) (by decide!) (by decide!) (by decide!)).1⟩

/-- C16 fails as stated: at the valid `float` arguments `cp = 0`, `q = 2⁻⁸⁰` the product
`(q + c)*(q + c)` underflows, the denominator of the derivative functions is exactly `0`,
and `dSinkUnloading_dcp` divides by zero (it returns `+∞`). -/
theorem derivativeDenominator_zero :
    Rep binary32 (1 / 2 ^ 80) ∧
      derivativeDenominator (fin 0) (fin (1 / 2 ^ 80)) = fin 0 ∧
      dSinkUnloading_dcp (fin 0) (fin (1 / 2 ^ 80)) = pinf ∧
      dSourceLoading_dcp (fin 0) (fin (1 / 2 ^ 80)) = pinf := by
  decide!

/-! ## The derivative is largest at zero concentration -/

theorem concQ_zero : concQ 0 = 0 := by decide!

theorem roundQ64_offset :
    roundQ binary64 (0 + 1152921504606847 / 2 ^ 60) = 1152921504606847 / 2 ^ 60 := by decide!

/-- In machine arithmetic the derivative functions are antitone in the concentration:
their value at any finite `cp ≥ 0` is at most their value at `cp = 0`. -/
theorem dSinkUnloading_dcp_le_zero {cp q : ℚ} (hcp : Rep binary32 cp) (_hq : Rep binary32 q)
    (h0 : 0 ≤ cp) (hq0 : 0 < q) :
    FP.le (dSinkUnloading_dcp (fin cp) (fin q)) (dSinkUnloading_dcp (fin 0) (fin q)) := by
  obtain ⟨_, c0, c1, _⟩ := conc_fin hcp h0
  have hT : FP.le (FP.round binary32 (q + concQ 0)) (FP.round binary32 (q + concQ cp)) := by
    rw [concQ_zero]
    exact FP.round_le_round _ prec32 (by linarith)
  have hT0 : FP.NN (FP.round binary32 (q + concQ 0)) :=
    FP.NN_round _ (by rw [concQ_zero]; linarith)
  have hTT := FP.mul_self_mono binary32 prec32 hT0 hT
  have hTT0 := FP.NN_mul_self binary32 hT0
  have hE0 : (0 : ℚ) < roundQ binary64 (concQ 0 + 1152921504606847 / 2 ^ 60) := by
    rw [concQ_zero, roundQ64_offset]
    norm_num
  have hE : roundQ binary64 (concQ 0 + 1152921504606847 / 2 ^ 60) ≤
      roundQ binary64 (concQ cp + 1152921504606847 / 2 ^ 60) := by
    rw [concQ_zero]
    exact roundQ_mono _ prec64 (by linarith)
  have hden := FP.mul_fin_mono binary64 prec64 hTT0 hTT hE0.le hE (fun _ => hE0)
    (fun _ => lt_of_lt_of_le hE0 hE)
  have hden0 := FP.NN_mul_fin binary64 hTT0 hE0.le (fun _ => hE0)
  have hdiv := FP.div_fin_anti binary64 prec64 hq0 hden0 hden
  have := FP.cast_mono binary32 prec32 hdiv
  unfold dSinkUnloading_dcp
  rw [derivativeDenominator_eq hcp h0, derivativeDenominator_eq (rep_zero _) le_rfl]
  exact this

/-! ## The pressure ratio -/

theorem lit32_a : lit32 1.03913 = fin (4358427 / 2 ^ 22) := by decide!

theorem lit32_b : lit32 0.86536 = fin (3629583 / 2 ^ 22) := by decide!

theorem lit32_c : lit32 5.2465 = fin (2750677 / 2 ^ 19) := by decide!

theorem PressureRatio_eq (x : ℚ) :
    PressureRatio (fin x) =
      FP.add binary32
        (FP.add binary32 (fin (4358427 / 2 ^ 22)) (FP.round binary32 (3629583 / 2 ^ 22 * x)))
        (FP.mul binary32 (FP.round binary32 (2750677 / 2 ^ 19 * x)) (fin x)) := by
  unfold PressureRatio
  simp only [lit32_a, lit32_b, lit32_c]
  rfl

theorem PressureRatio_mono {x y : ℚ} (hx : 0 ≤ x) (h : x ≤ y) :
    FP.le (PressureRatio (fin x)) (PressureRatio (fin y)) := by
  rw [PressureRatio_eq, PressureRatio_eq]
  have hy : 0 ≤ y := le_trans hx h
  have m1 : FP.le (FP.round binary32 (3629583 / 2 ^ 22 * x))
      (FP.round binary32 (3629583 / 2 ^ 22 * y)) :=
    FP.round_le_round _ prec32 (mul_le_mul_of_nonneg_left h (by norm_num))
  have n1 : FP.NN (FP.round binary32 (3629583 / 2 ^ 22 * x)) :=
    FP.NN_round _ (by positivity)
  have na : FP.NN (fin (4358427 / 2 ^ 22)) := by
    show (0 : ℚ) ≤ 4358427 / 2 ^ 22
    norm_num
  have la : FP.le (fin (4358427 / 2 ^ 22)) (fin (4358427 / 2 ^ 22)) := by
    show (4358427 / 2 ^ 22 : ℚ) ≤ 4358427 / 2 ^ 22
    exact le_rfl
  have s1 := FP.add_mono binary32 prec32 na n1 la m1
  have ns1 := FP.NN_add binary32 na n1
  have m2 : FP.le (FP.round binary32 (2750677 / 2 ^ 19 * x))
      (FP.round binary32 (2750677 / 2 ^ 19 * y)) :=
    FP.round_le_round _ prec32 (mul_le_mul_of_nonneg_left h (by norm_num))
  have n2 : FP.NN (FP.round binary32 (2750677 / 2 ^ 19 * x)) :=
    FP.NN_round _ (by positivity)
  have pos : ∀ z : ℚ, 0 ≤ z → FP.round binary32 (2750677 / 2 ^ 19 * z) = pinf → 0 < z := by
    intro z hz hinf
    rcases eq_or_lt_of_le hz with e | lt
    · rw [← e, mul_zero, round_zero] at hinf
      exact FP.noConfusion hinf
    · exact lt
  have m3 := FP.mul_fin_mono binary32 prec32 n2 m2 hx h (pos x hx) (pos y hy)
  have n3 := FP.NN_mul_fin binary32 n2 hx (pos x hx)
  exact FP.add_mono binary32 prec32 ns1 n3 s1 m3

/-- C19 (amended): on finite `float` arguments `0 ≤ cab₁ < cab₂` `PressureRatio` is
non-decreasing, `PressureRatio cab₁ ≤ PressureRatio cab₂` (values finite or `+∞`), and
it is never below its value at zero, `PressureRatio 0 = 4358427 / 2²²`, the `float`
nearest to `1.03913`. -/
theorem PressureRatio_monotone (cab₁ cab₂ : ℚ) (h₁ : 0 ≤ cab₁) (h : cab₁ < cab₂) :
    FP.le (PressureRatio (fin cab₁)) (PressureRatio (fin cab₂)) ∧
      FP.le (fin (4358427 / 2 ^ 22)) (PressureRatio (fin cab₁)) ∧
      FP.le (fin (4358427 / 2 ^ 22)) (PressureRatio (fin cab₂)) ∧
      PressureRatio (fin 0) = fin (4358427 / 2 ^ 22) := by
  have e0 : PressureRatio (fin 0) = fin (4358427 / 2 ^ 22) := by decide!
  refine ⟨PressureRatio_mono h₁ h.le, ?_, ?_, e0⟩
  · rw [← e0]
    exact PressureRatio_mono le_rfl h₁
  · rw [← e0]
    exact PressureRatio_mono le_rfl (le_trans h₁ h.le)

/-- The amended C19 at `cab₁ = 0`, `cab₂ = 1`. -/
theorem PressureRatio_monotone_witness :
    (0 : ℚ) ≤ 0 ∧ (0 : ℚ) < 1 ∧ FP.le (PressureRatio (fin 0)) (PressureRatio (fin 1)) :=
  ⟨le_rfl, by decide!, (PressureRatio_monotone 0 1 le_rfl (by decide!)).1⟩

/-- C19 fails as stated: `0 < 2⁻³⁰` are `float`s with the same `PressureRatio`,
`4358427 / 2²²`, and that value is below `1.03913`. -/
theorem PressureRatio_flat :
    Rep binary32 (1 / 2 ^ 30) ∧ (0 : ℚ) < 1 / 2 ^ 30 ∧
      PressureRatio (fin 0) = fin (4358427 / 2 ^ 22) ∧
      PressureRatio (fin (1 / 2 ^ 30)) = fin (4358427 / 2 ^ 22) ∧
      (4358427 / 2 ^ 22 : ℚ) < 1.03913 := by
  decide!

/-! ## The finite-difference check in machine arithmetic -/

set_option maxHeartbeats 1000000 in
/-- At `cp = 0` and a `float` `q` between `2⁻⁶⁰` and `2⁶⁰`, `dSinkUnloading_dcp` returns a
finite value within relative error `2⁻²²` of `1000 / q`. -/
theorem dSinkUnloading_dcp_zero_near {q : ℚ} (hq : Rep binary32 q) (hlo : 1 / 2 ^ 60 ≤ q)
    (hhi : q ≤ 2 ^ 60) :
    ∃ r : ℚ, dSinkUnloading_dcp (fin 0) (fin q) = fin r ∧
      |r - 1000 / q| ≤ 1 / 2 ^ 22 * (1000 / q) := by
  have hq0 : 0 < q := lt_of_lt_of_le (by positivity) hlo
  -- the rounded square
  have hqq_lo : (1 : ℚ) / 2 ^ 126 ≤ q * q := by
    have := mul_le_mul hlo hlo (by positivity) hq0.le
    calc (1 : ℚ) / 2 ^ 126 ≤ 1 / 2 ^ 60 * (1 / 2 ^ 60) := by norm_num
      _ ≤ q * q := this
  have hqq_hi : q * q ≤ 2 ^ 120 := by
    have := mul_le_mul hhi hhi hq0.le (by positivity)
    calc q * q ≤ 2 ^ 60 * 2 ^ 60 := this
      _ = 2 ^ 120 := by norm_num
  obtain ⟨w1, w2⟩ := roundQ32_bounds hqq_lo
  set w := roundQ binary32 (q * q) with hw
  have hwfin : FP.round binary32 (q * q) = fin w :=
    (FP.round_fin_of_abs_le binary32 prec32
      (show |q * q| ≤ 2 ^ 120 by rw [abs_of_nonneg (by positivity)]; exact hqq_hi)
      (by decide!)).1
  have hw0 : 0 < w := by
    have : 0 < q * q * (1 - 1 / 2 ^ 24) := by positivity
    linarith
  have hwhi : w ≤ 2 ^ 121 := by
    have : q * q * (1 + 1 / 2 ^ 24) ≤ 2 ^ 120 * (1 + 1 / 2 ^ 24) :=
      mul_le_mul_of_nonneg_right hqq_hi (by norm_num)
    have : (2 : ℚ) ^ 120 * (1 + 1 / 2 ^ 24) ≤ 2 ^ 121 := by norm_num
    linarith
  -- the double product with the offset
  have hwr_lo : (1 : ℚ) / 2 ^ 1022 ≤ w * (1152921504606847 / 2 ^ 60) := by
    have h1 : (1 : ℚ) / 2 ^ 126 * (1 - 1 / 2 ^ 24) ≤ w :=
      le_trans (mul_le_mul_of_nonneg_right hqq_lo (by norm_num)) w1
    have : (1 : ℚ) / 2 ^ 126 * (1 - 1 / 2 ^ 24) * (1152921504606847 / 2 ^ 60) ≤
        w * (1152921504606847 / 2 ^ 60) := mul_le_mul_of_nonneg_right h1 (by norm_num)
    have : (1 : ℚ) / 2 ^ 1022 ≤
        1 / 2 ^ 126 * (1 - 1 / 2 ^ 24) * (1152921504606847 / 2 ^ 60) := by norm_num
    linarith
  obtain ⟨d1, d2⟩ := roundQ64_bounds hwr_lo
  set D := roundQ binary64 (w * (1152921504606847 / 2 ^ 60)) with hD
  have hDfin : FP.round binary64 (w * (1152921504606847 / 2 ^ 60)) = fin D :=
    (FP.round_fin_of_abs_le binary64 prec64
      (show |w * (1152921504606847 / 2 ^ 60)| ≤ 2 ^ 121 by
        rw [abs_of_nonneg (by positivity)]
        have : w * (1152921504606847 / 2 ^ 60) ≤ w * 1 :=
          mul_le_mul_of_nonneg_left (by norm_num) hw0.le
        linarith)
      (by decide!)).1
  have hD0 : 0 < D := by
    have : 0 < w * (1152921504606847 / 2 ^ 60) * (1 - 1 / 2 ^ 53) := by positivity
    linarith
  -- bounds of D in terms of q
  have hDlo : q * q * ((1 - 1 / 2 ^ 24) * (1152921504606847 / 2 ^ 60) * (1 - 1 / 2 ^ 53)) ≤ D := by
    have : q * q * (1 - 1 / 2 ^ 24) * (1152921504606847 / 2 ^ 60) * (1 - 1 / 2 ^ 53) ≤
        w * (1152921504606847 / 2 ^ 60) * (1 - 1 / 2 ^ 53) :=
      mul_le_mul_of_nonneg_right (mul_le_mul_of_nonneg_right w1 (by norm_num)) (by norm_num)
    linarith
  have hDhi : D ≤ q * q * ((1 + 1 / 2 ^ 24) * (1152921504606847 / 2 ^ 60) * (1 + 1 / 2 ^ 53)) := by
    have : w * (1152921504606847 / 2 ^ 60) * (1 + 1 / 2 ^ 53) ≤
        q * q * (1 + 1 / 2 ^ 24) * (1152921504606847 / 2 ^ 60) * (1 + 1 / 2 ^ 53) :=
      mul_le_mul_of_nonneg_right (mul_le_mul_of_nonneg_right w2 (by norm_num)) (by norm_num)
    linarith
  -- the quotient
  have hquot_lo : 1000 / q * ((1 - 1 / 2 ^ 24 - 1 / 2 ^ 40)) ≤ q / D := by
    rw [le_div_iff₀ hD0]
    have e : 1000 / q * ((1 - 1 / 2 ^ 24 - 1 / 2 ^ 40)) *
        (q * q * ((1 + 1 / 2 ^ 24) * (1152921504606847 / 2 ^ 60) * (1 + 1 / 2 ^ 53))) =
        q * (1000 * ((1 - 1 / 2 ^ 24 - 1 / 2 ^ 40)) *
          ((1 + 1 / 2 ^ 24) * (1152921504606847 / 2 ^ 60) * (1 + 1 / 2 ^ 53))) := by
      field_simp
      ring
    have h1 : 1000 / q * ((1 - 1 / 2 ^ 24 - 1 / 2 ^ 40)) * D ≤ 1000 / q * ((1 - 1 / 2 ^ 24 - 1 / 2 ^ 40)) *
        (q * q * ((1 + 1 / 2 ^ 24) * (1152921504606847 / 2 ^ 60) * (1 + 1 / 2 ^ 53))) :=
      mul_le_mul_of_nonneg_left hDhi (by positivity)
    have h2 : q * (1000 * ((1 - 1 / 2 ^ 24 - 1 / 2 ^ 40)) *
          ((1 + 1 / 2 ^ 24) * (1152921504606847 / 2 ^ 60) * (1 + 1 / 2 ^ 53))) ≤ q * 1 :=
      mul_le_mul_of_nonneg_left (by norm_num) hq0.le
    linarith
  have hquot_hi : q / D ≤ 1000 / q * ((1 + 1 / 2 ^ 24 + 1 / 2 ^ 40)) := by
    rw [div_le_iff₀ hD0]
    have e : 1000 / q * ((1 + 1 / 2 ^ 24 + 1 / 2 ^ 40)) *
        (q * q * ((1 - 1 / 2 ^ 24) * (1152921504606847 / 2 ^ 60) * (1 - 1 / 2 ^ 53))) =
        q * (1000 * ((1 + 1 / 2 ^ 24 + 1 / 2 ^ 40)) *
          ((1 - 1 / 2 ^ 24) * (1152921504606847 / 2 ^ 60) * (1 - 1 / 2 ^ 53))) := by
      field_simp
      ring
    have h1 : 1000 / q * ((1 + 1 / 2 ^ 24 + 1 / 2 ^ 40)) *
        (q * q * ((1 - 1 / 2 ^ 24) * (1152921504606847 / 2 ^ 60) * (1 - 1 / 2 ^ 53))) ≤
        1000 / q * ((1 + 1 / 2 ^ 24 + 1 / 2 ^ 40)) * D :=
      mul_le_mul_of_nonneg_left hDlo (by positivity)
    have h2 : q * 1 ≤ q * (1000 * ((1 + 1 / 2 ^ 24 + 1 / 2 ^ 40)) *
          ((1 - 1 / 2 ^ 24) * (1152921504606847 / 2 ^ 60) * (1 - 1 / 2 ^ 53))) :=
      mul_le_mul_of_nonneg_left (by norm_num) hq0.le
    linarith
  have hT0 : 0 < 1000 / q := by positivity
  have hTlo : (1 : ℚ) / 2 ^ 51 ≤ 1000 / q := by
    rw [le_div_iff₀ hq0]
    have : (1 : ℚ) / 2 ^ 51 * q ≤ 1 / 2 ^ 51 * 2 ^ 60 := mul_le_mul_of_nonneg_left hhi (by norm_num)
    have : (1 : ℚ) / 2 ^ 51 * 2 ^ 60 ≤ 1000 := by norm_num
    linarith
  have hThi : 1000 / q ≤ 2 ^ 70 := by
    rw [div_le_iff₀ hq0]
    have : (2 : ℚ) ^ 70 * (1 / 2 ^ 60) ≤ 2 ^ 70 * q := mul_le_mul_of_nonneg_left hlo (by norm_num)
    have : (1000 : ℚ) ≤ 2 ^ 70 * (1 / 2 ^ 60) := by norm_num
    linarith
  have hquot0 : 0 < q / D := by positivity
  have hquot_lo2 : (1 : ℚ) / 2 ^ 1022 ≤ q / D := by
    have : 1000 / q * (1 / 2) ≤ 1000 / q * (1 - 1 / 2 ^ 24 - 1 / 2 ^ 40) :=
      mul_le_mul_of_nonneg_left (by norm_num) hT0.le
    have : (1 : ℚ) / 2 ^ 1022 ≤ 1 / 2 ^ 51 * (1 / 2) := by norm_num
    have : (1 : ℚ) / 2 ^ 51 * (1 / 2) ≤ 1000 / q * (1 / 2) :=
      mul_le_mul_of_nonneg_right hTlo (by norm_num)
    linarith
  have hquot_hi2 : q / D ≤ 2 ^ 71 := by
    have : 1000 / q * (1 + 1 / 2 ^ 24 + 1 / 2 ^ 40) ≤ 1000 / q * 2 :=
      mul_le_mul_of_nonneg_left (by norm_num) hT0.le
    have : (2 : ℚ) ^ 70 * 2 = 2 ^ 71 := by norm_num
    linarith
  obtain ⟨e1, e2⟩ := roundQ64_bounds hquot_lo2
  set Q := roundQ binary64 (q / D) with hQ
  have hQfin : FP.round binary64 (q / D) = fin Q :=
    (FP.round_fin_of_abs_le binary64 prec64
      (show |q / D| ≤ 2 ^ 71 by rw [abs_of_nonneg hquot0.le]; exact hquot_hi2)
      (by decide!)).1
  have hQlo : 1000 / q * ((1 - 1 / 2 ^ 24 - 1 / 2 ^ 40) * (1 - 1 / 2 ^ 53)) ≤ Q := by
    have : 1000 / q * (1 - 1 / 2 ^ 24 - 1 / 2 ^ 40) * (1 - 1 / 2 ^ 53) ≤
        q / D * (1 - 1 / 2 ^ 53) := mul_le_mul_of_nonneg_right hquot_lo (by norm_num)
    linarith
  have hQhi : Q ≤ 1000 / q * ((1 + 1 / 2 ^ 24 + 1 / 2 ^ 40) * (1 + 1 / 2 ^ 53)) := by
    have : q / D * (1 + 1 / 2 ^ 53) ≤
        1000 / q * (1 + 1 / 2 ^ 24 + 1 / 2 ^ 40) * (1 + 1 / 2 ^ 53) :=
      mul_le_mul_of_nonneg_right hquot_hi (by norm_num)
    linarith
  have hQ0 : 0 < Q := by
    have : 0 < 1000 / q * ((1 - 1 / 2 ^ 24 - 1 / 2 ^ 40) * (1 - 1 / 2 ^ 53)) :=
      mul_pos hT0 (by norm_num)
    linarith
  have hQlo2 : (1 : ℚ) / 2 ^ 126 ≤ Q := by
    have : 1000 / q * (1 / 2) ≤ 1000 / q * ((1 - 1 / 2 ^ 24 - 1 / 2 ^ 40) * (1 - 1 / 2 ^ 53)) :=
      mul_le_mul_of_nonneg_left (by norm_num) hT0.le
    have : (1 : ℚ) / 2 ^ 126 ≤ 1 / 2 ^ 51 * (1 / 2) := by norm_num
    have : (1 : ℚ) / 2 ^ 51 * (1 / 2) ≤ 1000 / q * (1 / 2) :=
      mul_le_mul_of_nonneg_right hTlo (by norm_num)
    linarith
  have hQhi2 : Q ≤ 2 ^ 71 := by
    have : 1000 / q * ((1 + 1 / 2 ^ 24 + 1 / 2 ^ 40) * (1 + 1 / 2 ^ 53)) ≤ 1000 / q * 2 :=
      mul_le_mul_of_nonneg_left (by norm_num) hT0.le
    have : (2 : ℚ) ^ 70 * 2 = 2 ^ 71 := by norm_num
    linarith
  obtain ⟨f1, f2⟩ := roundQ32_bounds hQlo2
  have hrfin : FP.round binary32 Q = fin (roundQ binary32 Q) :=
    (FP.round_fin_of_abs_le binary32 prec32
      (show |Q| ≤ 2 ^ 71 by rw [abs_of_nonneg hQ0.le]; exact hQhi2)
      (by decide!)).1
  clear_value Q D w
  refine ⟨roundQ binary32 Q, ?_, ?_⟩
  · have hden : derivativeDenominator (fin 0) (fin q) = fin D := by
      rw [derivativeDenominator_eq (rep_zero _) le_rfl, concQ_zero, add_zero,
        FP.round_of_rep hq]
      rw [roundQ64_offset]
      show FP.mul binary64 (FP.round binary32 (q * q)) _ = _
      rw [hwfin]
      exact hDfin
    show FP.cast binary32 (FP.div binary64 (fin q) (derivativeDenominator (fin 0) (fin q))) = _
    rw [hden]
    show FP.cast binary32 (if D = 0 then _ else FP.round binary64 (q / D)) = _
    rw [if_neg hD0.ne', hQfin]
    exact hrfin
  · rw [abs_le]
    constructor
    · have g1 : 1000 / q * ((1 - 1 / 2 ^ 24 - 1 / 2 ^ 40) * (1 - 1 / 2 ^ 53)) * (1 - 1 / 2 ^ 24) ≤
          Q * (1 - 1 / 2 ^ 24) := mul_le_mul_of_nonneg_right hQlo (by norm_num)
      have g2 : 1000 / q * (1 - 1 / 2 ^ 22) ≤
          1000 / q * (((1 - 1 / 2 ^ 24 - 1 / 2 ^ 40) * (1 - 1 / 2 ^ 53)) * (1 - 1 / 2 ^ 24)) :=
        mul_le_mul_of_nonneg_left (by norm_num) hT0.le
      linarith only [g1, g2, f1]
    · have g1 : Q * (1 + 1 / 2 ^ 24) ≤
          1000 / q * ((1 + 1 / 2 ^ 24 + 1 / 2 ^ 40) * (1 + 1 / 2 ^ 53)) * (1 + 1 / 2 ^ 24) :=
        mul_le_mul_of_nonneg_right hQhi (by norm_num)
      have g2 : 1000 / q * (((1 + 1 / 2 ^ 24 + 1 / 2 ^ 40) * (1 + 1 / 2 ^ 53)) * (1 + 1 / 2 ^ 24)) ≤
          1000 / q * (1 + 1 / 2 ^ 22) :=
        mul_le_mul_of_nonneg_left (by norm_num) hT0.le
      linarith only [g1, g2, f2]

/-- For finite `float` arguments `q > 0`, `cp ≥ 0` the value of `dSinkUnloading_dcp` is
`+∞` or a finite number that is not negative. -/
theorem dSinkUnloading_dcp_NN {cp q : ℚ} (hcp : Rep binary32 cp) (h0 : 0 ≤ cp)
    (hq0 : 0 < q) : FP.NN (dSinkUnloading_dcp (fin cp) (fin q)) := by
  obtain ⟨_, c0, c1, _⟩ := conc_fin hcp h0
  have hT0 : FP.NN (FP.round binary32 (q + concQ cp)) := FP.NN_round _ (by linarith)
  have hTT0 := FP.NN_mul_self binary32 hT0
  have hE0 : (0 : ℚ) < roundQ binary64 (concQ cp + 1152921504606847 / 2 ^ 60) :=
    lt_of_lt_of_le (by norm_num) (add_offset_fin c0 c1).2
  have hden0 := FP.NN_mul_fin binary64 hTT0 hE0.le (fun _ => hE0)
  have hdiv := FP.NN_div_fin binary64 hq0 hden0
  unfold dSinkUnloading_dcp
  rw [derivativeDenominator_eq hcp h0]
  revert hdiv
  generalize FP.div binary64 (fin q) _ = a
  intro ha
  cases a with
  | nan => exact ha.elim
  | pinf => trivial
  | ninf => exact ha.elim
  | fin x => exact FP.NN_round _ ha

/-- C15 (amended): in machine arithmetic, for finite `float` arguments `q > 0` and
`cp ≥ 0`, `dSinkUnloading_dcp(cp, q)` is at most `dSinkUnloading_dcp(0, q)` (in the
order of the extended values); and when `2⁻⁶⁰ ≤ q ≤ 2⁶⁰` the value at zero
concentration is finite and within relative error `2⁻²²` of `1000 / q`, and the value
at `cp` is a finite number between `0` and it. -/
theorem dSinkUnloading_dcp_bound_float (cp q : ℚ) (hcp : Rep binary32 cp)
    (hq : Rep binary32 q) (h0 : 0 ≤ cp) (hq0 : 0 < q) :
    FP.le (dSinkUnloading_dcp (fin cp) (fin q)) (dSinkUnloading_dcp (fin 0) (fin q)) ∧
      (1 / 2 ^ 60 ≤ q → q ≤ 2 ^ 60 →
        ∃ r₀ r : ℚ, dSinkUnloading_dcp (fin 0) (fin q) = fin r₀ ∧
          |r₀ - 1000 / q| ≤ 1 / 2 ^ 22 * (1000 / q) ∧
          dSinkUnloading_dcp (fin cp) (fin q) = fin r ∧ 0 ≤ r ∧ r ≤ r₀) := by
  have hle := dSinkUnloading_dcp_le_zero hcp hq h0 hq0
  have hnn := dSinkUnloading_dcp_NN hcp h0 hq0
  refine ⟨hle, fun hlo hhi => ?_⟩
  obtain ⟨r₀, e₀, hr₀⟩ := dSinkUnloading_dcp_zero_near hq hlo hhi
  rw [e₀] at hle
  revert hle hnn
  generalize dSinkUnloading_dcp (fin cp) (fin q) = a
  intro hnn hle
  cases a with
  | nan => exact hnn.elim
  | pinf => exact hle.elim
  | ninf => exact hnn.elim
  | fin r => exact ⟨r₀, r, e₀, hr₀, rfl, hnn, hle⟩

theorem dSinkUnloading_dcp_bound_float_witness :
    FP.le (dSinkUnloading_dcp (fin 2) (fin 1)) (dSinkUnloading_dcp (fin 0) (fin 1)) ∧
      ((1 : ℚ) / 2 ^ 60 ≤ 1 → (1 : ℚ) ≤ 2 ^ 60 →
        ∃ r₀ r : ℚ, dSinkUnloading_dcp (fin 0) (fin 1) = fin r₀ ∧
          |r₀ - 1000 / 1| ≤ 1 / 2 ^ 22 * (1000 / 1) ∧
          dSinkUnloading_dcp (fin 2) (fin 1) = fin r ∧ 0 ≤ r ∧ r ≤ r₀) :=
  dSinkUnloading_dcp_bound_float 2 1 (by decide!) (by decide!) (by norm_num) (by norm_num)

/-- C15 (as stated) fails in machine arithmetic: `dSinkUnloading_dcp(0, 3)` is
`10922667 / 32768`, which is not `1000 / 3` and exceeds it, and
`dSinkUnloading_dcp(0, 2⁻⁸⁰)` is `+∞`. -/
theorem dSinkUnloading_dcp_zero_ne :
    dSinkUnloading_dcp (fin 0) (fin 3) = fin (10922667 / 32768) ∧
      (1000 : ℚ) / 3 < 10922667 / 32768 ∧
      dSinkUnloading_dcp (fin 0) (fin (1 / 2 ^ 80)) = pinf := by
  refine ⟨by decide!, by norm_num, by decide!⟩

/-! ## Rounding error of the quadratics of the rheology functions -/

theorem abs_le_one_add_sq (x : ℚ) : |x| ≤ 1 + x * x :=
  abs_le.mpr ⟨by nlinarith [sq_nonneg (x + 1)], by nlinarith [sq_nonneg (x - 1)]⟩

/-- The expression `1.0 + a*x + b*x*x` with `float` products and `double` sums, before
the last sum is rounded, differs from the exact quadratic by at most `(1 + x²) / 2¹⁹`. -/
theorem quad_error (a b x : ℚ) (ha : |a| ≤ 4) (hb : |b| ≤ 4) :
    |roundQ binary64 (1 + roundQ binary32 (a * x)) +
        roundQ binary32 (roundQ binary32 (b * x) * x) - (1 + a * x + b * x * x)| ≤
      (1 + x * x) / 2 ^ 19 := by
  have hxu := abs_le_one_add_sq x
  have hu1 : (1 : ℚ) ≤ 1 + x * x := by nlinarith [sq_nonneg x]
  have hx0 := abs_nonneg x
  have hax : |a * x| ≤ 4 * (1 + x * x) := by
    rw [abs_mul]
    have := mul_le_mul_of_nonneg_right ha hx0
    linarith only [this, hxu]
  have hbx : |b * x| ≤ 4 * |x| := by
    rw [abs_mul]
    exact mul_le_mul_of_nonneg_right hb hx0
  have hxx : |x| * |x| = x * x := abs_mul_abs_self x
  have hbxx : |b * x * x| ≤ 4 * (1 + x * x) := by
    rw [abs_mul]
    have := mul_le_mul_of_nonneg_right hbx hx0
    linarith only [this, hxx]
  have h1 := abs_roundQ32_sub_le (a * x)
  have h3 := abs_roundQ32_sub_le (b * x)
  generalize roundQ binary32 (a * x) = p at h1 ⊢
  generalize roundQ binary32 (b * x) = m₁ at h3 ⊢
  have h2 := abs_roundQ64_sub_le (1 + p)
  have h4 := abs_roundQ32_sub_le (m₁ * x)
  generalize roundQ binary64 (1 + p) = s at h2 ⊢
  generalize roundQ binary32 (m₁ * x) = m at h4 ⊢
  have hxxu : x * x ≤ 1 + x * x := by linarith only []
  generalize 1 + x * x = u at *
  -- first product
  have e1 : |p - a * x| ≤ 5 / 2 ^ 24 * u := by
    linarith only [h1, hax, hu1]
  have e1' := abs_le.mp e1
  have hax' := abs_le.mp hax
  have hp1 : |1 + p| ≤ 6 * u := by
    rw [abs_le]
    constructor
    · linarith only [e1'.1, hax'.1, hu1]
    · linarith only [e1'.2, hax'.2, hu1]
  have e2 : |s - (1 + p)| ≤ 7 / 2 ^ 53 * u := by
    linarith only [h2, hp1, hu1]
  -- second product
  have e3 : |m₁ * x - b * x * x| ≤ 5 / 2 ^ 24 * u := by
    have : m₁ * x - b * x * x = (m₁ - b * x) * x := by ring
    rw [this, abs_mul]
    have h3' : |m₁ - b * x| ≤ 4 * |x| / 2 ^ 24 + 1 / 2 ^ 150 := by
      have : |b * x| / 2 ^ 24 ≤ 4 * |x| / 2 ^ 24 := by
        apply div_le_div_of_nonneg_right hbx (by positivity)
      linarith only [h3, this]
    have := mul_le_mul_of_nonneg_right h3' hx0
    have e : (4 * |x| / 2 ^ 24 + 1 / 2 ^ 150) * |x| =
        4 / 2 ^ 24 * (|x| * |x|) + 1 / 2 ^ 150 * |x| := by ring
    rw [e, hxx] at this
    linarith only [this, hxxu, hxu, hu1]
  have e3' := abs_le.mp e3
  have hbxx' := abs_le.mp hbxx
  have hm1x : |m₁ * x| ≤ 5 * u := by
    rw [abs_le]
    constructor
    · linarith only [e3'.1, hbxx'.1, hu1]
    · linarith only [e3'.2, hbxx'.2, hu1]
  have e4 : |m - m₁ * x| ≤ 6 / 2 ^ 24 * u := by
    linarith only [h4, hm1x, hu1]
  have e2' := abs_le.mp e2
  have e4' := abs_le.mp e4
  rw [abs_le]
  constructor
  · linarith only [e1'.1, e2'.1, e3'.1, e4'.1, hu1]
  · linarith only [e1'.2, e2'.2, e3'.2, e4'.2, hu1]

/-! ## The constants and the exact quadratics of `PhloemResistanceRatio` -/

theorem lit32_k1 : lit32 0.19961 = fin (837225 / 2 ^ 22) := by decide!

theorem lit32_k2 : lit32 1.00954 = fin (8468635 / 2 ^ 23) := by decide!

theorem lit32_k3 : FP.cast binary32 (FP.neg (lit64 2.2249)) = fin (-9331907 / 2 ^ 22) := by
  decide!

theorem lit32_k4 : lit32 1.2776 = fin (5358643 / 2 ^ 22) := by decide!

/-- The exact numerator with the `float` constants lies between `3/4` and `2` times
`1 + x²`. -/
theorem numerator_poly_bounds (x : ℚ) :
    3 / 4 * (1 + x * x) ≤ 1 + 837225 / 2 ^ 22 * x + 8468635 / 2 ^ 23 * x * x ∧
      1 + 837225 / 2 ^ 22 * x + 8468635 / 2 ^ 23 * x * x ≤ 2 * (1 + x * x) := by
  constructor
  · nlinarith [sq_nonneg (x + 1 / 2)]
  · nlinarith [sq_nonneg (x - 1 / 8)]

/-- The exact denominator with the `float` constants lies between `1/59` and `3` times
`1 + x²`. -/
theorem denominator_poly_bounds (x : ℚ) :
    1 / 59 * (1 + x * x) ≤ 1 + -9331907 / 2 ^ 22 * x + 5358643 / 2 ^ 22 * x * x ∧
      1 + -9331907 / 2 ^ 22 * x + 5358643 / 2 ^ 22 * x * x ≤ 3 * (1 + x * x) := by
  constructor
  · nlinarith [sq_nonneg (x - 883 / 1000)]
  · nlinarith [sq_nonneg (x + 1 / 2)]

namespace FP

/-! ## Finite results come from finite operands -/

theorem round_fin_inv {F : Format} {x r : ℚ} (h : round F x = fin r) : r = roundQ F x := by
  unfold round at h
  split_ifs at h
  injection h with h
  exact h.symm

theorem add_fin_inv {F : Format} {a b : FP} {r : ℚ} (h : add F a b = fin r) :
    ∃ x y : ℚ, a = fin x ∧ b = fin y ∧ r = roundQ F (x + y) := by
  cases a <;> cases b <;>
    first
    | exact ⟨_, _, rfl, rfl, round_fin_inv h⟩
    | exact FP.noConfusion h

theorem mul_fin_inv {F : Format} {a b : FP} {r : ℚ} (h : mul F a b = fin r) :
    ∃ x y : ℚ, a = fin x ∧ b = fin y ∧ r = roundQ F (x * y) := by
  cases a <;> cases b <;>
    first
    | exact ⟨_, _, rfl, rfl, round_fin_inv h⟩
    | exact FP.noConfusion h
    | (exfalso
       simp only [mul] at h
       split_ifs at h)

end FP

/-! ## The phloem resistance ratio in machine arithmetic -/

/-- The quadratic `1.0 + a*cab + b*cab*cab` with `float` products and `double` sums:
a finite result comes from a finite `cab` and is the rounded sum of the rounded terms. -/
theorem quad_fin_inv {a b d : ℚ} {cab : FP}
    (h : FP.add binary64 (FP.add binary64 (lit64 1.0) (FP.mul binary32 (fin a) cab))
      (FP.mul binary32 (FP.mul binary32 (fin b) cab) cab) = fin d) :
    ∃ x : ℚ, cab = fin x ∧
      d = roundQ binary64 (roundQ binary64 (1 + roundQ binary32 (a * x)) +
        roundQ binary32 (roundQ binary32 (b * x) * x)) := by
  obtain ⟨s, m, hs, hm, rfl⟩ := FP.add_fin_inv h
  obtain ⟨o, p, ho, hp, rfl⟩ := FP.add_fin_inv hs
  rw [lit64_one] at ho
  injection ho with ho
  subst ho
  obtain ⟨a', x, ha, hx, rfl⟩ := FP.mul_fin_inv hp
  injection ha with ha
  subst ha hx
  obtain ⟨m₁, x', hm₁, hx', rfl⟩ := FP.mul_fin_inv hm
  injection hx' with hx'
  subst hx'
  obtain ⟨b', x'', hb, hx'', rfl⟩ := FP.mul_fin_inv hm₁
  injection hb with hb
  injection hx'' with hx''
  subst hb hx''
  exact ⟨_, rfl, rfl⟩

theorem resistanceNumerator_eq (cab : FP) :
    resistanceNumerator cab =
      FP.add binary64
        (FP.add binary64 (lit64 1.0) (FP.mul binary32 (fin (837225 / 2 ^ 22)) cab))
        (FP.mul binary32 (FP.mul binary32 (fin (8468635 / 2 ^ 23)) cab) cab) := by
  unfold resistanceNumerator
  simp only [lit32_k1, lit32_k2]

theorem resistanceDenominator_eq (cab : FP) :
    resistanceDenominator cab =
      FP.add binary64
        (FP.add binary64 (lit64 1.0) (FP.mul binary32 (fin (-9331907 / 2 ^ 22)) cab))
        (FP.mul binary32 (FP.mul binary32 (fin (5358643 / 2 ^ 22)) cab) cab) := by
  unfold resistanceDenominator
  simp only [lit32_k3, lit32_k4]

/-- The sum of the rounded terms of the denominator is at least `(1 + x²) / 64`. -/
theorem denominator_sum_ge (x : ℚ) :
    (1 + x * x) / 64 ≤ roundQ binary64 (1 + roundQ binary32 (-9331907 / 2 ^ 22 * x)) +
      roundQ binary32 (roundQ binary32 (5358643 / 2 ^ 22 * x) * x) := by
  have h := abs_le.mp (quad_error (-9331907 / 2 ^ 22) (5358643 / 2 ^ 22) x
    (by rw [abs_le]; constructor <;> norm_num) (by rw [abs_le]; constructor <;> norm_num))
  have hp := (denominator_poly_bounds x).1
  have hu : (0 : ℚ) ≤ 1 + x * x := by nlinarith [sq_nonneg x]
  linarith only [h.1, hp, hu]

/-- A finite value of the computed denominator is at least `1/64`. -/
theorem resistanceDenominator_fin_ge {cab : FP} {d : ℚ}
    (h : resistanceDenominator cab = fin d) : 1 / 64 ≤ d := by
  rw [resistanceDenominator_eq] at h
  obtain ⟨x, -, rfl⟩ := quad_fin_inv h
  have hs := denominator_sum_ge x
  have hu : (1 : ℚ) ≤ 1 + x * x := by nlinarith [sq_nonneg x]
  have h64 : roundQ binary64 (1 / 64) = 1 / 64 := by decide!
  rw [← h64]
  exact roundQ_mono _ prec64 (by linarith only [hs, hu])

/-- C7 (amended): there is no `cab` at which the denominator
`1 + k3*cab + k4*cab^2` of `PhloemResistanceRatio` (`k3 = -2.2249`, `k4 = 1.2776`) reaches
zero: the polynomial is different from zero at every real `cab`, and the denominator the
code computes (`float` products, `double` sums) is different from zero at every `float`
`cab`, NaN and the infinities included. -/
theorem resistanceDenominator_ne_zero :
    (∀ cab : ℝ, Lpy.resistanceDenominator cab ≠ 0) ∧
      ∀ cab : FP, resistanceDenominator cab ≠ fin 0 := by
  constructor
  · intro cab h
    have := Lpy.resistanceDenominator_ge cab
    rw [h] at this
    norm_num at this
  · intro cab h
    have := resistanceDenominator_fin_ge h
    norm_num at this

/-- For `|x| ≤ 2⁶³` nothing overflows in `1.0 + a*x + b*x*x` (`|a| ≤ 4`, `|b| ≤ 2`). -/
theorem quad_fin {a b x : ℚ} (ha : |a| ≤ 4) (hb : |b| ≤ 2) (hx : |x| ≤ 2 ^ 63) :
    FP.add binary64 (FP.add binary64 (lit64 1.0) (FP.mul binary32 (fin a) (fin x)))
        (FP.mul binary32 (FP.mul binary32 (fin b) (fin x)) (fin x)) =
      fin (roundQ binary64 (roundQ binary64 (1 + roundQ binary32 (a * x)) +
        roundQ binary32 (roundQ binary32 (b * x) * x))) := by
  have hx0 := abs_nonneg x
  have hax : |a * x| ≤ 2 ^ 65 := by
    rw [abs_mul]
    have := mul_le_mul ha hx hx0 (by norm_num)
    linarith only [this]
  have hbx : |b * x| ≤ 2 ^ 64 := by
    rw [abs_mul]
    have := mul_le_mul hb hx hx0 (by norm_num)
    linarith only [this]
  obtain ⟨ep, hp⟩ := FP.round_fin_of_abs_le binary32 prec32 hax (by decide!)
  rw [show roundQ binary32 (2 ^ 65) = 2 ^ 65 by decide!] at hp
  obtain ⟨em₁, hm₁⟩ := FP.round_fin_of_abs_le binary32 prec32 hbx (by decide!)
  rw [show roundQ binary32 (2 ^ 64) = 2 ^ 64 by decide!] at hm₁
  generalize roundQ binary32 (a * x) = p at ep hp ⊢
  generalize roundQ binary32 (b * x) = m₁ at em₁ hm₁ ⊢
  have h1p : |1 + p| ≤ 2 ^ 66 := by
    have := abs_add 1 p
    rw [abs_one] at this
    linarith only [this, hp]
  obtain ⟨es, hs⟩ := FP.round_fin_of_abs_le binary64 prec64 h1p (by decide!)
  rw [show roundQ binary64 (2 ^ 66) = 2 ^ 66 by decide!] at hs
  have hm₁x : |m₁ * x| ≤ 2 ^ 127 := by
    rw [abs_mul]
    have := mul_le_mul hm₁ hx hx0 (by norm_num)
    linarith only [this]
  obtain ⟨em, hm⟩ := FP.round_fin_of_abs_le binary32 prec32 hm₁x (by decide!)
  rw [show roundQ binary32 (2 ^ 127) = 2 ^ 127 by decide!] at hm
  generalize roundQ binary64 (1 + p) = s at es hs ⊢
  generalize roundQ binary32 (m₁ * x) = m at em hm ⊢
  have hsm : |s + m| ≤ 2 ^ 128 := by
    have := abs_add s m
    linarith only [this, hs, hm]
  obtain ⟨e, -⟩ := FP.round_fin_of_abs_le binary64 prec64 hsm (by decide!)
  rw [lit64_one]
  show FP.add binary64 (FP.add binary64 (fin 1) (FP.round binary32 (a * x)))
    (FP.mul binary32 (FP.round binary32 (b * x)) (fin x)) = _
  rw [ep, em₁]
  show FP.add binary64 (FP.round binary64 (1 + p)) (FP.round binary32 (m₁ * x)) = _
  rw [es, em]
  exact e

/-- The sum of the rounded terms of the numerator lies between `(1 + x²) / 2` and
`3 (1 + x²)`, and so does its rounding to `double`. -/
theorem numerator_value_bounds (x : ℚ) :
    (1 + x * x) / 2 ≤ roundQ binary64 (roundQ binary64 (1 + roundQ binary32 (837225 / 2 ^ 22 * x)) +
        roundQ binary32 (roundQ binary32 (8468635 / 2 ^ 23 * x) * x)) ∧
      roundQ binary64 (roundQ binary64 (1 + roundQ binary32 (837225 / 2 ^ 22 * x)) +
        roundQ binary32 (roundQ binary32 (8468635 / 2 ^ 23 * x) * x)) ≤ 3 * (1 + x * x) := by
  have h := abs_le.mp (quad_error (837225 / 2 ^ 22) (8468635 / 2 ^ 23) x
    (by rw [abs_le]; constructor <;> norm_num) (by rw [abs_le]; constructor <;> norm_num))
  have hp := numerator_poly_bounds x
  have hu : (1 : ℚ) ≤ 1 + x * x := by nlinarith [sq_nonneg x]
  generalize roundQ binary64 (1 + roundQ binary32 (837225 / 2 ^ 22 * x)) +
    roundQ binary32 (roundQ binary32 (8468635 / 2 ^ 23 * x) * x) = S at h ⊢
  generalize 1 + 837225 / 2 ^ 22 * x + 8468635 / 2 ^ 23 * x * x = P at h hp
  generalize 1 + x * x = u at h hp hu ⊢
  have hS : (1 : ℚ) / 2 ^ 1022 ≤ S := by
    have : (1 : ℚ) / 2 ^ 1022 ≤ 1 / 2 := by norm_num
    linarith only [h.1, hp.1, hu, this]
  obtain ⟨b1, b2⟩ := roundQ64_bounds hS
  constructor
  · linarith only [b1, h.1, hp.1, hu]
  · linarith only [b2, h.2, hp.2, hu]

/-- The sum of the rounded terms of the denominator lies between `(1 + x²) / 64` and
`4 (1 + x²)` after its rounding to `double`. -/
theorem denominator_value_bounds (x : ℚ) :
    (1 + x * x) / 64 ≤
        roundQ binary64 (roundQ binary64 (1 + roundQ binary32 (-9331907 / 2 ^ 22 * x)) +
          roundQ binary32 (roundQ binary32 (5358643 / 2 ^ 22 * x) * x)) ∧
      roundQ binary64 (roundQ binary64 (1 + roundQ binary32 (-9331907 / 2 ^ 22 * x)) +
        roundQ binary32 (roundQ binary32 (5358643 / 2 ^ 22 * x) * x)) ≤ 4 * (1 + x * x) := by
  have h := abs_le.mp (quad_error (-9331907 / 2 ^ 22) (5358643 / 2 ^ 22) x
    (by rw [abs_le]; constructor <;> norm_num) (by rw [abs_le]; constructor <;> norm_num))
  have hp := denominator_poly_bounds x
  have hu : (1 : ℚ) ≤ 1 + x * x := by nlinarith [sq_nonneg x]
  generalize roundQ binary64 (1 + roundQ binary32 (-9331907 / 2 ^ 22 * x)) +
    roundQ binary32 (roundQ binary32 (5358643 / 2 ^ 22 * x) * x) = S at h ⊢
  generalize 1 + -9331907 / 2 ^ 22 * x + 5358643 / 2 ^ 22 * x * x = P at h hp
  generalize 1 + x * x = u at h hp hu ⊢
  have hS : (1 : ℚ) / 2 ^ 1022 ≤ S := by
    have : (1 : ℚ) / 2 ^ 1022 ≤ 1 / 64 := by norm_num
    linarith only [h.1, hp.1, hu, this]
  obtain ⟨b1, b2⟩ := roundQ64_bounds hS
  constructor
  · linarith only [b1, h.1, hp.1, hu]
  · linarith only [b2, h.2, hp.2, hu]

/-- C17 (amended): in machine arithmetic, for every `float` `cab` with `|cab| ≤ 2⁶³` the
computed numerator and denominator of `PhloemResistanceRatio` are finite and strictly
positive, and `PhloemResistanceRatio(cab)` is a finite number between `1/8` and `192`,
hence strictly positive. -/
theorem PhloemResistanceRatio_pos_float (cab : ℚ) (_hcab : Rep binary32 cab)
    (hb : |cab| ≤ 2 ^ 63) :
    ∃ n d r : ℚ, resistanceNumerator (fin cab) = fin n ∧ 0 < n ∧
      resistanceDenominator (fin cab) = fin d ∧ 0 < d ∧
      PhloemResistanceRatio (fin cab) = fin r ∧ 1 / 8 ≤ r ∧ r ≤ 192 := by
  have hn := quad_fin (a := 837225 / 2 ^ 22) (b := 8468635 / 2 ^ 23)
    (by rw [abs_le]; constructor <;> norm_num) (by rw [abs_le]; constructor <;> norm_num) hb
  have hd := quad_fin (a := -9331907 / 2 ^ 22) (b := 5358643 / 2 ^ 22)
    (by rw [abs_le]; constructor <;> norm_num) (by rw [abs_le]; constructor <;> norm_num) hb
  rw [← resistanceNumerator_eq] at hn
  rw [← resistanceDenominator_eq] at hd
  obtain ⟨n1, n2⟩ := numerator_value_bounds cab
  obtain ⟨d1, d2⟩ := denominator_value_bounds cab
  generalize roundQ binary64 (roundQ binary64 (1 + roundQ binary32 (837225 / 2 ^ 22 * cab)) +
    roundQ binary32 (roundQ binary32 (8468635 / 2 ^ 23 * cab) * cab)) = n at hn n1 n2
  generalize roundQ binary64 (roundQ binary64 (1 + roundQ binary32 (-9331907 / 2 ^ 22 * cab)) +
    roundQ binary32 (roundQ binary32 (5358643 / 2 ^ 22 * cab) * cab)) = d at hd d1 d2
  have hu : (1 : ℚ) ≤ 1 + cab * cab := by nlinarith [sq_nonneg cab]
  generalize 1 + cab * cab = u at n1 n2 d1 d2 hu
  have hn0 : 0 < n := by linarith only [n1, hu]
  have hd0 : 0 < d := by linarith only [d1, hu]
  have hlo : 1 / 8 ≤ n / d := by
    rw [le_div_iff₀ hd0]
    linarith only [n1, d2]
  have hhi : n / d ≤ 192 := by
    rw [div_le_iff₀ hd0]
    linarith only [n2, d1]
  have habs : |n / d| ≤ 192 := by
    rw [abs_of_nonneg (by positivity)]
    exact hhi
  obtain ⟨eQ, -⟩ := FP.round_fin_of_abs_le binary64 prec64 habs (by decide!)
  have hQlo : 1 / 8 ≤ roundQ binary64 (n / d) := by
    rw [← show roundQ binary64 (1 / 8) = 1 / 8 by decide!]
    exact roundQ_mono _ prec64 hlo
  have hQhi : roundQ binary64 (n / d) ≤ 192 := by
    rw [← show roundQ binary64 192 = 192 by decide!]
    exact roundQ_mono _ prec64 hhi
  generalize roundQ binary64 (n / d) = Q at eQ hQlo hQhi
  have hQabs : |Q| ≤ 192 := by
    rw [abs_of_nonneg (by linarith only [hQlo])]
    exact hQhi
  obtain ⟨er, -⟩ := FP.round_fin_of_abs_le binary32 prec32 hQabs (by decide!)
  have hrlo : 1 / 8 ≤ roundQ binary32 Q := by
    rw [← show roundQ binary32 (1 / 8) = 1 / 8 by decide!]
    exact roundQ_mono _ prec32 hQlo
  have hrhi : roundQ binary32 Q ≤ 192 := by
    rw [← show roundQ binary32 192 = 192 by decide!]
    exact roundQ_mono _ prec32 hQhi
  refine ⟨n, d, roundQ binary32 Q, hn, hn0, hd, hd0, ?_, hrlo, hrhi⟩
  unfold PhloemResistanceRatio
  rw [hn, hd]
  show FP.cast binary32 (if d = 0 then _ else FP.round binary64 (n / d)) = _
  rw [if_neg hd0.ne', eQ]
  exact er

theorem PhloemResistanceRatio_pos_float_witness :
    ∃ n d r : ℚ, resistanceNumerator (fin (1 / 2)) = fin n ∧ 0 < n ∧
      resistanceDenominator (fin (1 / 2)) = fin d ∧ 0 < d ∧
      PhloemResistanceRatio (fin (1 / 2)) = fin r ∧ 1 / 8 ≤ r ∧ r ≤ 192 :=
  PhloemResistanceRatio_pos_float (1 / 2) (by decide!)
    (by rw [abs_le]; constructor <;> norm_num)

/-- C17 (as stated) fails in machine arithmetic: at the `float` nearest to `1.7e19` the
denominator overflows to `+∞` and `PhloemResistanceRatio` returns `0`; at `cab = 2⁶⁴`
numerator and denominator are both `+∞` and it returns NaN. -/
theorem PhloemResistanceRatio_not_pos :
    Rep binary32 17000000076812124160 ∧ Rep binary32 (2 ^ 64) ∧
      PhloemResistanceRatio (fin 17000000076812124160) = fin 0 ∧
      PhloemResistanceRatio (fin (2 ^ 64)) = nan := by
  refine ⟨by decide!, by decide!, by decide!, by decide!⟩

/-! ## Dependence of the flux on the concentration -/

/-- The `float` sum `q + c` of two non-negative `float`s, `q > 0`, is within relative
error `2⁻²⁴` of the exact sum (below the normal range it is exact). -/
theorem roundQ32_add_bounds {c q : ℚ} (hc : Rep binary32 c) (hq : Rep binary32 q)
    (hc0 : 0 ≤ c) (hq0 : 0 < q) :
    (q + c) * (1 - 1 / 2 ^ 24) ≤ roundQ binary32 (q + c) ∧
      roundQ binary32 (q + c) ≤ (q + c) * (1 + 1 / 2 ^ 24) := by
  have hs0 : 0 < q + c := by linarith
  rcases le_or_lt (1 / 2 ^ 126) (q + c) with h | h
  · exact roundQ32_bounds h
  · obtain ⟨nc, hnc⟩ := hc.multiple
    obtain ⟨nq, hnq⟩ := hq.multiple
    have e : roundQ binary32 (q + c) = q + c := by
      apply roundQ_of_multiple_small binary32 (q + c) (nq + nc)
      · rw [hnc, hnq]
        push_cast
        ring
      · rw [abs_of_pos hs0, show (2 : ℚ) ^ (binary32.emin + binary32.prec - 1) = 1 / 2 ^ 126 by
          decide!]
        exact h
    rw [e]
    constructor
    · have : (q + c) * (1 - 1 / 2 ^ 24) ≤ (q + c) * 1 :=
        mul_le_mul_of_nonneg_left (by norm_num) hs0.le
      linarith only [this]
    · have : (q + c) * 1 ≤ (q + c) * (1 + 1 / 2 ^ 24) :=
        mul_le_mul_of_nonneg_left (by norm_num) hs0.le
      linarith only [this]

/-- The computed `c / (q + c)` is within `2⁻²²` of the exact quotient. -/
theorem abs_sinkQ_sub_le {c q : ℚ} (hc : Rep binary32 c) (hq : Rep binary32 q)
    (hc0 : 0 ≤ c) (hc1 : c ≤ 2 ^ 65) (hq0 : 0 < q) :
    |sinkQ c q - c / (q + c)| ≤ 1 / 2 ^ 22 := by
  have hs0 : 0 < q + c := by linarith
  obtain ⟨t1, t2⟩ := roundQ32_add_bounds hc hq hc0 hq0
  have hf0 : 0 ≤ c / (q + c) := div_nonneg hc0 hs0.le
  have hf1 : c / (q + c) ≤ 1 := by
    rw [div_le_one hs0]
    linarith
  have hfs : c / (q + c) * (q + c) = c := div_mul_cancel₀ c hs0.ne'
  unfold sinkQ
  generalize roundQ binary32 (q + c) = t at t1 t2 ⊢
  have ht0 : 0 < t := by
    have : 0 < (q + c) * (1 - 1 / 2 ^ 24) := mul_pos hs0 (by norm_num)
    linarith only [this, t1]
  split_ifs with hov
  · rw [show (2 : ℚ) ^ binary32.emax = 2 ^ 128 by decide!] at hov
    rw [zero_sub, abs_neg, abs_of_nonneg hf0, div_le_iff₀ hs0]
    linarith only [hov, t2, hc1]
  · have hgt : c / t * t = c := div_mul_cancel₀ c ht0.ne'
    have hg0 : 0 ≤ c / t := div_nonneg hc0 ht0.le
    have h := abs_roundQ32_sub_le (c / t)
    rw [abs_of_nonneg hg0] at h
    generalize c / t = g at hgt hg0 h ⊢
    generalize c / (q + c) = f at hf0 hf1 hfs ⊢
    have a1 : g * (1 - 1 / 2 ^ 24) ≤ f := by
      have h1 : g * ((q + c) * (1 - 1 / 2 ^ 24)) ≤ g * t := mul_le_mul_of_nonneg_left t1 hg0
      have h2 : g * (1 - 1 / 2 ^ 24) * (q + c) ≤ f * (q + c) := by
        linarith only [h1, hgt, hfs]
      exact le_of_mul_le_mul_right h2 hs0
    have a2 : f ≤ g * (1 + 1 / 2 ^ 24) := by
      have h1 : g * t ≤ g * ((q + c) * (1 + 1 / 2 ^ 24)) := mul_le_mul_of_nonneg_left t2 hg0
      have h2 : f * (q + c) ≤ g * (1 + 1 / 2 ^ 24) * (q + c) := by
        linarith only [h1, hgt, hfs]
      exact le_of_mul_le_mul_right h2 hs0
    have h' := abs_le.mp h
    rw [abs_le]
    constructor
    · linarith only [a1, a2, hf1, h'.1]
    · linarith only [a1, a2, hf1, h'.2]

/-- C3 (amended): in machine arithmetic, for finite `float` arguments `q > 0` and
`0 ≤ cp₁ < cp₂`, the computed concentration does not decrease from `cp₁` to `cp₂`, all
four flux values are finite, and the fluxes are non-decreasing up to rounding:
`SinkUnloading(cp₁, q) ≤ SinkUnloading(cp₂, q) + 2⁻²¹` and
`SourceLoading(cp₁, q) ≤ SourceLoading(cp₂, q) + 2⁻²⁰`. -/
theorem flux_mono_cp_float (cp₁ cp₂ q : ℚ) (h₁ : Rep binary32 cp₁) (h₂ : Rep binary32 cp₂)
    (hq : Rep binary32 q) (h0 : 0 ≤ cp₁) (h : cp₁ < cp₂) (hq0 : 0 < q) :
    FP.le (conc (fin cp₁)) (conc (fin cp₂)) ∧
      ∃ s₁ s₂ l₁ l₂ : ℚ,
        SinkUnloading (fin cp₁) (fin q) = fin s₁ ∧ SinkUnloading (fin cp₂) (fin q) = fin s₂ ∧
        s₁ ≤ s₂ + 1 / 2 ^ 21 ∧
        SourceLoading (fin cp₁) (fin q) = fin l₁ ∧ SourceLoading (fin cp₂) (fin q) = fin l₂ ∧
        l₁ ≤ l₂ + 1 / 2 ^ 20 := by
  have h0' : 0 ≤ cp₂ := by linarith
  obtain ⟨e₁, c₁0, c₁1, c₁rep⟩ := conc_fin h₁ h0
  obtain ⟨e₂, c₂0, c₂1, c₂rep⟩ := conc_fin h₂ h0'
  have hc := concQ_mono h0 h.le
  obtain ⟨es₁, s₁0, s₁1⟩ := SinkUnloading_fin h₁ hq h0 hq0
  obtain ⟨es₂, s₂0, s₂1⟩ := SinkUnloading_fin h₂ hq h0' hq0
  obtain ⟨el₁, -, -⟩ := SourceLoading_fin h₁ hq h0 hq0
  obtain ⟨el₂, -, -⟩ := SourceLoading_fin h₂ hq h0' hq0
  have a₁ := abs_le.mp (abs_sinkQ_sub_le c₁rep hq c₁0 c₁1 hq0)
  have a₂ := abs_le.mp (abs_sinkQ_sub_le c₂rep hq c₂0 c₂1 hq0)
  have b₁ := abs_le.mp (abs_sourceQ_sub_le s₁0 s₁1)
  have b₂ := abs_le.mp (abs_sourceQ_sub_le s₂0 s₂1)
  have hf : concQ cp₁ / (q + concQ cp₁) ≤ concQ cp₂ / (q + concQ cp₂) := by
    rw [div_le_div_iff₀ (by linarith) (by linarith)]
    have := mul_le_mul_of_nonneg_right hc hq0.le
    linarith only [this]
  refine ⟨?_, _, _, _, _, es₁, es₂, ?_, el₁, el₂, ?_⟩
  · rw [e₁, e₂]
    exact hc
  · linarith only [a₁.2, a₂.1, hf]
  · linarith only [a₁.2, a₂.1, hf, b₁.2, b₂.1]

theorem flux_mono_cp_float_witness :
    FP.le (conc (fin 1)) (conc (fin 2)) ∧
      ∃ s₁ s₂ l₁ l₂ : ℚ,
        SinkUnloading (fin 1) (fin 1) = fin s₁ ∧ SinkUnloading (fin 2) (fin 1) = fin s₂ ∧
        s₁ ≤ s₂ + 1 / 2 ^ 21 ∧
        SourceLoading (fin 1) (fin 1) = fin l₁ ∧ SourceLoading (fin 2) (fin 1) = fin l₂ ∧
        l₁ ≤ l₂ + 1 / 2 ^ 20 :=
  flux_mono_cp_float 1 2 1 (by decide!) (by decide!) (by decide!) (by norm_num) (by norm_num)
    (by norm_num)

/-- C3 (as stated) fails in machine arithmetic: at `q = 1` the `float`s
`cp₁ = 1 + 2⁻²² < cp₂ = 1 + 5·2⁻²³` give `SinkUnloading` `9827867 / 2²⁴` and then the
smaller `9827866 / 2²⁴`, and `SourceLoading` `-6949349 / 2²⁴` and then the smaller
`-6949350 / 2²⁴`; and `cp = 2`, `cp = 2 + 2⁻²²` give the same `SinkUnloading`. -/
theorem flux_not_strictMono_float :
    Rep binary32 (4194305 / 4194304) ∧ Rep binary32 (8388613 / 8388608) ∧
      (4194305 / 4194304 : ℚ) < 8388613 / 8388608 ∧
      SinkUnloading (fin (4194305 / 4194304)) (fin 1) = fin (9827867 / 2 ^ 24) ∧
      SinkUnloading (fin (8388613 / 8388608)) (fin 1) = fin (9827866 / 2 ^ 24) ∧
      SourceLoading (fin (4194305 / 4194304)) (fin 1) = fin (-6949349 / 2 ^ 24) ∧
      SourceLoading (fin (8388613 / 8388608)) (fin 1) = fin (-6949350 / 2 ^ 24) ∧
      SinkUnloading (fin 2) (fin 1) = SinkUnloading (fin (2 + 1 / 2 ^ 22)) (fin 1) := by
  refine ⟨by decide!, by decide!, by norm_num, by decide!, by decide!, by decide!,
    by decide!, by decide!⟩

/-! ## Propagation of relative error bounds -/

/-- Product of two quantities known up to relative factors. -/
theorem near_mul {α : Type} [LinearOrderedField α] {a b x y l₁ h₁ l₂ h₂ : α} (ha : 0 ≤ a)
    (hb : 0 ≤ b) (hl₁ : 0 ≤ l₁) (hl₂ : 0 ≤ l₂) (hx : a * l₁ ≤ x ∧ x ≤ a * h₁)
    (hy : b * l₂ ≤ y ∧ y ≤ b * h₂) :
    a * b * (l₁ * l₂) ≤ x * y ∧ x * y ≤ a * b * (h₁ * h₂) := by
  have hx0 : 0 ≤ x := le_trans (mul_nonneg ha hl₁) hx.1
  have hy0 : 0 ≤ y := le_trans (mul_nonneg hb hl₂) hy.1
  constructor
  · calc a * b * (l₁ * l₂) = a * l₁ * (b * l₂) := by ring
      _ ≤ x * y := mul_le_mul hx.1 hy.1 (mul_nonneg hb hl₂) hx0
  · calc x * y ≤ a * h₁ * (b * h₂) := mul_le_mul hx.2 hy.2 hy0 (le_trans hx0 hx.2)
      _ = a * b * (h₁ * h₂) := by ring

/-- Quotient by a quantity known up to relative factors. -/
theorem near_div {α : Type} [LinearOrderedField α] {q b y l h : α} (hq : 0 ≤ q) (hb : 0 < b)
    (hl : 0 < l) (hy : b * l ≤ y ∧ y ≤ b * h) :
    q / b * (1 / h) ≤ q / y ∧ q / y ≤ q / b * (1 / l) := by
  have hbl : 0 < b * l := mul_pos hb hl
  have hy0 : 0 < y := lt_of_lt_of_le hbl hy.1
  have hbh : 0 < b * h := lt_of_lt_of_le hy0 hy.2
  constructor
  · calc q / b * (1 / h) = q / (b * h) := by
          rw [div_mul_div_comm, mul_one]
      _ ≤ q / y := div_le_div_of_nonneg_left hq hy0 hy.2
  · calc q / y ≤ q / (b * l) := div_le_div_of_nonneg_left hq hbl hy.1
      _ = q / b * (1 / l) := by
          rw [div_mul_div_comm, mul_one]

/-- Rounding to `float` of a quantity known up to relative factors, away from overflow
and underflow. -/
theorem round32_near {a x l h A₁ A₂ : ℚ} (hA₁ : A₁ ≤ a) (hA₂ : a ≤ A₂) (h0 : 0 ≤ A₁)
    (hl : 0 ≤ l) (hh : 0 ≤ h) (c₁ : 1 / 2 ^ 126 ≤ A₁ * l) (c₂ : A₂ * h ≤ 2 ^ 127)
    (hx : a * l ≤ x ∧ x ≤ a * h) :
    FP.round binary32 x = fin (roundQ binary32 x) ∧
      (a * (l * (1 - 1 / 2 ^ 24)) ≤ roundQ binary32 x ∧
        roundQ binary32 x ≤ a * (h * (1 + 1 / 2 ^ 24))) := by
  have ha : 0 ≤ a := le_trans h0 hA₁
  have hlo : 1 / 2 ^ 126 ≤ x :=
    le_trans c₁ (le_trans (mul_le_mul_of_nonneg_right hA₁ hl) hx.1)
  have hhi : x ≤ 2 ^ 127 :=
    le_trans hx.2 (le_trans (mul_le_mul_of_nonneg_right hA₂ hh) c₂)
  have hx0 : 0 ≤ x := le_trans (by positivity) hlo
  obtain ⟨b1, b2⟩ := roundQ32_bounds hlo
  refine ⟨(FP.round_fin_of_abs_le binary32 prec32
    (show |x| ≤ 2 ^ 127 by rw [abs_of_nonneg hx0]; exact hhi) (by decide!)).1, ?_, ?_⟩
  · calc a * (l * (1 - 1 / 2 ^ 24)) = a * l * (1 - 1 / 2 ^ 24) := by ring
      _ ≤ x * (1 - 1 / 2 ^ 24) := mul_le_mul_of_nonneg_right hx.1 (by norm_num)
      _ ≤ _ := b1
  · calc roundQ binary32 x ≤ x * (1 + 1 / 2 ^ 24) := b2
      _ ≤ a * h * (1 + 1 / 2 ^ 24) := mul_le_mul_of_nonneg_right hx.2 (by norm_num)
      _ = a * (h * (1 + 1 / 2 ^ 24)) := by ring

/-- Rounding to `double` of a quantity known up to relative factors, away from overflow
and underflow. -/
theorem round64_near {a x l h A₁ A₂ : ℚ} (hA₁ : A₁ ≤ a) (hA₂ : a ≤ A₂) (h0 : 0 ≤ A₁)
    (hl : 0 ≤ l) (hh : 0 ≤ h) (c₁ : 1 / 2 ^ 1022 ≤ A₁ * l) (c₂ : A₂ * h ≤ 2 ^ 1023)
    (hx : a * l ≤ x ∧ x ≤ a * h) :
    FP.round binary64 x = fin (roundQ binary64 x) ∧
      (a * (l * (1 - 1 / 2 ^ 53)) ≤ roundQ binary64 x ∧
        roundQ binary64 x ≤ a * (h * (1 + 1 / 2 ^ 53))) := by
  have ha : 0 ≤ a := le_trans h0 hA₁
  have hlo : 1 / 2 ^ 1022 ≤ x :=
    le_trans c₁ (le_trans (mul_le_mul_of_nonneg_right hA₁ hl) hx.1)
  have hhi : x ≤ 2 ^ 1023 :=
    le_trans hx.2 (le_trans (mul_le_mul_of_nonneg_right hA₂ hh) c₂)
  have hx0 : 0 ≤ x := le_trans (by positivity) hlo
  obtain ⟨b1, b2⟩ := roundQ64_bounds hlo
  refine ⟨(FP.round_fin_of_abs_le binary64 prec64
    (show |x| ≤ 2 ^ 1023 by rw [abs_of_nonneg hx0]; exact hhi) (by decide!)).1, ?_, ?_⟩
  · calc a * (l * (1 - 1 / 2 ^ 53)) = a * l * (1 - 1 / 2 ^ 53) := by ring
      _ ≤ x * (1 - 1 / 2 ^ 53) := mul_le_mul_of_nonneg_right hx.1 (by norm_num)
      _ ≤ _ := b1
  · calc roundQ binary64 x ≤ x * (1 + 1 / 2 ^ 53) := b2
      _ ≤ a * h * (1 + 1 / 2 ^ 53) := mul_le_mul_of_nonneg_right hx.2 (by norm_num)
      _ = a * (h * (1 + 1 / 2 ^ 53)) := by ring

/-! ## Rounding error of the derivative functions -/

set_option maxHeartbeats 1000000 in
/-- For `float` arguments with `2⁻³⁰ ≤ q ≤ 2³⁰` and a computed concentration `c` in
`[2⁻¹⁵, 2¹⁶]`, `dSinkUnloading_dcp` returns a finite value within relative error
`5 · 2⁻²⁴` of `q / ((q + c) * (q + c) * (c + 0.001))`, the constant `0.001` being the
`double` nearest to it. -/
theorem dSinkUnloading_dcp_chain {cp q : ℚ} (hcp : Rep binary32 cp) (h0 : 0 ≤ cp)
    (hc₁ : 1 / 2 ^ 15 ≤ concQ cp) (hc₂ : concQ cp ≤ 2 ^ 16) (hq₁ : 1 / 2 ^ 30 ≤ q)
    (hq₂ : q ≤ 2 ^ 30) :
    ∃ r : ℚ, dSinkUnloading_dcp (fin cp) (fin q) = fin r ∧
      q / ((q + concQ cp) * (q + concQ cp) * (concQ cp + 1152921504606847 / 2 ^ 60)) *
          (1 - 5 / 2 ^ 24) ≤ r ∧
      r ≤ q / ((q + concQ cp) * (q + concQ cp) * (concQ cp + 1152921504606847 / 2 ^ 60)) *
          (1 + 5 / 2 ^ 24) := by
  have hden := derivativeDenominator_eq (q := q) hcp h0
  generalize concQ cp = c at hc₁ hc₂ hden ⊢
  have hq0 : 0 < q := lt_of_lt_of_le (by positivity) hq₁
  -- the sum q + c
  have hA₁ : (1 : ℚ) / 2 ^ 15 ≤ q + c := by linarith only [hc₁, hq0]
  have hA₂ : q + c ≤ 2 ^ 31 := by linarith only [hc₂, hq₂]
  have hA0 : 0 ≤ q + c := le_trans (by positivity) hA₁
  obtain ⟨et, ht⟩ := round32_near (l := 1) (h := 1) hA₁ hA₂ (by positivity) (by norm_num)
    (by norm_num) (by norm_num) (by norm_num)
    (show (q + c) * 1 ≤ q + c ∧ q + c ≤ (q + c) * 1 by rw [mul_one]; exact ⟨le_rfl, le_rfl⟩)
  generalize roundQ binary32 (q + c) = t at et ht
  -- its square
  have hAA₁ : (1 : ℚ) / 2 ^ 30 ≤ (q + c) * (q + c) := by
    have := mul_le_mul hA₁ hA₁ (by positivity) hA0
    linarith only [this]
  have hAA₂ : (q + c) * (q + c) ≤ 2 ^ 62 := by
    have := mul_le_mul hA₂ hA₂ hA0 (by positivity)
    linarith only [this]
  have htt := near_mul hA0 hA0 (by norm_num) (by norm_num) ht ht
  obtain ⟨ew, hw⟩ := round32_near hAA₁ hAA₂ (by positivity) (by norm_num) (by norm_num)
    (by norm_num) (by norm_num) htt
  generalize roundQ binary32 (t * t) = w at ew hw
  -- the sum c + 0.001
  have hE₁ : (1 : ℚ) / 2 ^ 10 ≤ c + 1152921504606847 / 2 ^ 60 := by
    have : (1 : ℚ) / 2 ^ 10 ≤ 1152921504606847 / 2 ^ 60 := by norm_num
    linarith only [this, hc₁]
  have hE₂ : c + 1152921504606847 / 2 ^ 60 ≤ 2 ^ 17 := by
    have : (1152921504606847 : ℚ) / 2 ^ 60 ≤ 1 := by norm_num
    linarith only [this, hc₂]
  have hE0 : 0 ≤ c + 1152921504606847 / 2 ^ 60 := le_trans (by positivity) hE₁
  obtain ⟨-, he⟩ := round64_near (l := 1) (h := 1) hE₁ hE₂ (by positivity) (by norm_num)
    (by norm_num) (by norm_num) (by norm_num)
    (show (c + 1152921504606847 / 2 ^ 60) * 1 ≤ c + 1152921504606847 / 2 ^ 60 ∧
      c + 1152921504606847 / 2 ^ 60 ≤ (c + 1152921504606847 / 2 ^ 60) * 1 by
        rw [mul_one]; exact ⟨le_rfl, le_rfl⟩)
  generalize roundQ binary64 (c + 1152921504606847 / 2 ^ 60) = e at he hden
  -- the product
  have hB₁ : (1 : ℚ) / 2 ^ 40 ≤ (q + c) * (q + c) * (c + 1152921504606847 / 2 ^ 60) := by
    have := mul_le_mul hAA₁ hE₁ (by positivity) (le_trans (by positivity) hAA₁)
    linarith only [this]
  have hB₂ : (q + c) * (q + c) * (c + 1152921504606847 / 2 ^ 60) ≤ 2 ^ 79 := by
    have := mul_le_mul hAA₂ hE₂ hE0 (by positivity)
    linarith only [this]
  have hB0 : 0 < (q + c) * (q + c) * (c + 1152921504606847 / 2 ^ 60) :=
    lt_of_lt_of_le (by positivity) hB₁
  have hwe := near_mul (mul_nonneg hA0 hA0) hE0 (by norm_num) (by norm_num) hw he
  obtain ⟨eD, hD⟩ := round64_near hB₁ hB₂ (by positivity) (by norm_num) (by norm_num)
    (by norm_num) (by norm_num) hwe
  generalize roundQ binary64 (w * e) = D at eD hD
  have hD0 : 0 < D := by
    have : 0 < (q + c) * (q + c) * (c + 1152921504606847 / 2 ^ 60) *
        (1 * (1 - 1 / 2 ^ 24) * (1 * (1 - 1 / 2 ^ 24)) * (1 - 1 / 2 ^ 24) *
          (1 * (1 - 1 / 2 ^ 53)) * (1 - 1 / 2 ^ 53)) := mul_pos hB0 (by norm_num)
    exact lt_of_lt_of_le this hD.1
  -- the quotient
  generalize (q + c) * (q + c) * (c + 1152921504606847 / 2 ^ 60) = B at hB₁ hB₂ hB0 hD ⊢
  have hG₁ : (1 : ℚ) / 2 ^ 109 ≤ q / B := by
    rw [le_div_iff₀ hB0]
    have : (1 : ℚ) / 2 ^ 109 * B ≤ 1 / 2 ^ 109 * 2 ^ 79 :=
      mul_le_mul_of_nonneg_left hB₂ (by positivity)
    have e : (1 : ℚ) / 2 ^ 109 * 2 ^ 79 = 1 / 2 ^ 30 := by norm_num
    linarith only [this, e, hq₁]
  have hG₂ : q / B ≤ 2 ^ 70 := by
    rw [div_le_iff₀ hB0]
    have : (2 : ℚ) ^ 70 * (1 / 2 ^ 40) ≤ 2 ^ 70 * B :=
      mul_le_mul_of_nonneg_left hB₁ (by positivity)
    have e : (2 : ℚ) ^ 70 * (1 / 2 ^ 40) = 2 ^ 30 := by norm_num
    linarith only [this, e, hq₂]
  have hqD := near_div hq0.le hB0 (by norm_num) hD
  obtain ⟨eQ, hQ⟩ := round64_near hG₁ hG₂ (by positivity) (by norm_num) (by norm_num)
    (by norm_num) (by norm_num) hqD
  generalize roundQ binary64 (q / D) = Q at eQ hQ
  obtain ⟨er, hr⟩ := round32_near hG₁ hG₂ (by positivity) (by norm_num) (by norm_num)
    (by norm_num) (by norm_num) hQ
  have hG0 : 0 ≤ q / B := le_trans (by positivity) hG₁
  generalize q / B = G at hr hG0 ⊢
  refine ⟨roundQ binary32 Q, ?_, ?_, ?_⟩
  · show FP.cast binary32 (FP.div binary64 (fin q) (derivativeDenominator (fin cp) (fin q))) = _
    rw [hden, et]
    show FP.cast binary32 (FP.div binary64 (fin q)
      (FP.mul binary64 (FP.round binary32 (t * t)) (fin e))) = _
    rw [ew]
    show FP.cast binary32 (FP.div binary64 (fin q) (FP.round binary64 (w * e))) = _
    rw [eD]
    show FP.cast binary32 (if D = 0 then _ else FP.round binary64 (q / D)) = _
    rw [if_neg hD0.ne', eQ]
    exact er
  · refine le_trans (mul_le_mul_of_nonneg_left ?_ hG0) hr.1
    norm_num
  · refine le_trans hr.2 (mul_le_mul_of_nonneg_left ?_ hG0)
    norm_num

/-! ## The computed concentration against the exact square root -/

/-- The value the root is rounded from encloses the exact root within `2⁻⁶⁰⁰`. -/
theorem sqrtRep_sq_bounds {y : ℚ} (hy : 0 ≤ y) :
    ∃ lo : ℚ, 0 ≤ lo ∧ lo * lo ≤ y ∧ y < (lo + 1 / 2 ^ 600) * (lo + 1 / 2 ^ 600) ∧
      lo ≤ sqrtRep y ∧ sqrtRep y ≤ lo + 1 / 2 ^ 600 := by
  obtain ⟨b1, b2⟩ := sqrtRep_bounds y
  obtain ⟨s1, s2⟩ := isqrt_spec ⌊y * 4 ^ 600⌋₊
  have hY : (0 : ℚ) ≤ y * 4 ^ 600 := by positivity
  have f1 : ((⌊y * 4 ^ 600⌋₊ : ℕ) : ℚ) ≤ y * 4 ^ 600 := Nat.floor_le hY
  have f2 : y * 4 ^ 600 < (⌊y * 4 ^ 600⌋₊ : ℕ) + 1 := Nat.lt_floor_add_one _
  generalize ⌊y * 4 ^ 600⌋₊ = n at b1 b2 s1 s2 f1 f2
  generalize isqrt n = s at b1 b2 s1 s2
  have s1' : (s : ℚ) * s ≤ n := by exact_mod_cast s1
  have s2' : (n : ℚ) + 1 ≤ (s + 1) * (s + 1) := by exact_mod_cast s2
  have e4 : (4 : ℚ) ^ 600 = 2 ^ 600 * 2 ^ 600 := by
    rw [← mul_pow]
    congr 1
    norm_num
  have e2 : (2 : ℚ) ^ 601 = 2 ^ 600 * 2 := by rw [← pow_succ]
  have hp : (0 : ℚ) < 2 ^ 600 := by positivity
  rw [e4] at f1 f2
  rw [e2] at b2
  generalize (2 : ℚ) ^ 600 = P at b1 b2 f1 f2 hp ⊢
  clear hY e4 e2
  refine ⟨s / P, by positivity, ?_, ?_, b1, ?_⟩
  · rw [div_mul_div_comm, div_le_iff₀ (by positivity)]
    linarith only [s1', f1]
  · have e : (s : ℚ) / P + 1 / P = (s + 1) / P := by ring
    rw [e, div_mul_div_comm, lt_div_iff₀ (by positivity)]
    linarith only [s2', f2]
  · have e : (s : ℚ) / P + 1 / P = (2 * s + 2) / (P * 2) := by
      field_simp
      ring
    rw [e]
    refine le_trans b2 ?_
    apply div_le_div_of_nonneg_right _ (by positivity)
    linarith only []

/-- For `2⁻³⁰ ≤ cp ≤ 2³⁰` the computed concentration lies in `[2⁻¹⁵, 2¹⁶]` and is within
relative error `2⁻²³` of the exact `sqrt(2 cp)`. -/
theorem concQ_near_sqrt {cp : ℚ} (h₁ : 1 / 2 ^ 30 ≤ cp) (h₂ : cp ≤ 2 ^ 30) :
    (1 / 2 ^ 15 ≤ concQ cp ∧ concQ cp ≤ 2 ^ 16) ∧
      Real.sqrt (2 * (cp : ℝ)) * (1 - 1 / 2 ^ 23) ≤ (concQ cp : ℝ) ∧
      (concQ cp : ℝ) ≤ Real.sqrt (2 * (cp : ℝ)) * (1 + 1 / 2 ^ 23) := by
  have hcp0 : 0 < cp := lt_of_lt_of_le (by positivity) h₁
  rw [show concQ cp = roundQ binary32 (roundQ binary64 (sqrtRep (roundQ binary64 (2 * cp))))
    from rfl]
  -- the doubled argument
  have hx₁ : (1 : ℚ) / 2 ^ 1022 ≤ 2 * cp := by
    have : (1 : ℚ) / 2 ^ 1022 ≤ 1 / 2 ^ 30 := by norm_num
    linarith only [this, h₁]
  obtain ⟨y1, y2⟩ := roundQ64_bounds hx₁
  have hy₁ : (1 : ℚ) / 2 ^ 30 ≤ roundQ binary64 (2 * cp) := by
    have e : (1 : ℚ) / 2 ^ 30 ≤ 2 * (1 / 2 ^ 30) * (1 - 1 / 2 ^ 53) := by norm_num
    have : 2 * (1 / 2 ^ 30) * (1 - 1 / 2 ^ 53) ≤ 2 * cp * (1 - 1 / 2 ^ 53) :=
      mul_le_mul_of_nonneg_right (by linarith only [h₁]) (by norm_num)
    linarith only [y1, this, e]
  have hy₂ : roundQ binary64 (2 * cp) ≤ 2 ^ 32 := by
    have : 2 * cp * (1 + 1 / 2 ^ 53) ≤ 2 * 2 ^ 30 * (1 + 1 / 2 ^ 53) :=
      mul_le_mul_of_nonneg_right (by linarith only [h₂]) (by norm_num)
    have e : (2 : ℚ) * 2 ^ 30 * (1 + 1 / 2 ^ 53) ≤ 2 ^ 32 := by norm_num
    linarith only [y2, this, e]
  have hy0 : 0 ≤ roundQ binary64 (2 * cp) := le_trans (by positivity) hy₁
  -- the root
  obtain ⟨lo, hlo0, hlo1, hlo2, z1, z2⟩ := sqrtRep_sq_bounds hy0
  have hz₁ : (1 : ℚ) / 2 ^ 15 ≤ sqrtRep (roundQ binary64 (2 * cp)) := by
    rw [← show sqrtRep (1 / 2 ^ 30) = 1 / 2 ^ 15 by decide!]
    exact sqrtRep_mono (by positivity) hy₁
  have hz₂ : sqrtRep (roundQ binary64 (2 * cp)) ≤ 2 ^ 16 := by
    rw [← show sqrtRep (2 ^ 32) = 2 ^ 16 by decide!]
    exact sqrtRep_mono hy0 hy₂
  have hu : (1 : ℚ) / 2 ^ 600 ≤ 1 / 2 ^ 68 :=
    one_div_le_one_div_of_le (by positivity) (pow_le_pow_right₀ (by norm_num) (by norm_num))
  have hu0 : (0 : ℚ) < 1 / 2 ^ 600 := by positivity
  generalize (1 : ℚ) / 2 ^ 600 = u at hlo2 z2 hu hu0
  generalize roundQ binary64 (2 * cp) = y at y1 y2 hy0 hlo1 hlo2 z1 z2 hz₁ hz₂ ⊢
  generalize sqrtRep y = z at z1 z2 hz₁ hz₂ ⊢
  -- the two roundings
  obtain ⟨w1, w2⟩ := roundQ64_bounds (le_trans (by norm_num) hz₁ : (1 : ℚ) / 2 ^ 1022 ≤ z)
  have hw₁ : (1 : ℚ) / 2 ^ 15 ≤ roundQ binary64 z := by
    rw [← show roundQ binary64 (1 / 2 ^ 15) = 1 / 2 ^ 15 by decide!]
    exact roundQ_mono _ prec64 hz₁
  have hw₂ : roundQ binary64 z ≤ 2 ^ 16 := by
    rw [← show roundQ binary64 (2 ^ 16) = 2 ^ 16 by decide!]
    exact roundQ_mono _ prec64 hz₂
  generalize roundQ binary64 z = w at w1 w2 hw₁ hw₂ ⊢
  obtain ⟨c1, c2⟩ := roundQ32_bounds (le_trans (by norm_num) hw₁ : (1 : ℚ) / 2 ^ 126 ≤ w)
  have hc₁ : (1 : ℚ) / 2 ^ 15 ≤ roundQ binary32 w := by
    rw [← show roundQ binary32 (1 / 2 ^ 15) = 1 / 2 ^ 15 by decide!]
    exact roundQ_mono _ prec32 hw₁
  have hc₂ : roundQ binary32 w ≤ 2 ^ 16 := by
    rw [← show roundQ binary32 (2 ^ 16) = 2 ^ 16 by decide!]
    exact roundQ_mono _ prec32 hw₂
  generalize roundQ binary32 w = c at c1 c2 hc₁ hc₂ ⊢
  refine ⟨⟨hc₁, hc₂⟩, ?_⟩
  -- over the reals
  have hx0 : (0 : ℝ) ≤ 2 * (cp : ℝ) := by
    have : (0 : ℝ) < (cp : ℝ) := by exact_mod_cast hcp0
    linarith only [this]
  have hσσ := Real.mul_self_sqrt hx0
  have hσ0 := Real.sqrt_nonneg (2 * (cp : ℝ))
  have hσ₁ : (1 : ℝ) / 2 ^ 15 ≤ Real.sqrt (2 * (cp : ℝ)) := by
    rw [← Real.sqrt_mul_self (show (0 : ℝ) ≤ 1 / 2 ^ 15 by positivity)]
    apply Real.sqrt_le_sqrt
    have : ((1 : ℚ) / 2 ^ 30 : ℝ) ≤ (cp : ℝ) := by exact_mod_cast h₁
    norm_num at this ⊢
    linarith only [this]
  have y1' : 2 * (cp : ℝ) * (1 - 1 / 2 ^ 53) ≤ (y : ℝ) := by
    have h := (Rat.cast_le (K := ℝ)).mpr y1
    push_cast at h
    exact h
  have y2' : (y : ℝ) ≤ 2 * (cp : ℝ) * (1 + 1 / 2 ^ 53) := by
    have h := (Rat.cast_le (K := ℝ)).mpr y2
    push_cast at h
    exact h
  have hlo0' : (0 : ℝ) ≤ (lo : ℝ) := by exact_mod_cast hlo0
  have hlo1' : (lo : ℝ) * lo ≤ (y : ℝ) := by exact_mod_cast hlo1
  have hlo2' : (y : ℝ) ≤ ((lo : ℝ) + u) * (lo + u) := by exact_mod_cast hlo2.le
  have hu' : (u : ℝ) ≤ 1 / 2 ^ 68 := by
    have h := (Rat.cast_le (K := ℝ)).mpr hu
    push_cast at h
    exact h
  have hu0' : (0 : ℝ) < (u : ℝ) := by exact_mod_cast hu0
  have z1' : (lo : ℝ) ≤ (z : ℝ) := by exact_mod_cast z1
  have z2' : (z : ℝ) ≤ (lo : ℝ) + u := by exact_mod_cast z2
  have w1' : (z : ℝ) * (1 - 1 / 2 ^ 53) ≤ (w : ℝ) := by
    have h := (Rat.cast_le (K := ℝ)).mpr w1
    push_cast at h
    exact h
  have w2' : (w : ℝ) ≤ (z : ℝ) * (1 + 1 / 2 ^ 53) := by
    have h := (Rat.cast_le (K := ℝ)).mpr w2
    push_cast at h
    exact h
  have c1' : (w : ℝ) * (1 - 1 / 2 ^ 24) ≤ (c : ℝ) := by
    have h := (Rat.cast_le (K := ℝ)).mpr c1
    push_cast at h
    exact h
  have c2' : (c : ℝ) ≤ (w : ℝ) * (1 + 1 / 2 ^ 24) := by
    have h := (Rat.cast_le (K := ℝ)).mpr c2
    push_cast at h
    exact h
  have r1 : (lo : ℝ) ≤ Real.sqrt y := by
    rw [← Real.sqrt_mul_self hlo0']
    exact Real.sqrt_le_sqrt hlo1'
  have r2 : Real.sqrt y ≤ (lo : ℝ) + u := by
    rw [← Real.sqrt_mul_self (show (0 : ℝ) ≤ (lo : ℝ) + u by linarith only [hlo0', hu0'])]
    exact Real.sqrt_le_sqrt hlo2'
  generalize Real.sqrt (2 * (cp : ℝ)) = σ at hσσ hσ0 hσ₁ ⊢
  have r3 : σ * (1 - 1 / 2 ^ 53) ≤ Real.sqrt y := by
    rw [← Real.sqrt_mul_self (show (0 : ℝ) ≤ σ * (1 - 1 / 2 ^ 53) by positivity)]
    apply Real.sqrt_le_sqrt
    have e : σ * (1 - 1 / 2 ^ 53) * (σ * (1 - 1 / 2 ^ 53)) =
        σ * σ * ((1 - 1 / 2 ^ 53) * (1 - 1 / 2 ^ 53)) := by ring
    have : 2 * (cp : ℝ) * ((1 - 1 / 2 ^ 53) * (1 - 1 / 2 ^ 53)) ≤
        2 * (cp : ℝ) * (1 - 1 / 2 ^ 53) := mul_le_mul_of_nonneg_left (by norm_num) hx0
    rw [e, hσσ]
    linarith only [this, y1']
  have r4 : Real.sqrt y ≤ σ * (1 + 1 / 2 ^ 53) := by
    rw [← Real.sqrt_mul_self (show (0 : ℝ) ≤ σ * (1 + 1 / 2 ^ 53) by positivity)]
    apply Real.sqrt_le_sqrt
    have e : σ * (1 + 1 / 2 ^ 53) * (σ * (1 + 1 / 2 ^ 53)) =
        σ * σ * ((1 + 1 / 2 ^ 53) * (1 + 1 / 2 ^ 53)) := by ring
    have : 2 * (cp : ℝ) * (1 + 1 / 2 ^ 53) ≤
        2 * (cp : ℝ) * ((1 + 1 / 2 ^ 53) * (1 + 1 / 2 ^ 53)) :=
      mul_le_mul_of_nonneg_left (by norm_num) hx0
    rw [e, hσσ]
    linarith only [this, y2']
  constructor
  · linarith only [r2, r3, z1', w1', c1', hu', hσ₁]
  · linarith only [r1, r4, z2', w2', c2', hu', hσ₁]

/-! ## The derivative function against the exact derivative -/

/-- For `float` arguments in `[2⁻³⁰, 2³⁰]` the value `dSinkUnloading_dcp` returns is
finite and within relative error `2⁻²⁰` of the exact
`q / ((q + c) * (q + c) * (c + 0.001))`, `c = sqrt(2 cp)`. -/
theorem dSinkUnloading_dcp_near_exact {cp q : ℚ} (hcp : Rep binary32 cp)
    (hcp₁ : 1 / 2 ^ 30 ≤ cp) (hcp₂ : cp ≤ 2 ^ 30) (hq₁ : 1 / 2 ^ 30 ≤ q) (hq₂ : q ≤ 2 ^ 30) :
    ∃ r : ℚ, dSinkUnloading_dcp (fin cp) (fin q) = fin r ∧
      |(r : ℝ) - Lpy.dSinkUnloading_dcp Real.sqrt (cp : ℝ) (q : ℝ)| ≤
        1 / 2 ^ 20 * Lpy.dSinkUnloading_dcp Real.sqrt (cp : ℝ) (q : ℝ) := by
  have hcp0 : 0 ≤ cp := le_trans (by positivity) hcp₁
  obtain ⟨⟨hc₁, hc₂⟩, s1, s2⟩ := concQ_near_sqrt hcp₁ hcp₂
  obtain ⟨r, er, r1, r2⟩ := dSinkUnloading_dcp_chain hcp hcp0 hc₁ hc₂ hq₁ hq₂
  refine ⟨r, er, ?_⟩
  rw [dSinkUnloading_dcp_eq]
  have r1' := (Rat.cast_le (K := ℝ)).mpr r1
  have r2' := (Rat.cast_le (K := ℝ)).mpr r2
  push_cast at r1' r2'
  have hq0 : (0 : ℝ) < (q : ℝ) := by
    have : (0 : ℚ) < q := lt_of_lt_of_le (by positivity) hq₁
    exact_mod_cast this
  have hσ0 := Real.sqrt_nonneg (2 * (cp : ℝ))
  generalize Real.sqrt (2 * (cp : ℝ)) = σ at s1 s2 hσ0 ⊢
  generalize (concQ cp : ℝ) = c at s1 s2 r1' r2'
  generalize (r : ℝ) = ρ at r1' r2' ⊢
  have hA : ((q : ℝ) + σ) * (1 - 1 / 2 ^ 23) ≤ (q : ℝ) + c ∧
      (q : ℝ) + c ≤ ((q : ℝ) + σ) * (1 + 1 / 2 ^ 23) := by
    constructor
    · linarith only [s1, hq0]
    · linarith only [s2, hq0]
  have hE : (σ + 1 / 1000) * (1 - 1 / 2 ^ 23) ≤ c + 1152921504606847 / 2 ^ 60 ∧
      c + 1152921504606847 / 2 ^ 60 ≤ (σ + 1 / 1000) * (1 + 1 / 2 ^ 23) := by
    constructor
    · linarith only [s1]
    · linarith only [s2]
  have hA0 : 0 ≤ (q : ℝ) + σ := by linarith only [hq0, hσ0]
  have hE0 : 0 ≤ σ + 1 / 1000 := by linarith only [hσ0]
  have hAA := near_mul hA0 hA0 (by norm_num) (by norm_num) hA hA
  have hB := near_mul (mul_nonneg hA0 hA0) hE0 (by norm_num) (by norm_num) hAA hE
  have hB0 : 0 < ((q : ℝ) + σ) * ((q : ℝ) + σ) * (σ + 1 / 1000) := by positivity
  have hG := near_div hq0.le hB0 (by norm_num) hB
  have hG0 : 0 ≤ (q : ℝ) / (((q : ℝ) + σ) * ((q : ℝ) + σ) * (σ + 1 / 1000)) := by positivity
  generalize (q : ℝ) / (((q : ℝ) + σ) * ((q : ℝ) + σ) * (σ + 1 / 1000)) = G at hG hG0 ⊢
  generalize (q : ℝ) / (((q : ℝ) + c) * ((q : ℝ) + c) * (c + 1152921504606847 / 2 ^ 60)) = G'
    at hG r1' r2'
  have n1 : G * (1 - 1 / 2 ^ 21) ≤
      G * (1 / ((1 + 1 / 2 ^ 23) * (1 + 1 / 2 ^ 23) * (1 + 1 / 2 ^ 23))) :=
    mul_le_mul_of_nonneg_left (by norm_num) hG0
  have n2 : G * (1 / ((1 - 1 / 2 ^ 23) * (1 - 1 / 2 ^ 23) * (1 - 1 / 2 ^ 23))) ≤
      G * (1 + 1 / 2 ^ 21) :=
    mul_le_mul_of_nonneg_left (by norm_num) hG0
  rw [abs_le]
  constructor
  · linarith only [n1, hG.1, r1', hG0]
  · linarith only [n2, hG.2, r2', hG0]

/-- C4 (amended): for `float` arguments `cp`, `q` in `[2⁻³⁰, 2³⁰]`, the exact flux
`cp' ↦ c / (q + c)`, `c = sqrt(2 cp')`, is differentiable at `cp` with derivative
`q / ((q + c) * (q + c) * c)`; the expression of `dSinkUnloading_dcp` in exact arithmetic
is that derivative scaled by `c / (c + 0.001)`; and the value the code returns in machine
arithmetic is finite and within relative error `2⁻²⁰` of this scaled derivative. -/
theorem dSinkUnloading_dcp_scaled_derivative (cp q : ℚ) (hcp : Rep binary32 cp)
    (_hq : Rep binary32 q) (hcp₁ : 1 / 2 ^ 30 ≤ cp) (hcp₂ : cp ≤ 2 ^ 30)
    (hq₁ : 1 / 2 ^ 30 ≤ q) (hq₂ : q ≤ 2 ^ 30) :
    HasDerivAt (fun x : ℝ => Lpy.SinkUnloading Real.sqrt x (q : ℝ))
        ((q : ℝ) / (((q : ℝ) + Real.sqrt (2 * (cp : ℝ))) * ((q : ℝ) + Real.sqrt (2 * (cp : ℝ))) *
          Real.sqrt (2 * (cp : ℝ)))) (cp : ℝ) ∧
      Lpy.dSinkUnloading_dcp Real.sqrt (cp : ℝ) (q : ℝ) =
        Real.sqrt (2 * (cp : ℝ)) / (Real.sqrt (2 * (cp : ℝ)) + 0.001) *
          ((q : ℝ) / (((q : ℝ) + Real.sqrt (2 * (cp : ℝ))) *
            ((q : ℝ) + Real.sqrt (2 * (cp : ℝ))) * Real.sqrt (2 * (cp : ℝ)))) ∧
      ∃ r : ℚ, dSinkUnloading_dcp (fin cp) (fin q) = fin r ∧
        |(r : ℝ) - Lpy.dSinkUnloading_dcp Real.sqrt (cp : ℝ) (q : ℝ)| ≤
          1 / 2 ^ 20 * Lpy.dSinkUnloading_dcp Real.sqrt (cp : ℝ) (q : ℝ) := by
  have hcp0 : (0 : ℝ) < (cp : ℝ) := by
    have : (0 : ℚ) < cp := lt_of_lt_of_le (by positivity) hcp₁
    exact_mod_cast this
  have hq0 : (0 : ℝ) < (q : ℝ) := by
    have : (0 : ℚ) < q := lt_of_lt_of_le (by positivity) hq₁
    exact_mod_cast this
  exact ⟨hasDerivAt_SinkUnloading _ _ hcp0 hq0, dSinkUnloading_dcp_scaled _ _ hcp0 hq0,
    dSinkUnloading_dcp_near_exact hcp hcp₁ hcp₂ hq₁ hq₂⟩

theorem dSinkUnloading_dcp_scaled_derivative_witness :
    HasDerivAt (fun x : ℝ => Lpy.SinkUnloading Real.sqrt x ((1 : ℚ) : ℝ))
        (((1 : ℚ) : ℝ) / ((((1 : ℚ) : ℝ) + Real.sqrt (2 * ((2 : ℚ) : ℝ))) *
          (((1 : ℚ) : ℝ) + Real.sqrt (2 * ((2 : ℚ) : ℝ))) *
          Real.sqrt (2 * ((2 : ℚ) : ℝ)))) ((2 : ℚ) : ℝ) ∧
      Lpy.dSinkUnloading_dcp Real.sqrt ((2 : ℚ) : ℝ) ((1 : ℚ) : ℝ) =
        Real.sqrt (2 * ((2 : ℚ) : ℝ)) / (Real.sqrt (2 * ((2 : ℚ) : ℝ)) + 0.001) *
          (((1 : ℚ) : ℝ) / ((((1 : ℚ) : ℝ) + Real.sqrt (2 * ((2 : ℚ) : ℝ))) *
            (((1 : ℚ) : ℝ) + Real.sqrt (2 * ((2 : ℚ) : ℝ))) * Real.sqrt (2 * ((2 : ℚ) : ℝ)))) ∧
      ∃ r : ℚ, dSinkUnloading_dcp (fin 2) (fin 1) = fin r ∧
        |(r : ℝ) - Lpy.dSinkUnloading_dcp Real.sqrt ((2 : ℚ) : ℝ) ((1 : ℚ) : ℝ)| ≤
          1 / 2 ^ 20 * Lpy.dSinkUnloading_dcp Real.sqrt ((2 : ℚ) : ℝ) ((1 : ℚ) : ℝ) :=
  dSinkUnloading_dcp_scaled_derivative 2 1 (by decide!) (by decide!) (by norm_num)
    (by norm_num) (by norm_num) (by norm_num)

end IEEE

end Lpy
